import Mathlib

/-!
Verification of the arbitrary-precision signed integer core found in
cruntime/src/integer.c.

The development is a shallow embedding: big integers are little-endian lists
of base-10^9 digits together with a sign flag, the tagged integer value is a
sum of a machine (small) integer and a bigint, and every C function under
test is translated into a Lean function over these types, following the C
control flow.  Machine integers in the C code (digit_t = int32_t, ddigit_t =
int64_t) are modelled as unbounded Int: all intermediate quantities in the
code are bounded well below 2^31 resp. 2^63 (this is the documented design of
the digit base), so no wrap-around is observable and the translation is
exact.  C integer division and modulus (truncation toward zero) are written
with Int.tdiv / Int.tmod where signs can matter; where the C divides
quantities that are provably nonnegative we use Lean division directly, since
all division notions agree there.

The file is organised as: all definitions first, then all theorems.
-/

namespace KokaInt

/-! ### Data model -/

/-- Digit base of the bigint representation: BASE = 10^9 (integer.c). -/
def BASE : Int := 1000000000

/-- Number of decimal digits in one base-BASE digit (LOG_BASE in integer.c). -/
def LOG_BASE : Nat := 9

/-- Modelled from the spec: the constant SMALLINT_MAX is defined in the
runtime headers (runtime.h, runtime/integer.h), which are not part of this
repository snapshot; only integer.c is.  The spec fixes that the Small range
[SMALL_MIN, SMALL_MAX] is chosen by the host so that plus/minus SMALL_MAX is
safe under the tagging scheme, with a conservative floor of plus or minus
2^30.  We model SMALL_MAX as exactly 2^30; every result below that depends on
it uses only SMALLINT_MAX = 2^30 ≥ BASE. -/
def SMALLINT_MAX : Int := 1073741824

/-- Value of a little-endian digit list in base BASE. -/
def valD : List Int → Int
  | [] => 0
  | d :: ds => d + BASE * valD ds

/-- Well-formed digit list: every digit lies in [0, BASE). -/
def wfD (l : List Int) : Prop := ∀ d ∈ l, 0 ≤ d ∧ d < BASE

/-- Digit lists as they occur at operation boundaries: well-formed, and the
top digit is nonzero except for the single-digit zero [0] produced by
bigint_from_int 0 (trimmed zero results are the empty list). -/
def Nice (l : List Int) : Prop := wfD l ∧ (l.getLast? = some 0 → l = [0])

/-- Digit list with a nonzero top digit (or empty). -/
def TopOk (l : List Int) : Prop := l = [] ∨ l.getLast? ≠ some 0

/-- The bigint_t record of integer.c, reduced to its value-relevant fields:
the digits array is modelled by a list whose length is the count field. -/
structure Bigint where
  is_neg : Bool
  digits : List Int
deriving DecidableEq

/-- Signed value of a bigint, as documented at the top of integer.c:
n = (is_neg ? -1 : 1) * sum of digits[i] * BASE^i. -/
def bigVal (b : Bigint) : Int :=
  (if b.is_neg then -1 else 1) * valD b.digits

/-- The tagged integer_t value: either a small machine integer or a pointer
to a bigint. -/
inductive Integer where
  | small : Int → Integer
  | big : Bigint → Integer
deriving DecidableEq

/-- Mathematical value of an integer_t. -/
def intVal : Integer → Int
  | .small n => n
  | .big b => bigVal b

/-- Whether an integer is in the small (tagged machine integer) variant. -/
def isSmall : Integer → Bool
  | .small _ => true
  | .big _ => false

/-- Digits of a natural number, least significant first: the do-while loop of
bigint_from_int (push i mod BASE; i = i / BASE; repeat while i > 0).  The
first argument is recursion fuel: any fuel at least n yields the loop result
(theorem natDigitsAux_fuel below); structural recursion on the fuel keeps the
definition kernel-reducible. -/
def natDigitsAux : Nat → Nat → List Int
  | 0, n => [((n % 1000000000 : Nat) : Int)]
  | fuel + 1, n =>
    if n / 1000000000 = 0 then [((n % 1000000000 : Nat) : Int)]
    else ((n % 1000000000 : Nat) : Int) :: natDigitsAux fuel (n / 1000000000)

/-- Digit list of a natural number as built by bigint_from_int. -/
def natDigits (n : Nat) : List Int := natDigitsAux n n

/-- bigint_from_int of integer.c: strip the sign, then emit base digits. -/
def bigint_from_int (i : Int) : Bigint :=
  ⟨decide (i < 0), natDigits i.natAbs⟩

/-- integer_to_bigint of integer.c: unpack an integer to a bigint always. -/
def integer_to_bigint : Integer → Bigint
  | .small n => bigint_from_int n
  | .big b => b

/-- integer_bigint of integer.c: box a bigint result, demoting it to a small
integer exactly when it has a single digit not exceeding SMALLINT_MAX. -/
def integer_bigint (x : Bigint) : Integer :=
  if x.digits.length = 1 ∧ x.digits.headD 0 ≤ SMALLINT_MAX then
    Integer.small (if x.is_neg then -(x.digits.headD 0) else x.digits.headD 0)
  else Integer.big x

/-- Modelled from the spec: integer_from_int is declared in the missing
runtime header; per the spec (section 6.1, from_int) it routes a machine
integer to the Small variant when it is in range and otherwise builds a
bigint. -/
def integer_from_int (i : Int) : Integer :=
  if -SMALLINT_MAX ≤ i ∧ i ≤ SMALLINT_MAX then Integer.small i
  else Integer.big (bigint_from_int i)

/-- Well-formed public-boundary integer: a Small holds a machine integer in
the Small range; a Big is canonical (digits in range, nonzero top digit) and
does not fit in a single digit, hence — since SMALLINT_MAX ≥ BASE — never
fits the Small range.  This is the canonical-form invariant of spec
section 3. -/
def WF : Integer → Prop
  | .small n => -SMALLINT_MAX ≤ n ∧ n ≤ SMALLINT_MAX
  | .big b => wfD b.digits ∧ 2 ≤ b.digits.length ∧ b.digits.getLast? ≠ some 0

instance wfD_dec (l : List Int) : Decidable (wfD l) :=
  inferInstanceAs (Decidable (∀ d ∈ l, 0 ≤ d ∧ d < BASE))

instance WF_dec (x : Integer) : Decidable (WF x) :=
  match x with
  | .small _ => inferInstanceAs (Decidable (_ ∧ _))
  | .big _ => inferInstanceAs (Decidable (_ ∧ _ ∧ _))

/-- integer_signum_generic of integer.c, translated verbatim: note that the
zero test compares the count field against 0 (not 1).  For a zero-length
digits list the C code reads digits[0] from the allocation slack
(allocations always hold at least 4 digit slots), an unspecified value that
we model as 0; the theorems below never depend on that branch. -/
def integer_signum_generic (x : Integer) : Int :=
  let bx := integer_to_bigint x
  if bx.is_neg then -1
  else if bx.digits.length = 0 ∧ bx.digits.headD 0 = 0 then 0
  else 1

/-! ### Storage-layer trim -/

/-- Drop zero digits from the top: the scan loop of bigint_trim. -/
def trimTop : List Int → List Int
  | [] => []
  | d :: ds =>
    match trimTop ds with
    | [] => if d = 0 then [] else [d]
    | r => d :: r

/-- bigint_trim of integer.c (the allow_realloc flag affects only storage). -/
def bigint_trim (b : Bigint) : Bigint := ⟨b.is_neg, trimTop b.digits⟩

/-! ### Addition and subtraction -/

/-- Carry-propagation, tail-copy and final-carry phases of bigint_add_abs. -/
def addCarry : List Int → Int → List Int
  | [], carry => if carry = 0 then [] else [carry]
  | x :: xs, carry =>
    if carry = 0 then x :: xs
    else
      let s := x + carry
      if s ≥ BASE then (s - BASE) :: addCarry xs 1 else s :: addCarry xs 0

/-- Main loop of bigint_add_abs: digitwise sum with carry over the common
prefix; the second list is assumed no longer than the first (the caller
bigint_add arranges this; the final clause is unreachable then). -/
def addAbsDigits : List Int → List Int → Int → List Int
  | xs, [], carry => addCarry xs carry
  | x :: xs, y :: ys, carry =>
    let s := x + y + carry
    if s ≥ BASE then (s - BASE) :: addAbsDigits xs ys 1
    else s :: addAbsDigits xs ys 0
  | [], _ :: _, _ => []

/-- bigint_add_abs of integer.c: precondition count x ≥ count y; the result
keeps the sign flag of x (the caller overwrites it).  The cz estimate and the
final trim_to produce exactly the digits written by the loops, which is what
the list result holds. -/
def bigint_add_abs (x y : Bigint) : Bigint :=
  ⟨x.is_neg, addAbsDigits x.digits y.digits 0⟩

/-- Borrow-propagation and tail-copy phases of bigint_sub_abs.  When the
borrow survives past the last digit it is silently dropped, exactly as in the
C code (which merely asserts borrow == 0 there). -/
def subBorrow : List Int → Int → List Int
  | [], _ => []
  | x :: xs, borrow =>
    if borrow = 0 then x :: xs
    else
      let d := x - borrow
      if d < 0 then (d + BASE) :: subBorrow xs 1 else d :: subBorrow xs 0

/-- Main loop of bigint_sub_abs. -/
def subAbsDigits : List Int → List Int → Int → List Int
  | xs, [], borrow => subBorrow xs borrow
  | x :: xs, y :: ys, borrow =>
    let d := x - borrow - y
    if d < 0 then (d + BASE) :: subAbsDigits xs ys 1
    else d :: subAbsDigits xs ys 0
  | [], _ :: _, _ => []

/-- bigint_sub_abs of integer.c at value level: precondition |x| ≥ |y|.  The
tail-copy loop of the C code also writes one slot at index count(x); that
slot lies beyond the result count and is cut by the final trim, so it has no
value effect (its memory safety is analysed separately for claim C10). -/
def bigint_sub_abs (x y : Bigint) : Bigint :=
  bigint_trim ⟨x.is_neg, subAbsDigits x.digits y.digits 0⟩

/-- Top-down digit comparison of equal-length lists, most significant first:
the scan loop of bigint_compare_abs_. -/
def cmpMSF : List Int → List Int → Int
  | a :: as, b :: bs => if a = b then cmpMSF as bs else if a > b then 1 else -1
  | _, _ => 0

/-- bigint_compare_abs_ of integer.c. -/
def bigint_compare_abs (x y : Bigint) : Int :=
  if x.digits.length > y.digits.length then 1
  else if x.digits.length < y.digits.length then -1
  else cmpMSF x.digits.reverse y.digits.reverse

/-- Same-sign branch of bigint_add: bigint_add_abs on the larger-count
operand, then the result sign is set to yneg. -/
def addSame (x y : Bigint) (yneg : Bool) : Bigint :=
  if x.digits.length < y.digits.length then ⟨yneg, (bigint_add_abs y x).digits⟩
  else ⟨yneg, (bigint_add_abs x y).digits⟩

/-- Same-sign branch of bigint_sub: compare magnitudes and subtract the
smaller from the larger; in the swapped branch the sign becomes not yneg. -/
def subSame (x y : Bigint) (yneg : Bool) : Bigint :=
  if bigint_compare_abs x y ≥ 0 then bigint_sub_abs x y
  else ⟨!yneg, (bigint_sub_abs y x).digits⟩

/-- bigint_add of integer.c.  bigint_add and bigint_sub are mutually
recursive in the C source, but each bounces at most once: when the signs
disagree, the callee immediately takes its non-recursive branch.  These
definitions are that one-step unfolding. -/
def bigint_add (x y : Bigint) (yneg : Bool) : Bigint :=
  if x.is_neg ≠ yneg then subSame x y (!yneg) else addSame x y yneg

/-- bigint_sub of integer.c (see bigint_add). -/
def bigint_sub (x y : Bigint) (yneg : Bool) : Bigint :=
  if x.is_neg ≠ yneg then addSame x y (!yneg) else subSame x y yneg

/-- bigint_neg of integer.c (bigint_ensure_unique affects only storage). -/
def bigint_neg (x : Bigint) : Bigint := ⟨!x.is_neg, x.digits⟩

/-- integer_neg_generic of integer.c. -/
def integer_neg_generic (x : Integer) : Integer :=
  integer_bigint (bigint_neg (integer_to_bigint x))

/-- integer_add_generic of integer.c. -/
def integer_add_generic (x y : Integer) : Integer :=
  integer_bigint
    (bigint_add (integer_to_bigint x) (integer_to_bigint y)
      (integer_to_bigint y).is_neg)

/-- integer_sub_generic of integer.c. -/
def integer_sub_generic (x y : Integer) : Integer :=
  integer_bigint
    (bigint_sub (integer_to_bigint x) (integer_to_bigint y)
      (integer_to_bigint y).is_neg)

/-! ### Multiplication by a single digit, division -/

/-- Trailing carry loop of bigint_mul_small (while carry > 0 append
carry mod BASE).  The fuel 64 strictly dominates the number of iterations
possible for the int64 carry of the C code (at most 3 base-10^9 digits). -/
def carryDigits : Nat → Int → List Int
  | 0, _ => []
  | fuel + 1, carry =>
    if carry > 0 then (carry % BASE) :: carryDigits fuel (carry / BASE)
    else []

/-- Main loop of bigint_mul_small: one-pass multiply with carry. -/
def mulSmallLoop (y : Int) : List Int → Int → List Int
  | [], carry => carryDigits 64 carry
  | d :: ds, carry =>
    let prod := d * y + carry
    let c := prod / BASE
    (prod - c * BASE) :: mulSmallLoop y ds c

/-- bigint_mul_small of integer.c with |y| < BASE.  The sign logic of the C
code (is_neg = x negative and y negative; flip only if z is not already
negative) never flips the flag, since z inherits the flag of x; so the
result keeps the sign flag of x. -/
def bigint_mul_small (x : Bigint) (y : Int) : Bigint :=
  ⟨x.is_neg, mulSmallLoop (if y < 0 then -y else y) x.digits 0⟩

/-- Top-down single-digit long division (the loop of bigint_div_mod_small):
processes digits most significant first, threading the partial remainder. -/
def divModSmallMSF (y : Int) : List Int → Int → List Int × Int
  | [], m => ([], m)
  | d :: ds, m =>
    let dd := m * BASE + d
    let q := dd / y
    let r := divModSmallMSF y ds (dd - q * y)
    (q :: r.1, r.2)

/-- bigint_div_mod_small of integer.c: quotient bigint (trimmed, keeping the
sign flag of x, as alloc_reuse does) and the remainder. -/
def bigint_div_mod_small (x : Bigint) (y : Int) : Bigint × Int :=
  let r := divModSmallMSF y x.digits.reverse 0
  (bigint_trim ⟨x.is_neg, r.1.reverse⟩, r.2)

/-- Inner subtraction loop of bigint_div_mod: subtract qd times the divisor
digits from the remainder window, tracking a multiplicative carry and a
subtractive borrow; returns the new window and the final borrow (0 or -1).
The loop runs over the divisor digits (count cd); the window always has the
same length. -/
def subMulLoop (qd : Int) : List Int → List Int → Int → Int → List Int × Int
  | v :: vs, w :: ws, carry, borrow =>
    let carry1 := carry + qd * v
    let q := carry1 / BASE
    let borrow1 := borrow + w - (carry1 - q * BASE)
    if borrow1 < 0 then
      let r := subMulLoop qd vs ws q (-1)
      ((borrow1 + BASE) :: r.1, r.2)
    else
      let r := subMulLoop qd vs ws q 0
      (borrow1 :: r.1, r.2)
  | _, ws, _, borrow => (ws, borrow)

/-- Add-back loop of the quotient correction in bigint_div_mod: adds the
divisor into the window, returning the new window and the outgoing carry
(0 or 1). -/
def addBackLoop : List Int → List Int → Int → List Int × Int
  | v :: vs, w :: ws, carry =>
    let t := carry + w - BASE + v
    if t < 0 then
      let r := addBackLoop vs ws 0
      ((t + BASE) :: r.1, r.2)
    else
      let r := addBackLoop vs ws 1
      (t :: r.1, r.2)
  | _, ws, carry => (ws, carry)

/-- Correction loop of bigint_div_mod (while borrow is nonzero: decrement
qd and add the divisor back).  Structural recursion on fuel; the callers
pass fuel BASE, which the correctness proof shows is never exhausted (qd
starts below BASE and decreases every iteration while remaining
nonnegative). -/
def correctLoop (dv : List Int) : Nat → Int → List Int → Int → Int × List Int
  | 0, qd, w, _ => (qd, w)
  | fuel + 1, qd, w, borrow =>
    if borrow = 0 then (qd, w)
    else
      let r := addBackLoop dv w 0
      correctLoop dv fuel (qd - 1) r.1 (borrow + r.2)

/-- One iteration of the main division loop: trial quotient digit from the
top two window digits, subtraction of qd times the divisor, and the
correction loop. -/
def trialStep (dv : List Int) (divisorHi : Int) (w : List Int) : Int × List Int :=
  let wtop := w.getLast?.getD 0
  let wnext := w.dropLast.getLast?.getD 0
  let qd0 : Int :=
    if wtop ≠ divisorHi then (wtop * BASE + wnext) / divisorHi else BASE - 1
  let s := subMulLoop qd0 dv w 0 0
  correctLoop dv BASE.toNat qd0 s.1 s.2

/-- Main loop of bigint_div_mod, for shift = s down to 0: each iteration
rewrites the window rem[shift .. shift+cd) and stores the quotient digit at
z[shift].  Returns the quotient digits (little endian) and the final
remainder digits. -/
def divModLoop (dv : List Int) (divisorHi : Int) : Nat → List Int → List Int × List Int
  | 0, rem =>
    let cd := dv.length
    let r := trialStep dv divisorHi (rem.take cd)
    ([r.1], r.2 ++ rem.drop cd)
  | s + 1, rem =>
    let cd := dv.length
    let r := trialStep dv divisorHi ((rem.drop (s + 1)).take cd)
    let rem2 := rem.take (s + 1) ++ r.2 ++ rem.drop (s + 1 + cd)
    let rest := divModLoop dv divisorHi s rem2
    (rest.1 ++ [r.1], rest.2)

/-- bigint_div_mod of integer.c (Knuth long division with normalization by
lambda).  Precondition as asserted in the C code: count x ≥ count y ≥ 2
(and |x| > |y|, arranged by the caller).  The remainder is always computed
(the C code skips the denormalization when pmod is NULL; the quotient is
unaffected). -/
def bigint_div_mod (x y : Bigint) : Bigint × Bigint :=
  let cx := x.digits.length
  let cy := y.digits.length
  let is_neg : Bool := x.is_neg ≠ y.is_neg
  let divisorHi0 := y.digits.getLast?.getD 0
  let lam := (BASE + 2 * divisorHi0 - 1) / (2 * divisorHi0)
  let rem0 := bigint_mul_small x lam
  let rem := if rem0.digits.length ≤ cx then rem0.digits ++ [0] else rem0.digits
  let dv0 := bigint_mul_small y lam
  let divisorHi := dv0.digits.getLast?.getD 0
  let dv := dv0.digits ++ [0]
  let r := divModLoop dv divisorHi (cx - cy) rem
  let z := bigint_trim ⟨is_neg, r.1⟩
  let md := bigint_div_mod_small ⟨x.is_neg, r.2⟩ lam
  (z, md.1)

/-- The fall-through path of integer_div_mod_generic: full bigint division
after the magnitude comparison. -/
def divModBig (x y : Integer) : Option (Integer × Integer) :=
  let bx := integer_to_bigint x
  let yb := integer_to_bigint y
  let cmp := bigint_compare_abs bx yb
  if cmp < 0 then some (.small 0, x)
  else if cmp = 0 then
    some (.small (if bx.is_neg = yb.is_neg then 1 else -1), .small 0)
  else
    let qneg : Bool := bx.is_neg ≠ yb.is_neg
    let mneg := bx.is_neg
    let r := bigint_div_mod bx yb
    some (integer_bigint ⟨qneg, r.1.digits⟩, integer_bigint ⟨mneg, r.2.digits⟩)

/-- integer_div_mod_generic of integer.c.  The C function signals division
by zero by returning the sentinel value 0 instead of a boxed integer (the
comment reads: raise div-by-zero); we model that failure as none. -/
def integer_div_mod_generic (x y : Integer) : Option (Integer × Integer) :=
  match y with
  | .small yv =>
    if yv = 0 then none
    else if yv = 1 then some (x, .small 0)
    else if yv = -1 then some (integer_neg_generic x, .small 0)
    else
      let ay := if yv < 0 then -yv else yv
      if ay < BASE then
        let bx := integer_to_bigint x
        let xneg := bx.is_neg
        let r := bigint_div_mod_small bx ay
        let imod := if xneg then -r.2 else r.2
        some (integer_bigint ⟨decide (xneg ≠ decide (yv < 0)), r.1.digits⟩,
          integer_from_int imod)
      else divModBig x y
  | .big _ => divModBig x y

/-- integer_div_generic of integer.c (mod output not requested; the
quotient is identical). -/
def integer_div_generic (x y : Integer) : Option Integer :=
  (integer_div_mod_generic x y).map Prod.fst

/-- integer_mod_generic of integer.c. -/
def integer_mod_generic (x y : Integer) : Option Integer :=
  (integer_div_mod_generic x y).map Prod.snd

/-! ### Multiplication (schoolbook and Karatsuba) and decimal scaling -/

/-- Inner loop of bigint_mul for a fixed digit dx of x: prod = dx * dy +
z[i+j]; carry = prod / BASE; store the low part and add the carry into the
next buffer position. -/
def mulInner (dx : Int) : List Int → List Int → List Int
  | dy :: ys, z0 :: z1 :: zs =>
    let prod := dx * dy + z0
    let carry := prod / BASE
    (prod - carry * BASE) :: mulInner dx ys ((z1 + carry) :: zs)
  | _, zs => zs

/-- Outer loop of bigint_mul: after processing digit dx against all of y,
buffer position i is final; continue at position i + 1. -/
def mulLoop (ys : List Int) : List Int → List Int → List Int
  | [], zs => zs
  | dx :: xs, zs =>
    match mulInner dx ys zs with
    | z0 :: rest => z0 :: mulLoop ys xs rest
    | [] => []

/-- bigint_mul of integer.c: schoolbook multiplication into a pre-zeroed
buffer of cx + cy digits, sign the xor of the signs, then trim. -/
def bigint_mul (x y : Bigint) : Bigint :=
  bigint_trim ⟨decide (x.is_neg ≠ y.is_neg),
    mulLoop y.digits x.digits (List.replicate (x.digits.length + y.digits.length) 0)⟩

/-- bigint_sqr of integer.c. -/
def bigint_sqr (x : Bigint) : Bigint := bigint_mul x x

/-- bigint_shift_left of integer.c: prepend zero digits (memmove up and
zero-fill); nonpositive shifts return x unchanged. -/
def bigint_shift_left (x : Bigint) (digits : Nat) : Bigint :=
  if digits = 0 then x else ⟨x.is_neg, List.replicate digits 0 ++ x.digits⟩

/-- bigint_slice of integer.c: digits [lo, hi) with the sign of x, indices
clamped to the count; an empty slice yields the single digit 0 (the C code
backfills one zero digit). -/
def bigint_slice (x : Bigint) (lo hi : Nat) : Bigint :=
  let ds := (x.digits.drop lo).take (hi - lo)
  if ds.isEmpty then ⟨x.is_neg, [0]⟩ else ⟨x.is_neg, ds⟩

/-- bigint_mul_karatsuba of integer.c, with explicit recursion fuel kept
structural (each recursive call at least halves the larger count, so fuel
equal to the larger count always suffices; the wrapper below passes it).
At max count ≤ 25 it defers to schoolbook multiplication. -/
def bigint_mul_karatsubaAux : Nat → Bigint → Bigint → Bigint
  | 0, x, y => bigint_mul x y
  | fuel + 1, x, y =>
    let n0 := max x.digits.length y.digits.length
    if n0 ≤ 25 then bigint_mul x y
    else
      let n := (n0 + 1) / 2
      let b := bigint_slice x n x.digits.length
      let a := bigint_slice x 0 n
      let d := bigint_slice y n y.digits.length
      let c := bigint_slice y 0 n
      let ac := bigint_mul_karatsubaAux fuel a c
      let bd := bigint_mul_karatsubaAux fuel b d
      let abcd := bigint_mul_karatsubaAux fuel
        (bigint_add a b b.is_neg) (bigint_add c d d.is_neg)
      let p1 := bigint_shift_left
        (bigint_sub (bigint_sub abcd ac ac.is_neg) bd bd.is_neg) n
      let p2 := bigint_shift_left bd (2 * n)
      bigint_trim (bigint_add (bigint_add ac p1 p1.is_neg) p2 p2.is_neg)

/-- bigint_mul_karatsuba of integer.c (fuel instantiated). -/
def bigint_mul_karatsuba (x y : Bigint) : Bigint :=
  bigint_mul_karatsubaAux (max x.digits.length y.digits.length) x y

/-- use_karatsuba of integer.c.  The C source evaluates
0.000012*(i*j) - 0.0025*(i+j) >= 0 in double arithmetic; we model the
printed constants exactly, scaling by 10^6 to the rational condition
2500*(i+j) ≤ 12*i*j.  Rounding of the two double constants could disagree
with this only at sizes where the exact expression is within the rounding
error of zero; nothing below depends on the exact boundary. -/
def use_karatsuba (i j : Nat) : Bool := decide (2500 * (i + j) ≤ 12 * (i * j))

/-- integer_mul_generic of integer.c: promote both operands and choose
Karatsuba or schoolbook by the cost model. -/
def integer_mul_generic (x y : Integer) : Integer :=
  let bx := integer_to_bigint x
  let yb := integer_to_bigint y
  if use_karatsuba bx.digits.length yb.digits.length then
    integer_bigint (bigint_mul_karatsuba bx yb)
  else integer_bigint (bigint_mul bx yb)

/-- Modelled from the spec: integer_mul is the header wrapper of section 5
(fast path when both operands are Small and the product provably fits in
Small; otherwise the generic big path). -/
def integer_mul (x y : Integer) : Integer :=
  match x, y with
  | .small a, .small b =>
    if -SMALLINT_MAX ≤ a * b ∧ a * b ≤ SMALLINT_MAX then .small (a * b)
    else integer_mul_generic (.small a) (.small b)
  | _, _ => integer_mul_generic x y

/-- Modelled from the spec: integer_div is the header wrapper of section 5
(machine truncated division on the Small fast path — the quotient always
fits; otherwise the generic path).  Section 7: division by zero fails; the
call sites below always pass a nonzero power of ten, and for totality the
zero divisor maps to the same raw 0 sentinel the generic C path returns. -/
def integer_div (x y : Integer) : Integer :=
  match x, y with
  | .small a, .small b => if b = 0 then .small 0 else .small (Int.tdiv a b)
  | _, _ => ((integer_div_generic x y).getD (.small 0))

/-- powers_of_10 of integer.c: the table {1, 10, ..., 10^9}. -/
def powers_of_10 (i : Nat) : Int :=
  [1, 10, 100, 1000, 10000, 100000, 1000000, 10000000,
    100000000, 1000000000].getD i 0

/-- Nonnegative-exponent core of integer_mul_pow10 (the code after the
sign check): small multiply for Small x and small exponent; otherwise
split p = large * LOG_BASE + small, multiply by 10^small and shift left by
large base digits. -/
def integer_mul_pow10_nonneg (x : Integer) (i : Int) : Integer :=
  if isSmall x = true ∧ i < (LOG_BASE : Int) then
    integer_mul x (integer_from_int (powers_of_10 i.toNat))
  else
    let large := (i / (LOG_BASE : Int)).toNat
    let small := (i % (LOG_BASE : Int)).toNat
    let b := integer_to_bigint x
    let b1 := if 0 < small then bigint_mul_small b (powers_of_10 small) else b
    let b2 := if 0 < large then ⟨b1.is_neg, List.replicate large 0 ++ b1.digits⟩ else b1
    integer_bigint b2

/-- Nonnegative-exponent core of integer_div_pow10: small divide for Small
x and small exponent; otherwise drop large low base digits (returning 0
when that consumes every digit; note the C code does not re-trim after the
shift) and divide by 10^small. -/
def integer_div_pow10_nonneg (x : Integer) (i : Int) : Integer :=
  if isSmall x = true ∧ i < (LOG_BASE : Int) then
    integer_div x (integer_from_int (powers_of_10 i.toNat))
  else
    let large := (i / (LOG_BASE : Int)).toNat
    let small := (i % (LOG_BASE : Int)).toNat
    let b := integer_to_bigint x
    if 0 < large ∧ b.digits.length ≤ large then .small 0
    else
      let b1 := if 0 < large then ⟨b.is_neg, b.digits.drop large⟩ else b
      let b2 := if 0 < small then (bigint_div_mod_small b1 (powers_of_10 small)).1 else b1
      integer_bigint b2

/-- integer_mul_pow10 of integer.c.  A Big exponent hits the branch
`if (!is_smallint(p)) { // TODO: raise error
return integer_from_small(0); }` — the BadScaleExponent error is a TODO
and the function returns the integer 0 instead.  A negative exponent
delegates to the division core (the delegated-to entry re-checks p = 0 and
x = 0, both already excluded, so the one-step unfolding is exact). -/
def integer_mul_pow10 (x p : Integer) : Integer :=
  if p = .small 0 then x
  else if x = .small 0 then .small 0
  else
    match p with
    | .big _ => .small 0
    | .small i =>
      if i < 0 then integer_div_pow10_nonneg x (-i)
      else integer_mul_pow10_nonneg x i

/-- integer_div_pow10 of integer.c (see integer_mul_pow10: the Big
exponent branch returns 0 with the error left as a TODO). -/
def integer_div_pow10 (x p : Integer) : Integer :=
  if p = .small 0 then x
  else if x = .small 0 then .small 0
  else
    match p with
    | .big _ => .small 0
    | .small i =>
      if i < 0 then integer_mul_pow10_nonneg x (-i)
      else integer_div_pow10_nonneg x i

/-! ### Decimal parsing -/

/-- isdigit of ctype.h restricted to the decimal digits (the parser only
ever passes characters of the input string; the NUL terminator is treated
as the end of the list). -/
def isdigitC (c : Char) : Bool := decide (48 ≤ c.toNat ∧ c.toNat ≤ 57)

/-- Lookahead s[i+1]: the next character exists and is a digit (the C code
reads s[i+1], which at the end of the string is the NUL terminator and not
a digit). -/
def nextDigit : List Char → Bool
  | c :: _ => isdigitC c
  | [] => false

/-- Lookahead of the fraction scanner's exponent break: the next character
is a digit other than 0 (the `s[i+1] != '0'` clause of integer_parse). -/
def nextDigitNonzero : List Char → Bool
  | c :: _ => isdigitC c && decide (c ≠ '0')
  | [] => false

/-- Significand loop of integer_parse: count digits, skip underscores
flanked on the right by a digit, and stop at '.', 'e' or 'E' when followed
by a digit; anything else is an error.  The accumulator collects the digit
characters in reverse order (the C code re-reads them from the buffer;
positions of non-digits are immaterial, only the digit sequence is). -/
def scanSig : List Char → Nat → List Char → Option (Nat × List Char × List Char)
  | [], sig, acc => some (sig, acc, [])
  | c :: rest, sig, acc =>
    if isdigitC c then scanSig rest (sig + 1) (c :: acc)
    else if c = '_' ∧ nextDigit rest then scanSig rest sig acc
    else if (c = '.' ∨ c = 'e' ∨ c = 'E') ∧ nextDigit rest then some (sig, acc, c :: rest)
    else none

/-- Fraction loop of integer_parse: like the significand loop, but the
exponent break additionally requires the digit after 'e'/'E' to be
nonzero. -/
def scanFrac : List Char → Nat → List Char → Option (Nat × List Char × List Char)
  | [], fr, acc => some (fr, acc, [])
  | c :: rest, fr, acc =>
    if isdigitC c then scanFrac rest (fr + 1) (c :: acc)
    else if c = '_' ∧ nextDigit rest then scanFrac rest fr acc
    else if (c = 'e' ∨ c = 'E') ∧ nextDigitNonzero rest then some (fr, acc, c :: rest)
    else none

/-- Exponent loop of integer_parse: decimal digits only, accumulated with
an overflow check rejecting any prefix value exceeding BASE. -/
def scanExp : List Char → Nat → Option Nat
  | [], e => some e
  | c :: rest, e =>
    if isdigitC c then
      if BASE < ((10 * e + (c.toNat - 48) : Nat) : Int) then none
      else scanExp rest (10 * e + (c.toNat - 48))
    else none

/-- Sign prefix of integer_parse: optional '+' or '-'. -/
def stripSign (s : List Char) : Bool × List Char :=
  match s with
  | c :: rest =>
    if c = '+' then (false, rest)
    else if c = '-' then (true, rest)
    else (false, s)
  | [] => (false, s)

/-- One chunk of the bigint construction loop of integer_parse: read n
decimal digit characters most significant first, treating an exhausted
input as '0' fill. -/
def readChunkAux : Nat → List Char → Int → Int × List Char
  | 0, p, d => (d, p)
  | j + 1, [], d => readChunkAux j [] (10 * d)
  | j + 1, c :: p, d => readChunkAux j p (10 * d + ((c.toNat : Int) - 48))

/-- Chunking loop of the bigint construction of integer_parse: while digit
characters remain, read one chunk (the first of size chunk0, the rest of
size LOG_BASE) and emit its value; chunks are produced most significant
first.  Fuel bounded by the character count. -/
def bigChunksAux : Nat → Nat → List Char → List Int
  | 0, _, _ => []
  | fuel + 1, chunk, p =>
    match p with
    | [] => []
    | _ :: _ =>
      let r := readChunkAux chunk p 0
      r.1 :: bigChunksAux fuel LOG_BASE r.2

/-- integer_parse of integer.c on the character list of the input string:
optional sign; significand digits with flanked underscores; optional
fraction after '.'; optional exponent after 'e'/'E' (which, after a
fraction, must not start with '0'); the exponent must be at least the
number of fraction digits; the value is the mantissa digits times
10^(exp - frac_digits), built as a machine integer when it has fewer than
LOG_BASE decimal digits and as a bigint otherwise.  The C function returns
the NULL box on malformed input, modelled as none. -/
def integer_parse (s : List Char) : Option Integer :=
  let sgn := stripSign s
  let is_neg := sgn.1
  let s1 := sgn.2
  if nextDigit s1 = false then none
  else
    match scanSig s1 0 [] with
    | none => none
    | some (sig, acc1, rest1) =>
      let fracRes : Option (Nat × List Char × List Char) :=
        match rest1 with
        | c :: rest2 => if c = '.' then scanFrac rest2 0 acc1 else some (0, acc1, rest1)
        | [] => some (0, acc1, rest1)
      match fracRes with
      | none => none
      | some (frac, acc2, rest2) =>
        let expRes : Option Nat :=
          match rest2 with
          | c :: rest3 => if c = 'e' ∨ c = 'E' then scanExp rest3 0 else some 0
          | [] => some 0
        match expRes with
        | none => none
        | some exp =>
          if exp < frac then none
          else
            let zero_digits := exp - frac
            let md := acc2.reverse
            let dec_digits := sig + frac + zero_digits
            if dec_digits < LOG_BASE then
              let d : Int := (md.foldl (fun a c => 10 * a + ((c.toNat : Int) - 48)) 0)
                * 10 ^ zero_digits
              some (integer_from_int (if is_neg then -d else d))
            else
              let count := (dec_digits + (LOG_BASE - 1)) / LOG_BASE
              let chunk0 := if dec_digits % LOG_BASE = 0 then LOG_BASE
                else dec_digits % LOG_BASE
              let cs := bigChunksAux md.length chunk0 md
              some (integer_bigint
                ⟨is_neg, List.replicate (count - cs.length) 0 ++ cs.reverse⟩)

/-! ### The spec's parse grammar (for the refinement claim about parse) -/

/-- Grammar from the spec's words, significand: "one or more decimal
digits with optional internal underscore separators (each underscore must
be flanked by digits)", the run ending at the string end or at a
fraction/exponent marker that a digit must follow. -/
def specSig : List Char → Nat → Option (Nat × List Char)
  | [], sig => some (sig, [])
  | c :: rest, sig =>
    if isdigitC c then specSig rest (sig + 1)
    else if c = '_' ∧ nextDigit rest then specSig rest sig
    else if (c = '.' ∨ c = 'e' ∨ c = 'E') ∧ nextDigit rest then some (sig, c :: rest)
    else none

/-- Grammar from the spec's words, fraction: "optional fractional part
.ddd (same underscore rule)", ending at the string end or at an exponent
marker followed by a digit — with no restriction on which digit. -/
def specFrac : List Char → Nat → Option (Nat × List Char)
  | [], fr => some (fr, [])
  | c :: rest, fr =>
    if isdigitC c then specFrac rest (fr + 1)
    else if c = '_' ∧ nextDigit rest then specFrac rest fr
    else if (c = 'e' ∨ c = 'E') ∧ nextDigit rest then some (fr, c :: rest)
    else none

/-- The grammar of spec section 4.6 exactly as the claim states it:
optional sign, significand, optional fraction, optional exponent of
decimal digits bounded by BASE (the shared exponent scanner, where the
spec's words and the code agree), and exp ≥ frac_digits. -/
def grammarOriginal (s : List Char) : Bool :=
  let s1 := (stripSign s).2
  if nextDigit s1 = false then false
  else
    match specSig s1 0 with
    | none => false
    | some (_, rest1) =>
      let fracRes : Option (Nat × List Char) :=
        match rest1 with
        | c :: rest2 => if c = '.' then specFrac rest2 0 else some (0, rest1)
        | [] => some (0, rest1)
      match fracRes with
      | none => false
      | some (frac, rest2) =>
        let expRes : Option Nat :=
          match rest2 with
          | c :: rest3 => if c = 'e' ∨ c = 'E' then scanExp rest3 0 else some 0
          | [] => some 0
        match expRes with
        | none => false
        | some exp => decide (frac ≤ exp)

/-- The inputs on which the code is stricter than the spec grammar: a
fraction is present and the exponent's first digit is '0'. -/
def fracExpLeadingZero (s : List Char) : Bool :=
  match specSig (stripSign s).2 0 with
  | none => false
  | some (_, rest1) =>
    match rest1 with
    | [] => false
    | c :: rest2 =>
      if c = '.' then
        match specFrac rest2 0 with
        | none => false
        | some (_, rest3) =>
          match rest3 with
          | _ :: d :: _ => d == '0'
          | _ => false
      else false

/-- The amended grammar: the spec grammar restricted by the code's extra
fraction-exponent condition. -/
def grammarAmended (s : List Char) : Bool :=
  grammarOriginal s && !fracExpLeadingZero s

/-! ### Printing (bigint_to_buf_, int_to_string, integer_to_string) -/

/-- Loop of digit_to_str_full of integer.c: write i characters for d,
filling buf[i-1] with '0' + d mod 10 and recursing on d / 10 for the
positions before it; the result is the base-10 writing of d mod 10^i,
zero-padded to exactly i characters, most significant first. -/
def digitToStrFullAux : Nat → Nat → List Char
  | 0, _ => []
  | i + 1, d => digitToStrFullAux i (d / 10) ++ [Char.ofNat (48 + d % 10)]

/-- digit_to_str_full of integer.c: one base-BASE digit as LOG_BASE
zero-padded characters. -/
def digit_to_str_full (d : Int) : List Char := digitToStrFullAux LOG_BASE d.toNat

/-- The unpadded digit-to-string conversion of integer.c (the top-digit
counterpart of digit_to_str_full): no output for d = 0, otherwise the
full 9 characters with the leading zeros skipped. -/
def digit_to_str_part (d : Int) : List Char :=
  if d = 0 then [] else (digit_to_str_full d).dropWhile (fun c => c = '0')

/-- The leading-zero skip loop of bigint_to_buf_ (i = count-1; while i > 0
and digits[i] = 0 do i--), phrased on the most-significant-first digit
list: drop zeros from the front but keep the last digit. -/
def dropHighZeros : List Int → List Int
  | [] => []
  | d :: rest => if d = 0 ∧ rest ≠ [] then dropHighZeros rest else d :: rest

/-- The trailing full-digit output loop of bigint_to_buf_: each remaining
digit as its LOG_BASE characters, in order. -/
def fullsOf (l : List Int) : List Char :=
  l.foldr (fun d acc => digit_to_str_full d ++ acc) []

/-- bigint_to_buf_ of integer.c (writing path): optional '-', the top
nonzero digit without padding, then every lower digit zero-padded to
LOG_BASE characters.  The NUL terminator is not part of the string
contents. -/
def bigint_to_buf_ (b : Bigint) : List Char :=
  (if b.is_neg then ['-'] else []) ++
  (match dropHighZeros b.digits.reverse with
   | [] => []
   | d :: rest => digit_to_str_part d ++ fullsOf rest)

/-- Digit loop of int_to_string of integer.c: the base-10 digits of n,
least significant first, with the loop bound i < 63 as fuel. -/
def natToRevDigitsAux : Nat → Nat → List Char
  | 0, _ => []
  | f + 1, n =>
    if n = 0 then [] else Char.ofNat (48 + n % 10) :: natToRevDigitsAux f (n / 10)

/-- int_to_string of integer.c: "0" for zero; otherwise the digits are
produced least significant first into a buffer, '-' appended for a
negative input, and the buffer is copied out reversed. -/
def int_to_string (n : Int) : List Char :=
  if n.natAbs = 0 then ['0']
  else (natToRevDigitsAux 63 n.natAbs ++ if n < 0 then ['-'] else []).reverse

/-- integer_to_string of integer.c: small integers via int_to_string, big
ones via bigint_to_string (= bigint_to_buf_ on the unboxed bigint). -/
def integer_to_string : Integer → List Char
  | .small n => int_to_string n
  | .big b => bigint_to_buf_ b

/-- Decimal value of a digit-character list, most significant first: the
re-reading fold used by integer_parse on the collected digits. -/
def decVal (l : List Char) : Int :=
  l.foldl (fun a c => 10 * a + ((c.toNat : Int) - 48)) 0

/-! ### Checked-buffer model of bigint_sub_abs (for the safety claim) -/

/-- bigint_roundup_count of integer.c: allocations hold at least 4 digit
slots and always an even number. -/
def roundup_count (count : Nat) : Nat :=
  if count < 4 then 4 else if count % 2 = 1 then count + 1 else count

/-- A checked read of digits[i] from a buffer whose length is the number
of allocated digit slots: none models an out-of-bounds access. -/
def readIdx (buf : List Int) (i : Nat) : Option Int := buf[i]?

/-- A checked write of digits[i]. -/
def writeIdx (buf : List Int) (i : Nat) (v : Int) : Option (List Int) :=
  if i < buf.length then some (buf.set i v) else none

/-- First loop of bigint_sub_abs (i = 0 .. cy-1): digitwise subtract with
borrow, all accesses checked.  The fuel argument is the number of
remaining iterations; the result carries the buffer, the borrow and the
final index. -/
def subDigitsLoop : Nat → Nat → List Int → List Int → List Int → Int →
    Option (List Int × Int × Nat)
  | 0, i, _, _, z, borrow => some (z, borrow, i)
  | k + 1, i, xbuf, ybuf, z, borrow => do
    let xd ← readIdx xbuf i
    let yd ← readIdx ybuf i
    let diff := xd - borrow - yd
    let p := if diff < 0 then ((1 : Int), diff + BASE) else (0, diff)
    let z2 ← writeIdx z i p.2
    subDigitsLoop k (i + 1) xbuf ybuf z2 p.1

/-- Borrow-propagation loop of bigint_sub_abs (while borrow != 0 and
i < cx), checked. -/
def borrowPropLoop : Nat → Nat → Nat → List Int → List Int → Int →
    Option (List Int × Int × Nat)
  | 0, i, _, _, z, borrow => some (z, borrow, i)
  | k + 1, i, cx, xbuf, z, borrow =>
    if borrow ≠ 0 ∧ i < cx then do
      let xd ← readIdx xbuf i
      let diff := xd - borrow
      let p := if diff < 0 then (borrow, diff + BASE) else ((0 : Int), diff)
      let z2 ← writeIdx z i p.2
      borrowPropLoop k (i + 1) cx xbuf z2 p.1
    else some (z, borrow, i)

/-- The tail-copy loop of bigint_sub_abs exactly as written in the code:
`for (; i <= cx; i++) z->digits[i] = x->digits[i];` — note the inclusive
bound. -/
def tailCopyLoop : Nat → Nat → Nat → List Int → List Int →
    Option (List Int × Nat)
  | 0, i, _, _, z => some (z, i)
  | k + 1, i, cx, xbuf, z =>
    if i ≤ cx then do
      let xd ← readIdx xbuf i
      let z2 ← writeIdx z i xd
      tailCopyLoop k (i + 1) cx xbuf z2
    else some (z, i)

/-- The tail-copy loop with the evidently intended exclusive bound
i < cx. -/
def tailCopyLoopFixed : Nat → Nat → Nat → List Int → List Int →
    Option (List Int × Nat)
  | 0, i, _, _, z => some (z, i)
  | k + 1, i, cx, xbuf, z =>
    if i < cx then do
      let xd ← readIdx xbuf i
      let z2 ← writeIdx z i xd
      tailCopyLoopFixed k (i + 1) cx xbuf z2
    else some (z, i)

/-- bigint_sub_abs of integer.c at the buffer level, all digit accesses
checked against the allocated slot counts.  xbuf/ybuf are the digit
buffers (length = count + extra slots); fresh says whether
bigint_alloc_reuse_ returned a new buffer (x shared or lacking capacity),
in which case z has roundup_count xcount slots and the tail copy runs
(z != x); on reuse z is x's buffer and the tail copy is skipped.  The
result is the final z buffer, or none if any access was out of bounds. -/
def bigint_sub_abs_checked (xcount : Nat) (xbuf : List Int) (ycount : Nat)
    (ybuf : List Int) (fresh : Bool) : Option (List Int) := do
  let z0 := if fresh then List.replicate (roundup_count xcount) 0 else xbuf
  let s1 ← subDigitsLoop ycount 0 xbuf ybuf z0 0
  let s2 ← borrowPropLoop (xcount - s1.2.2) s1.2.2 xcount xbuf s1.1 s1.2.1
  if fresh then
    let s3 ← tailCopyLoop (xcount + 1 - s2.2.2) s2.2.2 xcount xbuf s2.1
    pure s3.1
  else pure s2.1

/-- bigint_sub_abs with the tail-copy loop bound corrected to i < cx;
identical otherwise. -/
def bigint_sub_abs_checked_intended (xcount : Nat) (xbuf : List Int)
    (ycount : Nat) (ybuf : List Int) (fresh : Bool) : Option (List Int) := do
  let z0 := if fresh then List.replicate (roundup_count xcount) 0 else xbuf
  let s1 ← subDigitsLoop ycount 0 xbuf ybuf z0 0
  let s2 ← borrowPropLoop (xcount - s1.2.2) s1.2.2 xcount xbuf s1.1 s1.2.1
  if fresh then
    let s3 ← tailCopyLoopFixed (xcount - s2.2.2) s2.2.2 xcount xbuf s2.1
    pure s3.1
  else pure s2.1

/-! ### Theorems: digit-list basics -/

theorem natDigitsAux_fuel (f g n : Nat) (hf : n ≤ f) (hg : n ≤ g) :
    natDigitsAux f n = natDigitsAux g n := by
  induction f generalizing g n with
  | zero =>
    interval_cases n
    cases g <;> simp [natDigitsAux]
  | succ f ih =>
    cases g with
    | zero =>
      interval_cases n
      simp [natDigitsAux]
    | succ g =>
      simp only [natDigitsAux]
      by_cases h : n / 1000000000 = 0
      · simp [h]
      · have hlt : n / 1000000000 < n :=
          Nat.div_lt_self (Nat.pos_of_ne_zero (fun hn => h (by simp [hn]))) (by omega)
        simp only [h, if_false]
        rw [ih g (n / 1000000000) (by omega) (by omega)]

theorem natDigits_eq (n : Nat) :
    natDigits n = if n / 1000000000 = 0 then [((n % 1000000000 : Nat) : Int)]
      else ((n % 1000000000 : Nat) : Int) :: natDigits (n / 1000000000) := by
  cases n with
  | zero => simp [natDigits, natDigitsAux]
  | succ m =>
    show natDigitsAux (m + 1) (m + 1) = _
    simp only [natDigitsAux]
    by_cases h : (m + 1) / 1000000000 = 0
    · simp [h]
    · have hlt : (m + 1) / 1000000000 < m + 1 := Nat.div_lt_self (by omega) (by omega)
      simp only [h, if_false]
      rw [natDigitsAux_fuel m ((m + 1) / 1000000000) ((m + 1) / 1000000000) (by omega) le_rfl]
      rfl

theorem valD_natDigits (n : Nat) : valD (natDigits n) = n := by
  induction n using Nat.strong_induction_on with
  | _ n ih =>
    rw [natDigits_eq]
    by_cases h : n / 1000000000 = 0
    · simp only [h, if_true, valD, BASE]
      have : n % 1000000000 = n := by omega
      simp [this]
    · have hlt : n / 1000000000 < n :=
        Nat.div_lt_self (Nat.pos_of_ne_zero (fun hn => h (by simp [hn]))) (by omega)
      simp only [h, if_false, valD, BASE]
      rw [ih (n / 1000000000) hlt]
      push_cast
      omega

theorem wfD_natDigits (n : Nat) : wfD (natDigits n) := by
  induction n using Nat.strong_induction_on with
  | _ n ih =>
    rw [natDigits_eq]
    by_cases h : n / 1000000000 = 0
    · simp only [h, if_true, wfD, List.mem_singleton]
      rintro d rfl
      constructor
      · positivity
      · have := Nat.mod_lt n (show 0 < 1000000000 by omega)
        simp only [BASE]
        exact_mod_cast this
    · have hlt : n / 1000000000 < n :=
        Nat.div_lt_self (Nat.pos_of_ne_zero (fun hn => h (by simp [hn]))) (by omega)
      simp only [h, if_false, wfD, List.mem_cons]
      rintro d (rfl | hd)
      · constructor
        · positivity
        · have := Nat.mod_lt n (show 0 < 1000000000 by omega)
          simp only [BASE]
          exact_mod_cast this
      · exact ih (n / 1000000000) hlt d hd

theorem natDigits_ne_nil (n : Nat) : natDigits n ≠ [] := by
  rw [natDigits_eq]
  by_cases h : n / 1000000000 = 0 <;> simp [h]

theorem natDigits_getLast_ne_zero (n : Nat) (hn : n ≠ 0) :
    (natDigits n).getLast? ≠ some 0 := by
  induction n using Nat.strong_induction_on with
  | _ n ih =>
    rw [natDigits_eq]
    by_cases h : n / 1000000000 = 0
    · have : n % 1000000000 = n := by omega
      simp [h, this, List.getLast?, hn]
    · have hlt : n / 1000000000 < n :=
        Nat.div_lt_self (Nat.pos_of_ne_zero (fun hn2 => h (by simp [hn2]))) (by omega)
      simp only [h, if_false]
      obtain ⟨x, xs, hx⟩ := List.exists_cons_of_ne_nil (natDigits_ne_nil (n / 1000000000))
      rw [hx, List.getLast?_cons_cons, ← hx]
      exact ih (n / 1000000000) hlt h

theorem natDigits_small (n : Nat) (hn : n < 1000000000) :
    natDigits n = [(n : Int)] := by
  rw [natDigits_eq]
  have h : n / 1000000000 = 0 := by omega
  have h2 : n % 1000000000 = n := by omega
  simp [h, h2]

/-- Digit lists: value is nonnegative for well-formed digits. -/
theorem valD_nonneg (l : List Int) (h : wfD l) : 0 ≤ valD l := by
  induction l with
  | nil => simp [valD]
  | cons d ds ih =>
    simp only [valD]
    have hd := h d (by simp)
    have hds : wfD ds := fun x hx => h x (by simp [hx])
    have := ih hds
    have hB : (0:Int) < BASE := by norm_num [BASE]
    nlinarith

/-- Digit lists: value is below BASE^length for well-formed digits. -/
theorem valD_lt (l : List Int) (h : wfD l) : valD l < BASE ^ l.length := by
  induction l with
  | nil => simp [valD]
  | cons d ds ih =>
    simp only [valD, List.length_cons, pow_succ]
    have hd := h d (by simp)
    have hds : wfD ds := fun x hx => h x (by simp [hx])
    have h1 := ih hds
    have hB : (0:Int) < BASE := by norm_num [BASE]
    nlinarith [pow_pos hB ds.length]

theorem valD_append (a b : List Int) :
    valD (a ++ b) = valD a + BASE ^ a.length * valD b := by
  induction a with
  | nil => simp [valD]
  | cons d ds ih =>
    rw [List.cons_append]
    simp only [valD]
    rw [ih, List.length_cons, pow_succ]
    ring

theorem valD_replicate_zero (n : Nat) : valD (List.replicate n 0) = 0 := by
  induction n with
  | zero => simp [valD]
  | succ m ih => simp [List.replicate_succ, valD, ih]

theorem wfD_nil : wfD [] := by intro d hd; simp at hd

theorem wfD_append (a b : List Int) (ha : wfD a) (hb : wfD b) : wfD (a ++ b) := by
  intro d hd
  rcases List.mem_append.mp hd with h | h
  · exact ha d h
  · exact hb d h

theorem wfD_cons_iff (d : Int) (ds : List Int) :
    wfD (d :: ds) ↔ (0 ≤ d ∧ d < BASE) ∧ wfD ds := by
  constructor
  · intro h
    exact ⟨h d (by simp), fun x hx => h x (by simp [hx])⟩
  · rintro ⟨hd, hds⟩ x hx
    rcases List.mem_cons.mp hx with rfl | hx
    · exact hd
    · exact hds x hx

theorem wfD_replicate_zero (n : Nat) : wfD (List.replicate n 0) := by
  intro d hd
  have := List.eq_of_mem_replicate hd
  subst this
  norm_num [BASE]

/-- A well-formed digit list with nonzero top digit has value at least
BASE^(length - 1). -/
theorem valD_ge_of_top (l : List Int) (h : wfD l) (hne : l ≠ [])
    (htop : l.getLast? ≠ some 0) : BASE ^ (l.length - 1) ≤ valD l := by
  induction l with
  | nil => simp at hne
  | cons d ds ih =>
    cases ds with
    | nil =>
      simp only [List.getLast?_singleton] at htop
      have hd := h d (by simp)
      have hd0 : d ≠ 0 := by intro hd0; exact htop (by simp [hd0])
      simp only [valD, List.length_singleton, Nat.sub_self, pow_zero]
      omega
    | cons e es =>
      have hds : wfD (e :: es) := fun x hx => h x (by simp [hx])
      rw [List.getLast?_cons_cons] at htop
      have h1 := ih hds (by simp) htop
      have hd := h d (by simp)
      have hB : (0:Int) < BASE := by norm_num [BASE]
      have hlen : (d :: e :: es).length - 1 = es.length + 1 := by simp
      have hlen2 : (e :: es).length - 1 = es.length := by simp
      rw [hlen]
      rw [hlen2] at h1
      have h2 : BASE ^ (es.length + 1) ≤ BASE * valD (e :: es) := by
        rw [pow_succ']
        exact mul_le_mul_of_nonneg_left h1 (le_of_lt hB)
      show BASE ^ (es.length + 1) ≤ valD (d :: e :: es)
      simp only [valD]
      have : valD (e :: es) = e + BASE * valD es := rfl
      rw [← this]
      linarith [hd.1, h2]

/-! ### Theorems: trim -/

theorem trimTop_cons (d : Int) (ds : List Int) :
    trimTop (d :: ds) = match trimTop ds with
      | [] => if d = 0 then [] else [d]
      | r => d :: r := rfl

theorem valD_trimTop (l : List Int) : valD (trimTop l) = valD l := by
  induction l with
  | nil => rfl
  | cons d ds ih =>
    rw [trimTop_cons]
    cases h : trimTop ds with
    | nil =>
      rw [h] at ih
      by_cases hd : d = 0
      · simp only [hd, if_true, valD]
        simp [valD] at ih
        simp [← ih]
      · simp only [hd, if_false, valD]
        simp [valD] at ih
        simp [← ih]
    | cons r rs =>
      rw [h] at ih
      simp only [valD] at ih ⊢
      rw [ih]

theorem trimTop_topOk (l : List Int) :
    trimTop l = [] ∨ (trimTop l).getLast? ≠ some 0 := by
  induction l with
  | nil => left; rfl
  | cons d ds ih =>
    rw [trimTop_cons]
    cases h : trimTop ds with
    | nil =>
      by_cases hd : d = 0
      · simp [hd]
      · simp [hd]
    | cons r rs =>
      right
      rw [h] at ih
      rcases ih with h1 | h1
      · exact absurd h1 (by simp)
      · rw [List.getLast?_cons_cons]
        exact h1

theorem trimTop_subset (l : List Int) : ∀ d ∈ trimTop l, d ∈ l := by
  induction l with
  | nil => simp [trimTop]
  | cons x ds ih =>
    rw [trimTop_cons]
    cases h : trimTop ds with
    | nil =>
      by_cases hd : x = 0
      · simp [hd]
      · simp [hd]
    | cons r rs =>
      rw [h] at ih
      intro d hd
      rcases List.mem_cons.mp hd with rfl | hd
      · simp
      · simp [ih d hd]

theorem wfD_trimTop (l : List Int) (h : wfD l) : wfD (trimTop l) :=
  fun d hd => h d (trimTop_subset l d hd)

theorem Nice_trimTop (l : List Int) (h : wfD l) : Nice (trimTop l) := by
  refine ⟨wfD_trimTop l h, ?_⟩
  rcases trimTop_topOk l with h1 | h1
  · simp [h1]
  · intro h2
    exact absurd h2 h1

theorem trimTop_length_le (l : List Int) : (trimTop l).length ≤ l.length := by
  induction l with
  | nil => simp [trimTop]
  | cons d ds ih =>
    rw [trimTop_cons]
    cases h : trimTop ds with
    | nil =>
      by_cases hd : d = 0 <;> simp [hd]
    | cons r rs =>
      rw [h] at ih
      simpa using ih

/-! ### Theorems: absolute addition -/

theorem addCarry_zero (xs : List Int) : addCarry xs 0 = xs := by
  cases xs <;> simp [addCarry]

theorem valD_addCarry (xs : List Int) (c : Int) :
    valD (addCarry xs c) = valD xs + c := by
  induction xs generalizing c with
  | nil =>
    by_cases h : c = 0 <;> simp [addCarry, h, valD]
  | cons x xs ih =>
    simp only [addCarry]
    by_cases h : c = 0
    · simp [h]
    · simp only [h, if_false]
      by_cases h2 : x + c ≥ BASE
      · simp only [h2, if_true, valD, ih]
        ring
      · simp only [h2, if_false, valD, ih]
        ring

theorem wfD_addCarry (xs : List Int) (c : Int) (hc : c = 0 ∨ c = 1)
    (hw : wfD xs) : wfD (addCarry xs c) := by
  induction xs generalizing c with
  | nil =>
    by_cases h : c = 0
    · simp [addCarry, h, wfD_nil]
    · have hc1 : c = 1 := by omega
      simp only [addCarry, h, if_false]
      intro d hd
      simp at hd
      subst hd
      norm_num [hc1, BASE]
  | cons x xs ih =>
    simp only [addCarry]
    by_cases h : c = 0
    · simp [h, hw]
    · have hc1 : c = 1 := by omega
      have hx := hw x (by simp)
      have hxs : wfD xs := fun d hd => hw d (by simp [hd])
      simp only [h, if_false]
      by_cases h2 : x + c ≥ BASE
      · simp only [h2, if_true]
        rw [wfD_cons_iff]
        refine ⟨⟨by omega, by omega⟩, ih 1 (by omega) hxs⟩
      · simp only [h2, if_false]
        rw [wfD_cons_iff]
        refine ⟨⟨by omega, by omega⟩, ?_⟩
        rw [addCarry_zero]
        exact hxs

theorem addCarry_length (xs : List Int) (c : Int) :
    xs.length ≤ (addCarry xs c).length ∧ (addCarry xs c).length ≤ xs.length + 1 := by
  induction xs generalizing c with
  | nil => by_cases h : c = 0 <;> simp [addCarry, h]
  | cons x xs ih =>
    simp only [addCarry]
    by_cases h : c = 0
    · simp [h]
    · simp only [h, if_false]
      by_cases h2 : x + c ≥ BASE
      · simp only [h2, if_true, List.length_cons]
        have := ih (c := 1)
        omega
      · simp only [h2, if_false, List.length_cons]
        rw [addCarry_zero]
        omega

theorem valD_addAbsDigits (xs ys : List Int) (c : Int)
    (hlen : ys.length ≤ xs.length) :
    valD (addAbsDigits xs ys c) = valD xs + valD ys + c := by
  induction ys generalizing xs c with
  | nil =>
    cases xs with
    | nil => simp [addAbsDigits, valD_addCarry, valD]
    | cons x xs => simp [addAbsDigits, valD_addCarry, valD]
  | cons y ys ih =>
    cases xs with
    | nil => simp at hlen
    | cons x xs =>
      simp only [addAbsDigits]
      simp only [List.length_cons, Nat.add_le_add_iff_right] at hlen
      by_cases h2 : x + y + c ≥ BASE
      · simp only [h2, if_true, valD, ih xs 1 hlen]
        ring
      · simp only [h2, if_false, valD, ih xs 0 hlen]
        ring

theorem wfD_addAbsDigits (xs ys : List Int) (c : Int) (hc : c = 0 ∨ c = 1)
    (hwx : wfD xs) (hwy : wfD ys) : wfD (addAbsDigits xs ys c) := by
  induction ys generalizing xs c with
  | nil =>
    cases xs with
    | nil => exact wfD_addCarry _ _ hc hwx
    | cons x xs => exact wfD_addCarry _ _ hc hwx
  | cons y ys ih =>
    cases xs with
    | nil => simp [addAbsDigits, wfD_nil]
    | cons x xs =>
      have hx := hwx x (by simp)
      have hy := hwy y (by simp)
      have hxs : wfD xs := fun d hd => hwx d (by simp [hd])
      have hys : wfD ys := fun d hd => hwy d (by simp [hd])
      simp only [addAbsDigits]
      by_cases h2 : x + y + c ≥ BASE
      · simp only [h2, if_true]
        rw [wfD_cons_iff]
        exact ⟨⟨by omega, by omega⟩, ih xs 1 (by omega) hxs hys⟩
      · simp only [h2, if_false]
        rw [wfD_cons_iff]
        exact ⟨⟨by omega, by omega⟩, ih xs 0 (by omega) hxs hys⟩

theorem addAbsDigits_length (xs ys : List Int) (c : Int)
    (hlen : ys.length ≤ xs.length) :
    xs.length ≤ (addAbsDigits xs ys c).length ∧
      (addAbsDigits xs ys c).length ≤ xs.length + 1 := by
  induction ys generalizing xs c with
  | nil =>
    cases xs with
    | nil => exact addCarry_length _ _
    | cons x xs => exact addCarry_length _ _
  | cons y ys ih =>
    cases xs with
    | nil => simp at hlen
    | cons x xs =>
      simp only [List.length_cons, Nat.add_le_add_iff_right] at hlen
      simp only [addAbsDigits]
      by_cases h2 : x + y + c ≥ BASE
      · simp only [h2, if_true, List.length_cons]
        have := ih xs 1 hlen
        omega
      · simp only [h2, if_false, List.length_cons]
        have := ih xs 0 hlen
        omega

/-! ### Theorems: absolute subtraction -/

theorem subBorrow_zero (xs : List Int) : subBorrow xs 0 = xs := by
  cases xs <;> simp [subBorrow]

theorem subAbsDigits_nil (xs : List Int) (b : Int) :
    subAbsDigits xs [] b = subBorrow xs b := by
  cases xs <;> rfl

theorem subBorrow_spec (xs : List Int) (b : Int) (hb : b = 0 ∨ b = 1)
    (hw : wfD xs) :
    ∃ e, (e = 0 ∨ e = 1) ∧
      valD (subBorrow xs b) = valD xs - b + e * BASE ^ xs.length ∧
      (subBorrow xs b).length = xs.length ∧ wfD (subBorrow xs b) := by
  induction xs generalizing b with
  | nil =>
    refine ⟨b, hb, ?_, rfl, wfD_nil⟩
    simp [subBorrow, valD]
  | cons x xs ih =>
    by_cases h : b = 0
    · refine ⟨0, by omega, ?_, ?_, ?_⟩ <;> simp [subBorrow, h, hw]
    · have hb1 : b = 1 := by omega
      have hx := hw x (by simp)
      have hxs : wfD xs := fun d hd => hw d (by simp [hd])
      simp only [subBorrow, h, if_false]
      by_cases h2 : x - b < 0
      · obtain ⟨e, he, hval, hlen, hwf⟩ := ih 1 (by omega) hxs
        refine ⟨e, he, ?_, ?_, ?_⟩
        · simp only [h2, if_true, valD, hval, List.length_cons, pow_succ]
          ring
        · simp [h2, hlen]
        · simp only [h2, if_true]
          rw [wfD_cons_iff]
          exact ⟨⟨by omega, by omega⟩, hwf⟩
      · refine ⟨0, by omega, ?_, ?_, ?_⟩
        · simp only [h2, if_false, valD, subBorrow_zero]
          ring
        · simp [h2, subBorrow_zero]
        · simp only [h2, if_false, subBorrow_zero]
          rw [wfD_cons_iff]
          exact ⟨⟨by omega, by omega⟩, hxs⟩

theorem subAbsDigits_spec (xs ys : List Int) (b : Int) (hb : b = 0 ∨ b = 1)
    (hwx : wfD xs) (hwy : wfD ys) (hlen : ys.length ≤ xs.length) :
    ∃ e, (e = 0 ∨ e = 1) ∧
      valD (subAbsDigits xs ys b) = valD xs - valD ys - b + e * BASE ^ xs.length ∧
      (subAbsDigits xs ys b).length = xs.length ∧ wfD (subAbsDigits xs ys b) := by
  induction ys generalizing xs b with
  | nil =>
    obtain ⟨e, he, hval, hl, hwf⟩ := subBorrow_spec xs b hb hwx
    refine ⟨e, he, ?_, ?_, ?_⟩ <;> simp [subAbsDigits_nil, hval, hl, hwf, valD]
  | cons y ys ih =>
    cases xs with
    | nil => simp at hlen
    | cons x xs =>
      have hx := hwx x (by simp)
      have hy := hwy y (by simp)
      have hxs : wfD xs := fun d hd => hwx d (by simp [hd])
      have hys : wfD ys := fun d hd => hwy d (by simp [hd])
      have hlen2 : ys.length ≤ xs.length := by simpa using hlen
      simp only [subAbsDigits]
      by_cases h2 : x - b - y < 0
      · obtain ⟨e, he, hval, hl, hwf⟩ := ih xs 1 (by omega) hxs hys hlen2
        refine ⟨e, he, ?_, ?_, ?_⟩
        · simp only [h2, if_true, valD, hval, List.length_cons, pow_succ]
          ring
        · simp [h2, hl]
        · simp only [h2, if_true]
          rw [wfD_cons_iff]
          exact ⟨⟨by omega, by omega⟩, hwf⟩
      · obtain ⟨e, he, hval, hl, hwf⟩ := ih xs 0 (by omega) hxs hys hlen2
        refine ⟨e, he, ?_, ?_, ?_⟩
        · simp only [h2, if_false, valD, hval, List.length_cons, pow_succ]
          ring
        · simp [h2, hl]
        · simp only [h2, if_false]
          rw [wfD_cons_iff]
          exact ⟨⟨by omega, by omega⟩, hwf⟩

theorem valD_subAbsDigits_of_le (xs ys : List Int) (hwx : wfD xs) (hwy : wfD ys)
    (hlen : ys.length ≤ xs.length) (hge : valD ys ≤ valD xs) :
    valD (subAbsDigits xs ys 0) = valD xs - valD ys ∧ wfD (subAbsDigits xs ys 0) := by
  obtain ⟨e, he, hval, hl, hwf⟩ := subAbsDigits_spec xs ys 0 (by omega) hwx hwy hlen
  refine ⟨?_, hwf⟩
  rcases he with rfl | rfl
  · simpa using hval
  · exfalso
    have h1 := valD_lt _ hwf
    rw [hl] at h1
    simp only [one_mul] at hval
    omega

/-! ### Theorems: magnitude comparison -/

theorem wfD_reverse (l : List Int) (h : wfD l) : wfD l.reverse :=
  fun d hd => h d (List.mem_reverse.mp hd)

theorem cmpMSF_eq_lists (a b : List Int) (hlen : a.length = b.length)
    (h : cmpMSF a b = 0) : a = b := by
  induction a generalizing b with
  | nil =>
    cases b with
    | nil => rfl
    | cons y bs => simp at hlen
  | cons x as ih =>
    cases b with
    | nil => simp at hlen
    | cons y bs =>
      simp only [cmpMSF] at h
      by_cases hxy : x = y
      · simp only [hxy, if_true] at h
        rw [hxy, ih bs (by simpa using hlen) h]
      · simp only [hxy, if_false] at h
        by_cases hgt : x > y <;> simp [hgt] at h

theorem cmpMSF_correct (a b : List Int) (hlen : a.length = b.length)
    (ha : wfD a) (hb : wfD b) :
    (cmpMSF a b = 0 ∧ a = b) ∨
    (cmpMSF a b = 1 ∧ valD b.reverse < valD a.reverse) ∨
    (cmpMSF a b = -1 ∧ valD a.reverse < valD b.reverse) := by
  induction a generalizing b with
  | nil =>
    cases b with
    | nil => left; exact ⟨rfl, rfl⟩
    | cons y bs => simp at hlen
  | cons x as ih =>
    cases b with
    | nil => simp at hlen
    | cons y bs =>
      have hx := ha x (by simp)
      have hy := hb y (by simp)
      have has : wfD as := fun d hd => ha d (by simp [hd])
      have hbs : wfD bs := fun d hd => hb d (by simp [hd])
      have hlen2 : as.length = bs.length := by simpa using hlen
      have hBpos : (0:Int) < BASE := by norm_num [BASE]
      simp only [cmpMSF]
      by_cases hxy : x = y
      · subst hxy
        rcases ih bs hlen2 has hbs with ⟨h0, heq⟩ | ⟨h0, hv⟩ | ⟨h0, hv⟩
        · left
          exact ⟨by simp [h0], by rw [heq]⟩
        · right; left
          refine ⟨by simp [h0], ?_⟩
          simp only [List.reverse_cons, valD_append, List.length_reverse, valD, hlen2]
          linarith
        · right; right
          refine ⟨by simp [h0], ?_⟩
          simp only [List.reverse_cons, valD_append, List.length_reverse, valD, hlen2]
          linarith
      · by_cases hgt : x > y
        · right; left
          refine ⟨by simp [hxy, hgt], ?_⟩
          simp only [List.reverse_cons, valD_append, List.length_reverse, valD, hlen2]
          have h1 := valD_lt _ (wfD_reverse _ hbs)
          rw [List.length_reverse] at h1
          have h2 := valD_nonneg _ (wfD_reverse _ has)
          have h3 : BASE ^ bs.length * (y + 1) ≤ BASE ^ bs.length * x :=
            mul_le_mul_of_nonneg_left (by omega) (pow_nonneg (by omega) _)
          nlinarith
        · right; right
          refine ⟨by simp [hxy, hgt], ?_⟩
          simp only [List.reverse_cons, valD_append, List.length_reverse, valD, hlen2]
          have h1 := valD_lt _ (wfD_reverse _ has)
          rw [List.length_reverse, hlen2] at h1
          have h2 := valD_nonneg _ (wfD_reverse _ hbs)
          have h3 : BASE ^ bs.length * (x + 1) ≤ BASE ^ bs.length * y :=
            mul_le_mul_of_nonneg_left (by omega) (pow_nonneg (by omega) _)
          nlinarith

theorem compare_abs_len (x y : Bigint) (h : 0 ≤ bigint_compare_abs x y) :
    y.digits.length ≤ x.digits.length := by
  unfold bigint_compare_abs at h
  by_cases h1 : x.digits.length > y.digits.length
  · omega
  · by_cases h2 : x.digits.length < y.digits.length
    · simp [h1, h2] at h
    · omega

theorem compare_abs_ge_val (x y : Bigint) (hx : Nice x.digits) (hy : Nice y.digits)
    (h : 0 ≤ bigint_compare_abs x y) : valD y.digits ≤ valD x.digits := by
  unfold bigint_compare_abs at h
  by_cases h1 : x.digits.length > y.digits.length
  · rcases hx with ⟨hwx, hnx⟩
    rcases hy with ⟨hwy, hny⟩
    by_cases hx0 : x.digits.getLast? = some 0
    · have hx01 := hnx hx0
      have hy0 : y.digits = [] := by
        rw [hx01] at h1
        simpa using h1
      rw [hx01, hy0]
      simp [valD]
    · have hxne : x.digits ≠ [] := by
        intro hh
        rw [hh] at h1
        simp at h1
      have hge := valD_ge_of_top _ hwx hxne hx0
      have hlt := valD_lt _ hwy
      have hpow : BASE ^ y.digits.length ≤ BASE ^ (x.digits.length - 1) := by
        apply pow_le_pow_right₀ (by norm_num [BASE])
        omega
      omega
  · by_cases h2 : x.digits.length < y.digits.length
    · simp [h1, h2] at h
    · have hlen : x.digits.length = y.digits.length := by omega
      rcases cmpMSF_correct x.digits.reverse y.digits.reverse (by simp [hlen])
          (wfD_reverse _ hx.1) (wfD_reverse _ hy.1) with ⟨h0, heq⟩ | ⟨h0, hv⟩ | ⟨h0, hv⟩
      · have hdig : x.digits = y.digits := by
          have := congrArg List.reverse heq
          simpa using this
        rw [hdig]
      · simp only [List.reverse_reverse] at hv
        omega
      · simp only [h1, if_false, h2, if_false, h0] at h
        omega

theorem compare_abs_lt_val (x y : Bigint) (hx : Nice x.digits) (hy : Nice y.digits)
    (h : bigint_compare_abs x y < 0) : valD x.digits ≤ valD y.digits := by
  unfold bigint_compare_abs at h
  by_cases h1 : x.digits.length > y.digits.length
  · simp [h1] at h
  · by_cases h2 : x.digits.length < y.digits.length
    · rcases hx with ⟨hwx, hnx⟩
      rcases hy with ⟨hwy, hny⟩
      by_cases hy0 : y.digits.getLast? = some 0
      · have hy01 := hny hy0
        have hx0 : x.digits = [] := by
          rw [hy01] at h2
          simpa using h2
        rw [hy01, hx0]
        simp [valD]
      · have hyne : y.digits ≠ [] := by
          intro hh
          rw [hh] at h2
          simp at h2
        have hge := valD_ge_of_top _ hwy hyne hy0
        have hlt := valD_lt _ hwx
        have hpow : BASE ^ x.digits.length ≤ BASE ^ (y.digits.length - 1) := by
          apply pow_le_pow_right₀ (by norm_num [BASE])
          omega
        omega
    · have hlen : x.digits.length = y.digits.length := by omega
      rcases cmpMSF_correct x.digits.reverse y.digits.reverse (by simp [hlen])
          (wfD_reverse _ hx.1) (wfD_reverse _ hy.1) with ⟨h0, heq⟩ | ⟨h0, hv⟩ | ⟨h0, hv⟩
      · have hdig : x.digits = y.digits := by
          have := congrArg List.reverse heq
          simpa using this
        rw [hdig]
      · simp only [h1, if_false, h2, if_false, h0] at h
        omega
      · simp only [List.reverse_reverse] at hv
        omega

/-! ### Theorems: top-digit preservation of addition -/

theorem TopOk_of_cons (x : Int) (xs : List Int) (h : TopOk (x :: xs)) : TopOk xs := by
  cases xs with
  | nil => left; rfl
  | cons z zs =>
    rcases h with h | h
    · simp at h
    · right
      rw [List.getLast?_cons_cons] at h
      exact h

theorem addCarry_ne_nil_one (xs : List Int) : addCarry xs 1 ≠ [] := by
  cases xs with
  | nil => simp [addCarry]
  | cons x xs =>
    simp only [addCarry, if_neg (show ¬(1:Int) = 0 by norm_num)]
    by_cases h2 : x + 1 ≥ BASE <;> simp [h2]

theorem addCarry_topOk (xs : List Int) (c : Int) (hc : c = 0 ∨ c = 1)
    (hw : wfD xs) (hx : TopOk xs) : TopOk (addCarry xs c) := by
  induction xs generalizing c with
  | nil =>
    rcases hc with rfl | rfl
    · left; rfl
    · right
      simp [addCarry]
  | cons x xs ih =>
    rcases hc with rfl | rfl
    · rw [addCarry_zero]; exact hx
    · have hxx := hw x (by simp)
      have hxs : wfD xs := fun d hd => hw d (by simp [hd])
      have hxst : TopOk xs := TopOk_of_cons x xs hx
      simp only [addCarry, if_neg (show ¬(1:Int) = 0 by norm_num)]
      by_cases h2 : x + 1 ≥ BASE
      · simp only [h2, if_true]
        right
        obtain ⟨a, as, ha⟩ := List.exists_cons_of_ne_nil (addCarry_ne_nil_one xs)
        rw [ha, List.getLast?_cons_cons, ← ha]
        rcases ih 1 (by omega) hxs hxst with h | h
        · exact absurd h (addCarry_ne_nil_one xs)
        · exact h
      · simp only [h2, if_false, addCarry_zero]
        cases xs with
        | nil =>
          right
          simp only [List.getLast?_singleton]
          intro hcon
          simp only [Option.some.injEq] at hcon
          omega
        | cons z zs =>
          right
          rw [List.getLast?_cons_cons]
          rcases hxst with h | h
          · exact absurd h (by simp)
          · exact h

theorem addAbsDigits_topOk (xs ys : List Int) (c : Int) (hc : c = 0 ∨ c = 1)
    (hwx : wfD xs) (hwy : wfD ys) (hlen : ys.length ≤ xs.length)
    (hx : TopOk xs) : TopOk (addAbsDigits xs ys c) := by
  induction ys generalizing xs c with
  | nil =>
    cases xs with
    | nil => exact addCarry_topOk _ _ hc hwx hx
    | cons a as => exact addCarry_topOk _ _ hc hwx hx
  | cons y ys ih =>
    cases xs with
    | nil => simp at hlen
    | cons x xs =>
      have hxx := hwx x (by simp)
      have hyy := hwy y (by simp)
      have hxs : wfD xs := fun d hd => hwx d (by simp [hd])
      have hys : wfD ys := fun d hd => hwy d (by simp [hd])
      have hlen2 : ys.length ≤ xs.length := by simpa using hlen
      have hxst : TopOk xs := TopOk_of_cons x xs hx
      simp only [addAbsDigits]
      by_cases hxe : xs = []
      · subst hxe
        have hye : ys = [] := by simpa using hlen2
        subst hye
        have hx0 : x ≠ 0 := by
          rcases hx with h | h
          · simp at h
          · intro hc
            apply h
            rw [hc, List.getLast?_singleton]
        have e1 : addAbsDigits ([] : List Int) [] 1 = [1] := by
          norm_num [addAbsDigits, addCarry]
        have e0 : addAbsDigits ([] : List Int) [] 0 = [] := by
          norm_num [addAbsDigits, addCarry]
        by_cases h2 : x + y + c ≥ BASE
        · simp only [h2, if_true, e1]
          right
          rw [List.getLast?_cons_cons, List.getLast?_singleton]
          simp
        · simp only [h2, if_false, e0]
          right
          rw [List.getLast?_singleton]
          intro hcon
          simp only [Option.some.injEq] at hcon
          rcases hc with rfl | rfl <;> omega
      · have hrecne : ∀ c2 : Int, addAbsDigits xs ys c2 ≠ [] := by
          intro c2 hcon
          have hl := (addAbsDigits_length xs ys c2 hlen2).1
          rw [hcon] at hl
          simp at hl
          exact hxe (by simpa using hl)
        by_cases h2 : x + y + c ≥ BASE
        · simp only [h2, if_true]
          right
          obtain ⟨a, as, ha⟩ := List.exists_cons_of_ne_nil (hrecne 1)
          rw [ha, List.getLast?_cons_cons, ← ha]
          rcases ih xs 1 (by omega) hxs hys hlen2 hxst with h | h
          · exact absurd h (hrecne 1)
          · exact h
        · simp only [h2, if_false]
          right
          obtain ⟨a, as, ha⟩ := List.exists_cons_of_ne_nil (hrecne 0)
          rw [ha, List.getLast?_cons_cons, ← ha]
          rcases ih xs 0 (by omega) hxs hys hlen2 hxst with h | h
          · exact absurd h (hrecne 0)
          · exact h

theorem Nice_of_TopOk (l : List Int) (hw : wfD l) (h : TopOk l) : Nice l := by
  refine ⟨hw, fun h2 => ?_⟩
  rcases h with h | h
  · rw [h] at h2; simp at h2
  · exact absurd h2 h

theorem Nice_singleton (d : Int) (hd : 0 ≤ d ∧ d < BASE) : Nice [d] := by
  refine ⟨?_, ?_⟩
  · intro z hz
    simp at hz
    subst hz
    exact hd
  · intro h
    simp only [List.getLast?_singleton, Option.some.injEq] at h
    rw [h]

theorem addAbs_nice (bs ss : List Int) (hb : Nice bs) (hs : Nice ss)
    (hlen : ss.length ≤ bs.length) : Nice (addAbsDigits bs ss 0) := by
  by_cases htop : TopOk bs
  · exact Nice_of_TopOk _ (wfD_addAbsDigits _ _ _ (by omega) hb.1 hs.1)
      (addAbsDigits_topOk _ _ _ (by omega) hb.1 hs.1 hlen htop)
  · have hb0 : bs = [0] := by
      apply hb.2
      unfold TopOk at htop
      push_neg at htop
      exact htop.2
    subst hb0
    cases ss with
    | nil =>
      show Nice (addCarry [0] 0)
      rw [addCarry_zero]
      exact Nice_singleton 0 (by norm_num [BASE])
    | cons s ss2 =>
      have hss2 : ss2 = [] := by simpa using hlen
      subst hss2
      have hsd := hs.1 s (by simp)
      simp only [addAbsDigits]
      have hnb : ¬ ((0:Int) + s + 0 ≥ BASE) := by omega
      simp only [hnb, if_false]
      show Nice ((0 + s + 0) :: addCarry [] 0)
      have : addCarry [] 0 = ([] : List Int) := by simp [addCarry]
      rw [this]
      exact Nice_singleton _ (by constructor <;> omega)

/-! ### Theorems: signed addition and subtraction -/

theorem compare_abs_len_lt (x y : Bigint) (h : bigint_compare_abs x y < 0) :
    x.digits.length ≤ y.digits.length := by
  unfold bigint_compare_abs at h
  by_cases h1 : x.digits.length > y.digits.length
  · simp [h1] at h
  · omega

theorem if_sign_not (b : Bool) :
    (if !b then (-1:Int) else 1) = -(if b then (-1:Int) else 1) := by
  cases b <;> simp

theorem addSame_spec (x y : Bigint) (yneg : Bool) (hx : Nice x.digits)
    (hy : Nice y.digits) :
    (addSame x y yneg).is_neg = yneg ∧
    valD (addSame x y yneg).digits = valD x.digits + valD y.digits ∧
    Nice (addSame x y yneg).digits := by
  unfold addSame bigint_add_abs
  by_cases h : x.digits.length < y.digits.length
  · simp only [h, if_true]
    refine ⟨by trivial, ?_, ?_⟩
    · rw [valD_addAbsDigits _ _ _ (by omega)]
      ring
    · exact addAbs_nice y.digits x.digits hy hx (by omega)
  · simp only [h, if_false]
    refine ⟨by trivial, ?_, ?_⟩
    · rw [valD_addAbsDigits _ _ _ (by omega)]
      ring
    · exact addAbs_nice x.digits y.digits hx hy (by omega)

theorem subSame_spec (x y : Bigint) (yneg : Bool) (hxn : x.is_neg = yneg)
    (hx : Nice x.digits) (hy : Nice y.digits) :
    bigVal (subSame x y yneg) =
      (if yneg then (-1:Int) else 1) * (valD x.digits - valD y.digits) ∧
    Nice (subSame x y yneg).digits := by
  unfold subSame
  by_cases h : bigint_compare_abs x y ≥ 0
  · simp only [h, if_true]
    have hge := compare_abs_ge_val x y hx hy h
    have hlen := compare_abs_len x y h
    unfold bigint_sub_abs bigint_trim
    obtain ⟨hv, hw⟩ := valD_subAbsDigits_of_le x.digits y.digits hx.1 hy.1 hlen hge
    constructor
    · simp only [bigVal, valD_trimTop, hv, hxn]
    · exact Nice_trimTop _ hw
  · simp only [h, if_false]
    push_neg at h
    have hle := compare_abs_lt_val x y hx hy h
    have hlen := compare_abs_len_lt x y h
    obtain ⟨hv, hw⟩ := valD_subAbsDigits_of_le y.digits x.digits hy.1 hx.1 hlen hle
    constructor
    · show (if (!yneg) then (-1:Int) else 1) *
          valD (bigint_sub_abs y x).digits = _
      unfold bigint_sub_abs bigint_trim
      simp only [valD_trimTop, hv]
      rw [if_sign_not]
      ring
    · show Nice (bigint_sub_abs y x).digits
      unfold bigint_sub_abs bigint_trim
      exact Nice_trimTop _ hw

theorem bigint_add_spec (x y : Bigint) (yneg : Bool) (hx : Nice x.digits)
    (hy : Nice y.digits) :
    bigVal (bigint_add x y yneg) =
      bigVal x + (if yneg then (-1:Int) else 1) * valD y.digits ∧
    Nice (bigint_add x y yneg).digits := by
  unfold bigint_add
  by_cases h : x.is_neg ≠ yneg
  · rw [if_pos h]
    have hxn : x.is_neg = !yneg := by
      cases yneg <;> cases hxi : x.is_neg <;> simp_all
    obtain ⟨hv, hn⟩ := subSame_spec x y (!yneg) hxn hx hy
    refine ⟨?_, hn⟩
    rw [hv]
    simp only [bigVal, hxn]
    rw [if_sign_not]
    ring
  · rw [if_neg h]
    push_neg at h
    obtain ⟨hf, hv, hn⟩ := addSame_spec x y yneg hx hy
    refine ⟨?_, hn⟩
    simp only [bigVal, hf, hv, h]
    ring

theorem bigint_sub_spec (x y : Bigint) (yneg : Bool) (hx : Nice x.digits)
    (hy : Nice y.digits) :
    bigVal (bigint_sub x y yneg) =
      bigVal x - (if yneg then (-1:Int) else 1) * valD y.digits ∧
    Nice (bigint_sub x y yneg).digits := by
  unfold bigint_sub
  by_cases h : x.is_neg ≠ yneg
  · rw [if_pos h]
    have hxn : x.is_neg = !yneg := by
      cases yneg <;> cases hxi : x.is_neg <;> simp_all
    obtain ⟨hf, hv, hn⟩ := addSame_spec x y (!yneg) hx hy
    refine ⟨?_, hn⟩
    simp only [bigVal, hf, hv, hxn]
    rw [if_sign_not]
    ring
  · rw [if_neg h]
    push_neg at h
    obtain ⟨hv, hn⟩ := subSame_spec x y yneg h hx hy
    refine ⟨?_, hn⟩
    rw [hv]
    simp only [bigVal, h]
    ring

/-! ### Theorems: conversions between the tagged value and bigints -/

theorem bigVal_to_bigint (x : Integer) : bigVal (integer_to_bigint x) = intVal x := by
  cases x with
  | small n =>
    simp only [integer_to_bigint, bigint_from_int, bigVal, intVal]
    rw [valD_natDigits]
    by_cases h : n < 0
    · rw [if_pos (by simpa using h)]
      omega
    · rw [if_neg (by simpa using h)]
      omega
  | big b => rfl

theorem valD_to_bigint (x : Integer) : valD (integer_to_bigint x).digits = (intVal x).natAbs ∨
    (∃ b, x = Integer.big b) := by
  cases x with
  | small n =>
    left
    simp only [integer_to_bigint, bigint_from_int, intVal]
    rw [valD_natDigits]
  | big b => right; exact ⟨b, rfl⟩

theorem Nice_to_bigint (x : Integer) (hx : WF x) : Nice (integer_to_bigint x).digits := by
  cases x with
  | small n =>
    simp only [integer_to_bigint, bigint_from_int]
    refine ⟨wfD_natDigits _, fun h => ?_⟩
    by_cases hn : n.natAbs = 0
    · rw [hn]
      rw [natDigits_eq]
      norm_num
    · exact absurd h (natDigits_getLast_ne_zero _ hn)
  | big b =>
    rcases hx with ⟨hw, hlen, htop⟩
    exact ⟨hw, fun h => absurd h htop⟩

theorem intVal_integer_bigint (b : Bigint) : intVal (integer_bigint b) = bigVal b := by
  unfold integer_bigint
  by_cases h : b.digits.length = 1 ∧ b.digits.headD 0 ≤ SMALLINT_MAX
  · simp only [h, if_true, intVal]
    obtain ⟨h1, h2⟩ := h
    cases hd : b.digits with
    | nil => rw [hd] at h1; simp at h1
    | cons d ds =>
      cases ds with
      | nil =>
        simp only [bigVal, hd, valD, List.headD_cons]
        cases b.is_neg <;> simp
      | cons e es => rw [hd] at h1; simp at h1
  · simp only [h, if_false, intVal]

/-- A nicely-formed bigint result is demoted by integer_bigint exactly when
it is one digit; in that case the value is small, otherwise the value is
zero (zero-length digits from exact cancellation) or at least BASE. -/
theorem integer_bigint_size (b : Bigint) (hn : Nice b.digits) :
    (isSmall (integer_bigint b) = true →
      (intVal (integer_bigint b)).natAbs < 1000000000) ∧
    (isSmall (integer_bigint b) = false →
      1000000000 ≤ (intVal (integer_bigint b)).natAbs ∨
        intVal (integer_bigint b) = 0) := by
  have hval := intVal_integer_bigint b
  unfold integer_bigint at hval ⊢
  by_cases h : b.digits.length = 1 ∧ b.digits.headD 0 ≤ SMALLINT_MAX
  · simp only [h, if_true, isSmall]
    obtain ⟨h1, h2⟩ := h
    refine ⟨fun _ => ?_, fun hcon => by simp at hcon⟩
    cases hd : b.digits with
    | nil => rw [hd] at h1; simp at h1
    | cons d ds =>
      cases ds with
      | nil =>
        have hdw := hn.1 d (by rw [hd]; simp)
        simp only [intVal, hd, List.headD_cons]
        have : (BASE : Int) = 1000000000 := rfl
        cases b.is_neg <;> simp <;> omega
      | cons e es => rw [hd] at h1; simp at h1
  · simp only [h, if_false, isSmall]
    refine ⟨fun hcon => by simp at hcon, fun _ => ?_⟩
    simp only [intVal]
    cases hd : b.digits with
    | nil =>
      right
      simp [bigVal, hd, valD]
    | cons d ds =>
      cases hds : ds with
      | nil =>
        exfalso
        apply h
        rw [hd, hds]
        refine ⟨by simp, ?_⟩
        have hdw := hn.1 d (by rw [hd]; simp)
        simp only [List.headD_cons]
        have : (BASE : Int) ≤ SMALLINT_MAX := by norm_num [BASE, SMALLINT_MAX]
        omega
      | cons e es =>
        left
        have hlen : 2 ≤ b.digits.length := by rw [hd, hds]; simp
        have htop : b.digits.getLast? ≠ some 0 := by
          intro hcon
          have := hn.2 hcon
          rw [this] at hlen
          simp at hlen
        have hge := valD_ge_of_top b.digits hn.1 (by rw [hd]; simp) htop
        have hpow : (BASE : Int) ^ 1 ≤ BASE ^ (b.digits.length - 1) := by
          apply pow_le_pow_right₀ (by norm_num [BASE])
          omega
        have hB : (BASE : Int) ^ 1 = 1000000000 := by norm_num [BASE]
        have hnn := valD_nonneg b.digits hn.1
        simp only [bigVal]
        cases b.is_neg <;> simp <;> omega

/-! ### Theorems: claim C2 (normalization at the public boundary) -/

/-- C2 counterexample: the claim says every Big result whose magnitude lies
in [SMALL_MIN, SMALL_MAX] is downcast to Small, and in particular that
(SMALL_MAX + 1) - 1 is returned as a Small.  Computing (SMALL_MAX + 1) - 1
through the translated add and sub operations yields the two-digit bigint
for 2^30, which integer_bigint leaves Big because it only demotes
single-digit values: the result is Big although its magnitude SMALL_MAX is
in the Small range. -/
theorem c2_counterexample :
    integer_sub_generic
        (integer_add_generic (Integer.small SMALLINT_MAX) (Integer.small 1))
        (Integer.small 1)
      = Integer.big ⟨false, [73741824, 1]⟩ ∧
    isSmall (integer_sub_generic
        (integer_add_generic (Integer.small SMALLINT_MAX) (Integer.small 1))
        (Integer.small 1)) = false ∧
    intVal (integer_sub_generic
        (integer_add_generic (Integer.small SMALLINT_MAX) (Integer.small 1))
        (Integer.small 1)) = SMALLINT_MAX := by
  refine ⟨by decide, by decide, by decide⟩

/-- C2 amended: integer_bigint demotes a Big result to Small exactly when it
has a single digit (necessarily below BASE ≤ SMALL_MAX); hence for the
generic add and sub operations on well-formed inputs the result value is
always correct, a Small result has magnitude below BASE, and a Big result
has magnitude at least BASE or is a zero produced by exact cancellation —
a Big whose magnitude merely fits [SMALL_MIN, SMALL_MAX] is not demoted,
so (SMALL_MAX + 1) - 1 comes back Big (see the counterexample). -/
theorem c2_normalization (x y : Integer) (hx : WF x) (hy : WF y) :
    intVal (integer_add_generic x y) = intVal x + intVal y ∧
    intVal (integer_sub_generic x y) = intVal x - intVal y ∧
    (isSmall (integer_add_generic x y) = true →
      (intVal (integer_add_generic x y)).natAbs < 1000000000) ∧
    (isSmall (integer_add_generic x y) = false →
      1000000000 ≤ (intVal (integer_add_generic x y)).natAbs ∨
        intVal (integer_add_generic x y) = 0) ∧
    (isSmall (integer_sub_generic x y) = true →
      (intVal (integer_sub_generic x y)).natAbs < 1000000000) ∧
    (isSmall (integer_sub_generic x y) = false →
      1000000000 ≤ (intVal (integer_sub_generic x y)).natAbs ∨
        intVal (integer_sub_generic x y) = 0) := by
  obtain ⟨hva, hna⟩ := bigint_add_spec (integer_to_bigint x) (integer_to_bigint y)
    (integer_to_bigint y).is_neg (Nice_to_bigint x hx) (Nice_to_bigint y hy)
  obtain ⟨hvs, hns⟩ := bigint_sub_spec (integer_to_bigint x) (integer_to_bigint y)
    (integer_to_bigint y).is_neg (Nice_to_bigint x hx) (Nice_to_bigint y hy)
  have hya : (if (integer_to_bigint y).is_neg then (-1:Int) else 1) *
      valD (integer_to_bigint y).digits = intVal y := by
    rw [show (if (integer_to_bigint y).is_neg then (-1:Int) else 1) *
        valD (integer_to_bigint y).digits = bigVal (integer_to_bigint y) from rfl]
    exact bigVal_to_bigint y
  obtain ⟨hsa1, hsa2⟩ := integer_bigint_size _ hna
  obtain ⟨hss1, hss2⟩ := integer_bigint_size _ hns
  refine ⟨?_, ?_, hsa1, hsa2, hss1, hss2⟩
  · unfold integer_add_generic
    rw [intVal_integer_bigint, hva, bigVal_to_bigint, hya]
  · unfold integer_sub_generic
    rw [intVal_integer_bigint, hvs, bigVal_to_bigint, hya]

/-- Witness for the amended C2 theorem at a concrete input. -/
theorem c2_normalization_witness :
    WF (Integer.small 5) ∧ WF (Integer.small 7) ∧
    intVal (integer_add_generic (Integer.small 5) (Integer.small 7)) = 12 :=
  ⟨by decide, by decide,
    by
      have h := (c2_normalization (Integer.small 5) (Integer.small 7)
        (by decide) (by decide)).1
      simpa using h⟩

/-! ### Theorems: positional decomposition of digit lists -/

theorem wfD_take (l : List Int) (k : Nat) (h : wfD l) : wfD (l.take k) :=
  fun d hd => h d (List.mem_of_mem_take hd)

theorem wfD_drop (l : List Int) (k : Nat) (h : wfD l) : wfD (l.drop k) :=
  fun d hd => h d (List.mem_of_mem_drop hd)

theorem valD_take_drop (l : List Int) (k : Nat) (hk : k ≤ l.length) :
    valD l = valD (l.take k) + BASE ^ k * valD (l.drop k) := by
  conv_lhs => rw [← List.take_append_drop k l]
  rw [valD_append, List.length_take, Nat.min_eq_left hk]

theorem valD_take_lt (l : List Int) (k : Nat) (h : wfD l) :
    valD (l.take k) < BASE ^ k := by
  have h1 := valD_lt _ (wfD_take l k h)
  have h2 : (l.take k).length ≤ k := by simp
  have h3 : BASE ^ (l.take k).length ≤ BASE ^ k :=
    pow_le_pow_right₀ (by norm_num [BASE]) h2
  exact lt_of_lt_of_le h1 h3

theorem valD_drop_eq_zero (l : List Int) (k : Nat) (h : wfD l)
    (hlt : valD l < BASE ^ k) : valD (l.drop k) = 0 := by
  by_cases hk : k ≤ l.length
  · have hdec := valD_take_drop l k hk
    have htk : 0 ≤ valD (l.take k) := valD_nonneg _ (wfD_take l k h)
    have hdr : 0 ≤ valD (l.drop k) := valD_nonneg _ (wfD_drop l k h)
    have hBpos : (0:Int) < BASE ^ k := pow_pos (by norm_num [BASE]) _
    nlinarith
  · rw [List.drop_eq_nil_of_le (by omega)]
    rfl

/-- The top digit of a well-formed list of length k+1 equals the quotient of
its value by BASE^k. -/
theorem getLast_eq_shift (l : List Int) (k : Nat) (hlen : l.length = k + 1)
    (h : wfD l) :
    l.getLast? = some (valD l / BASE ^ k) := by
  rcases List.eq_nil_or_concat l with rfl | ⟨ys, g, rfl⟩
  · simp at hlen
  · simp only [List.concat_eq_append] at hlen h ⊢
    have hys : ys.length = k := by
      rw [List.length_append, List.length_singleton] at hlen
      omega
    rw [List.getLast?_concat]
    have hval : valD (ys ++ [g]) = valD ys + BASE ^ k * g := by
      rw [valD_append, hys]
      simp [valD]
    have hwys : wfD ys := fun d hd => h d (by simp [hd])
    have h0 : 0 ≤ valD ys := valD_nonneg _ hwys
    have h1 : valD ys < BASE ^ k := by
      have := valD_lt _ hwys
      rw [hys] at this
      exact this
    congr 1
    rw [hval, mul_comm, Int.add_mul_ediv_right _ _ (pow_ne_zero k (by norm_num [BASE])),
      Int.ediv_eq_zero_of_lt h0 h1]
    omega

/-! ### Theorems: multiplication by a small value -/

theorem carryDigits_small (c : Int) (h0 : 0 ≤ c) (h1 : c < BASE) :
    carryDigits 64 c = if c > 0 then [c] else [] := by
  by_cases hc : c > 0
  · simp only [hc, if_true]
    show carryDigits 64 c = [c]
    simp only [carryDigits, hc, if_true]
    rw [Int.emod_eq_of_lt h0 h1, Int.ediv_eq_zero_of_lt h0 h1]
    simp [carryDigits]
  · simp only [hc, if_false]
    simp [carryDigits, hc]

theorem mulSmallLoop_nil (y c : Int) : mulSmallLoop y [] c = carryDigits 64 c := rfl

theorem mulSmallLoop_spec (y : Int) (hy0 : 0 ≤ y) (hy1 : y < BASE) :
    ∀ (ds : List Int) (c : Int), wfD ds → 0 ≤ c → c < BASE →
      valD (mulSmallLoop y ds c) = valD ds * y + c ∧
      wfD (mulSmallLoop y ds c) ∧
      ((mulSmallLoop y ds c).length = ds.length ∨
        ((mulSmallLoop y ds c).length = ds.length + 1 ∧
          (mulSmallLoop y ds c).getLast? ≠ some 0)) := by
  intro ds
  induction ds with
  | nil =>
    intro c hw hc0 hc1
    have he : mulSmallLoop y [] c = if c > 0 then [c] else [] := by
      rw [mulSmallLoop_nil]
      exact carryDigits_small c hc0 hc1
    rw [he]
    by_cases hc : c > 0
    · simp only [hc, if_true]
      refine ⟨by simp [valD], ?_, ?_⟩
      · intro d hd
        simp at hd
        subst hd
        exact ⟨by omega, by omega⟩
      · right
        refine ⟨by simp, ?_⟩
        intro hcon
        simp only [List.getLast?_singleton, Option.some.injEq] at hcon
        omega
    · simp only [hc, if_false]
      have hc00 : c = 0 := by omega
      refine ⟨by simp [valD, hc00], wfD_nil, by left; simp⟩
  | cons d ds ih =>
    intro c hw hc0 hc1
    have hd := hw d (by simp)
    have hds : wfD ds := fun z hz => hw z (by simp [hz])
    have hprod0 : 0 ≤ d * y + c := by
      have := mul_nonneg hd.1 hy0
      omega
    have hprod1 : d * y + c < BASE * BASE := by nlinarith
    have hq0 : 0 ≤ (d * y + c) / BASE := Int.ediv_nonneg hprod0 (by norm_num [BASE])
    have hq1 : (d * y + c) / BASE < BASE := by
      apply Int.ediv_lt_of_lt_mul (by norm_num [BASE])
      nlinarith
    obtain ⟨hv, hwf, hlen⟩ := ih ((d * y + c) / BASE) hds hq0 hq1
    have hdigit : d * y + c - (d * y + c) / BASE * BASE = (d * y + c) % BASE := by
      rw [Int.emod_def]
      ring
    have hmod0 : 0 ≤ (d * y + c) % BASE := Int.emod_nonneg _ (by norm_num [BASE])
    have hmod1 : (d * y + c) % BASE < BASE := Int.emod_lt_of_pos _ (by norm_num [BASE])
    have hstep : mulSmallLoop y (d :: ds) c =
        (d * y + c - (d * y + c) / BASE * BASE) ::
          mulSmallLoop y ds ((d * y + c) / BASE) := rfl
    rw [hstep]
    refine ⟨?_, ?_, ?_⟩
    · simp only [valD, hv]
      have heq := Int.ediv_add_emod (d * y + c) BASE
      rw [hdigit]
      nlinarith [Int.ediv_add_emod (d * y + c) BASE]
    · rw [wfD_cons_iff]
      exact ⟨by rw [hdigit]; exact ⟨hmod0, hmod1⟩, hwf⟩
    · rcases hlen with h | ⟨h, htop⟩
      · left
        simp [h]
      · right
        refine ⟨by simp [h], ?_⟩
        have hne : mulSmallLoop y ds ((d * y + c) / BASE) ≠ [] := by
          intro hcon
          rw [hcon] at h
          simp at h
        obtain ⟨a, as, ha⟩ := List.exists_cons_of_ne_nil hne
        rw [ha, List.getLast?_cons_cons, ← ha]
        exact htop

theorem bigint_mul_small_spec (x : Bigint) (y : Int) (hy0 : 0 ≤ y) (hy1 : y < BASE)
    (hw : wfD x.digits) :
    valD (bigint_mul_small x y).digits = valD x.digits * y ∧
    wfD (bigint_mul_small x y).digits ∧
    ((bigint_mul_small x y).digits.length = x.digits.length ∨
      ((bigint_mul_small x y).digits.length = x.digits.length + 1 ∧
        (bigint_mul_small x y).digits.getLast? ≠ some 0)) ∧
    (bigint_mul_small x y).is_neg = x.is_neg := by
  unfold bigint_mul_small
  have habs : (if y < 0 then -y else y) = y := by
    rw [if_neg (by omega)]
  rw [habs]
  obtain ⟨hv, hwf, hlen⟩ :=
    mulSmallLoop_spec y hy0 hy1 x.digits 0 hw le_rfl (by norm_num [BASE])
  exact ⟨by rw [hv]; ring, hwf, hlen, rfl⟩

/-! ### Theorems: division by a single digit -/

theorem divModSmallMSF_spec (y : Int) (hy : 0 < y) :
    ∀ (ms : List Int) (m : Int), wfD ms → 0 ≤ m → m < y →
      valD (divModSmallMSF y ms m).1.reverse * y + (divModSmallMSF y ms m).2 =
        valD ms.reverse + m * BASE ^ ms.length ∧
      0 ≤ (divModSmallMSF y ms m).2 ∧ (divModSmallMSF y ms m).2 < y ∧
      (divModSmallMSF y ms m).1.length = ms.length ∧
      wfD (divModSmallMSF y ms m).1 := by
  intro ms
  induction ms with
  | nil =>
    intro m hw hm0 hm1
    refine ⟨by simp [divModSmallMSF, valD], hm0, hm1, rfl, wfD_nil⟩
  | cons d ds ih =>
    intro m hw hm0 hm1
    have hd := hw d (by simp)
    have hds : wfD ds := fun z hz => hw z (by simp [hz])
    have hB : (0:Int) < BASE := by norm_num [BASE]
    have hdd0 : 0 ≤ m * BASE + d := by nlinarith
    have hddB : m * BASE + d < y * BASE := by nlinarith
    have hq0 : 0 ≤ (m * BASE + d) / y := Int.ediv_nonneg hdd0 (by omega)
    have hqB : (m * BASE + d) / y < BASE := by
      apply Int.ediv_lt_of_lt_mul hy
      nlinarith
    have hm2 : m * BASE + d - (m * BASE + d) / y * y = (m * BASE + d) % y := by
      rw [Int.emod_def]
      ring
    have hm20 : 0 ≤ (m * BASE + d) % y := Int.emod_nonneg _ (by omega)
    have hm21 : (m * BASE + d) % y < y := Int.emod_lt_of_pos _ hy
    have hstep : divModSmallMSF y (d :: ds) m =
        ((m * BASE + d) / y :: (divModSmallMSF y ds (m * BASE + d - (m * BASE + d) / y * y)).1,
          (divModSmallMSF y ds (m * BASE + d - (m * BASE + d) / y * y)).2) := rfl
    rw [hstep]
    obtain ⟨hv, h0, h1, hlen, hwf⟩ :=
      ih (m * BASE + d - (m * BASE + d) / y * y) hds (by omega) (by omega)
    have hv1 : valD [(m * BASE + d) / y] = (m * BASE + d) / y := by simp [valD]
    have hv2 : valD [d] = d := by simp [valD]
    refine ⟨?_, h0, h1, by simp [hlen], (wfD_cons_iff _ _).mpr ⟨⟨hq0, hqB⟩, hwf⟩⟩
    show (valD (((m * BASE + d) / y :: _ : List Int)).reverse) * y + _ = _
    simp only [List.reverse_cons, valD_append, hv1, hv2, List.length_reverse,
      List.length_cons, hlen]
    linear_combination hv

theorem bigint_div_mod_small_spec (x : Bigint) (y : Int) (hy : 0 < y)
    (hw : wfD x.digits) :
    valD (bigint_div_mod_small x y).1.digits * y + (bigint_div_mod_small x y).2 =
      valD x.digits ∧
    0 ≤ (bigint_div_mod_small x y).2 ∧ (bigint_div_mod_small x y).2 < y ∧
    Nice (bigint_div_mod_small x y).1.digits ∧
    (bigint_div_mod_small x y).1.is_neg = x.is_neg := by
  obtain ⟨hv, h0, h1, hlen, hwf⟩ :=
    divModSmallMSF_spec y hy x.digits.reverse 0 (wfD_reverse _ hw) le_rfl hy
  unfold bigint_div_mod_small bigint_trim
  simp only [List.reverse_reverse] at hv
  refine ⟨?_, h0, h1, ?_, rfl⟩
  · simp only [valD_trimTop]
    simpa using hv
  · exact Nice_trimTop _ (wfD_reverse _ hwf)

/-! ### Theorems: the window loops of long division -/

theorem subMulLoop_spec (qd : Int) (hqd0 : 0 ≤ qd) (hqd1 : qd < BASE) :
    ∀ (vs ws : List Int) (c b : Int), vs.length = ws.length →
      wfD vs → wfD ws → 0 ≤ c → c < BASE → (b = 0 ∨ b = -1) →
      ∃ cf, 0 ≤ cf ∧ cf < BASE ∧
        ((subMulLoop qd vs ws c b).2 = 0 ∨ (subMulLoop qd vs ws c b).2 = -1) ∧
        valD (subMulLoop qd vs ws c b).1 =
          valD ws - qd * valD vs - c + b
            - (subMulLoop qd vs ws c b).2 * BASE ^ vs.length
            + cf * BASE ^ vs.length ∧
        wfD (subMulLoop qd vs ws c b).1 ∧
        (subMulLoop qd vs ws c b).1.length = ws.length ∧
        (vs = [] → cf = c) ∧
        (vs.getLast? = some 0 → cf = 0) := by
  intro vs
  induction vs with
  | nil =>
    intro ws c b hlen hv hw hc0 hc1 hb
    have hws : ws = [] := by simpa using hlen.symm
    subst hws
    refine ⟨c, hc0, hc1, hb, ?_, wfD_nil, rfl, fun _ => rfl, ?_⟩
    · show valD [] = valD [] - qd * valD [] - c + b - b * BASE ^ (0:Nat) + c * BASE ^ (0:Nat)
      simp [valD]
    · intro hcon
      simp at hcon
  | cons v vs ih =>
    intro ws c b hlen hv hw hc0 hc1 hb
    cases ws with
    | nil => simp at hlen
    | cons w ws =>
      have hvd := hv v (by simp)
      have hwd := hw w (by simp)
      have hvs : wfD vs := fun z hz => hv z (by simp [hz])
      have hws : wfD ws := fun z hz => hw z (by simp [hz])
      have hlen2 : vs.length = ws.length := by simpa using hlen
      have hB : (0:Int) < BASE := by norm_num [BASE]
      have hca0 : 0 ≤ c + qd * v := by nlinarith
      have hcaB : c + qd * v < BASE * BASE := by nlinarith
      have hq0 : 0 ≤ (c + qd * v) / BASE := Int.ediv_nonneg hca0 (by omega)
      have hqB : (c + qd * v) / BASE < BASE := by
        apply Int.ediv_lt_of_lt_mul hB
        nlinarith
      have hrm : c + qd * v - (c + qd * v) / BASE * BASE = (c + qd * v) % BASE := by
        rw [Int.emod_def]
        ring
      have hrm0 : 0 ≤ (c + qd * v) % BASE := Int.emod_nonneg _ (by omega)
      have hrm1 : (c + qd * v) % BASE < BASE := Int.emod_lt_of_pos _ hB
      by_cases hbr : b + w - ((c + qd * v) - (c + qd * v) / BASE * BASE) < 0
      · obtain ⟨cf, hcf0, hcf1, hbf, hval, hwf, hl, hnil, htop⟩ :=
          ih ws ((c + qd * v) / BASE) (-1) hlen2 hvs hws hq0 hqB (Or.inr rfl)
        have hstep : subMulLoop qd (v :: vs) (w :: ws) c b =
            ((b + w - ((c + qd * v) - (c + qd * v) / BASE * BASE) + BASE) ::
              (subMulLoop qd vs ws ((c + qd * v) / BASE) (-1)).1,
              (subMulLoop qd vs ws ((c + qd * v) / BASE) (-1)).2) := by
          show (if b + w - ((c + qd * v) - (c + qd * v) / BASE * BASE) < 0 then _ else _) = _
          rw [if_pos hbr]
        rw [hstep]
        refine ⟨cf, hcf0, hcf1, hbf, ?_, ?_, by simpa using hl, by simp, ?_⟩
        · show _ + BASE * valD (subMulLoop qd vs ws ((c + qd * v) / BASE) (-1)).1 = _
          rw [hval]
          simp only [valD, List.length_cons, pow_succ]
          ring
        · exact (wfD_cons_iff _ _).mpr ⟨⟨by omega, by omega⟩, hwf⟩
        · intro hgl
          cases hvse : vs with
          | nil =>
            subst hvse
            have hv0 : v = 0 := by
              simp only [List.getLast?_singleton, Option.some.injEq] at hgl
              exact hgl
            have : (c + qd * v) / BASE = c / BASE := by rw [hv0]; ring_nf
            rw [hnil rfl, this, Int.ediv_eq_zero_of_lt hc0 hc1]
          | cons a as =>
            apply htop
            rw [hvse]
            rw [hvse, List.getLast?_cons_cons] at hgl
            exact hgl
      · obtain ⟨cf, hcf0, hcf1, hbf, hval, hwf, hl, hnil, htop⟩ :=
          ih ws ((c + qd * v) / BASE) 0 hlen2 hvs hws hq0 hqB (Or.inl rfl)
        have hstep : subMulLoop qd (v :: vs) (w :: ws) c b =
            ((b + w - ((c + qd * v) - (c + qd * v) / BASE * BASE)) ::
              (subMulLoop qd vs ws ((c + qd * v) / BASE) 0).1,
              (subMulLoop qd vs ws ((c + qd * v) / BASE) 0).2) := by
          show (if b + w - ((c + qd * v) - (c + qd * v) / BASE * BASE) < 0 then _ else _) = _
          rw [if_neg hbr]
        have hb0 : 0 ≤ b + w - ((c + qd * v) - (c + qd * v) / BASE * BASE) := by omega
        have hb1 : b + w - ((c + qd * v) - (c + qd * v) / BASE * BASE) < BASE := by
          rcases hb with rfl | rfl <;> omega
        rw [hstep]
        refine ⟨cf, hcf0, hcf1, hbf, ?_, ?_, by simpa using hl, by simp, ?_⟩
        · show _ + BASE * valD (subMulLoop qd vs ws ((c + qd * v) / BASE) 0).1 = _
          rw [hval]
          simp only [valD, List.length_cons, pow_succ]
          nlinarith [hval]
        · exact (wfD_cons_iff _ _).mpr ⟨⟨hb0, hb1⟩, hwf⟩
        · intro hgl
          cases hvse : vs with
          | nil =>
            subst hvse
            have hv0 : v = 0 := by
              simp only [List.getLast?_singleton, Option.some.injEq] at hgl
              exact hgl
            have : (c + qd * v) / BASE = c / BASE := by rw [hv0]; ring_nf
            rw [hnil rfl, this, Int.ediv_eq_zero_of_lt hc0 hc1]
          | cons a as =>
            apply htop
            rw [hvse]
            rw [hvse, List.getLast?_cons_cons] at hgl
            exact hgl

theorem addBackLoop_spec :
    ∀ (vs ws : List Int) (c : Int), vs.length = ws.length →
      wfD vs → wfD ws → (c = 0 ∨ c = 1) →
      ((addBackLoop vs ws c).2 = 0 ∨ (addBackLoop vs ws c).2 = 1) ∧
      valD (addBackLoop vs ws c).1 =
        valD ws + valD vs + c - (addBackLoop vs ws c).2 * BASE ^ vs.length ∧
      wfD (addBackLoop vs ws c).1 ∧
      (addBackLoop vs ws c).1.length = ws.length := by
  intro vs
  induction vs with
  | nil =>
    intro ws c hlen hv hw hc
    have hws : ws = [] := by simpa using hlen.symm
    subst hws
    refine ⟨hc, ?_, wfD_nil, rfl⟩
    show valD [] = valD [] + valD [] + c - c * BASE ^ (0:Nat)
    simp [valD]
  | cons v vs ih =>
    intro ws c hlen hv hw hc
    cases ws with
    | nil => simp at hlen
    | cons w ws =>
      have hvd := hv v (by simp)
      have hwd := hw w (by simp)
      have hvs : wfD vs := fun z hz => hv z (by simp [hz])
      have hws : wfD ws := fun z hz => hw z (by simp [hz])
      have hlen2 : vs.length = ws.length := by simpa using hlen
      by_cases hbr : c + w - BASE + v < 0
      · obtain ⟨hcf, hval, hwf, hl⟩ := ih ws 0 hlen2 hvs hws (by omega)
        have hstep : addBackLoop (v :: vs) (w :: ws) c =
            ((c + w - BASE + v + BASE) :: (addBackLoop vs ws 0).1,
              (addBackLoop vs ws 0).2) := by
          show (if c + w - BASE + v < 0 then _ else _) = _
          rw [if_pos hbr]
        rw [hstep]
        refine ⟨hcf, ?_, ?_, by simpa using hl⟩
        · show _ + BASE * valD (addBackLoop vs ws 0).1 = _
          rw [hval]
          simp only [valD, List.length_cons, pow_succ]
          nlinarith [hval]
        · refine (wfD_cons_iff _ _).mpr ⟨⟨by omega, by rcases hc with rfl | rfl <;> omega⟩, hwf⟩
      · obtain ⟨hcf, hval, hwf, hl⟩ := ih ws 1 hlen2 hvs hws (by omega)
        have hstep : addBackLoop (v :: vs) (w :: ws) c =
            ((c + w - BASE + v) :: (addBackLoop vs ws 1).1,
              (addBackLoop vs ws 1).2) := by
          show (if c + w - BASE + v < 0 then _ else _) = _
          rw [if_neg hbr]
        rw [hstep]
        refine ⟨hcf, ?_, ?_, by simpa using hl⟩
        · show _ + BASE * valD (addBackLoop vs ws 1).1 = _
          rw [hval]
          simp only [valD, List.length_cons, pow_succ]
          nlinarith [hval]
        · refine (wfD_cons_iff _ _).mpr ⟨⟨by omega, by rcases hc with rfl | rfl <;> omega⟩, hwf⟩

theorem int_div_mod_unique (a d q r : Int) (hd : 0 < d) (h : a = q * d + r)
    (h0 : 0 ≤ r) (h1 : r < d) : a / d = q ∧ a % d = r := by
  have hq : a / d = q := by
    rw [h, show q * d + r = r + q * d by ring,
      Int.add_mul_ediv_right _ _ (ne_of_gt hd), Int.ediv_eq_zero_of_lt h0 h1]
    ring
  refine ⟨hq, ?_⟩
  rw [Int.emod_def, hq, h]
  ring

/-- The correction loop exits with the exact quotient digit and remainder
window: if the running combination T = valD w + bor * B^n + qd * D is
nonnegative, the current window deficit is below D, and the fuel exceeds
qd, then correctLoop computes (T / D, window with value T % D). -/
theorem correctLoop_spec (dv : List Int) (hdv : wfD dv) (hD : 0 < valD dv) :
    ∀ (fuel : Nat) (qd bor : Int) (w : List Int),
      wfD w → w.length = dv.length → (bor = 0 ∨ bor = -1) →
      0 ≤ valD w + bor * BASE ^ w.length + qd * valD dv →
      valD w + bor * BASE ^ w.length < valD dv →
      qd < (fuel : Int) →
      (correctLoop dv fuel qd w bor).1 =
          (valD w + bor * BASE ^ w.length + qd * valD dv) / valD dv ∧
      valD (correctLoop dv fuel qd w bor).2 =
          (valD w + bor * BASE ^ w.length + qd * valD dv) % valD dv ∧
      wfD (correctLoop dv fuel qd w bor).2 ∧
      (correctLoop dv fuel qd w bor).2.length = dv.length := by
  intro fuel
  induction fuel with
  | zero =>
    intro qd bor w hw hlen hbor hT hW hfuel
    have hq : qd < 0 := by exact_mod_cast hfuel
    have hb0 : bor = 0 := by
      rcases hbor with rfl | rfl
      · rfl
      · exfalso
        have hwv := valD_lt w hw
        nlinarith
    subst hb0
    simp only [correctLoop]
    have h0 : 0 ≤ valD w := valD_nonneg w hw
    obtain ⟨hq, hr⟩ := int_div_mod_unique (valD w + 0 * BASE ^ w.length + qd * valD dv)
      (valD dv) qd (valD w) hD (by ring) h0 (by linarith [hW])
    exact ⟨hq.symm, hr.symm, hw, hlen⟩
  | succ fuel ih =>
    intro qd bor w hw hlen hbor hT hW hfuel
    rcases hbor with rfl | rfl
    · simp only [correctLoop, if_pos rfl]
      have h0 : 0 ≤ valD w := valD_nonneg w hw
      obtain ⟨hq, hr⟩ := int_div_mod_unique (valD w + 0 * BASE ^ w.length + qd * valD dv)
        (valD dv) qd (valD w) hD (by ring) h0 (by linarith [hW])
      exact ⟨hq.symm, hr.symm, hw, hlen⟩
    · have hstep : correctLoop dv (fuel + 1) qd w (-1) =
          correctLoop dv fuel (qd - 1) (addBackLoop dv w 0).1 (-1 + (addBackLoop dv w 0).2) := by
        show (if (-1 : Int) = 0 then _ else _) = _
        rw [if_neg (by norm_num)]
      obtain ⟨hcf, hval, hwf, hl⟩ := addBackLoop_spec dv w 0 hlen.symm hdv hw (Or.inl rfl)
      have hwv := valD_lt w hw
      have hwv0 := valD_nonneg w hw
      have hlen2 : (addBackLoop dv w 0).1.length = dv.length := by rw [hl, hlen]
      have hT2 : valD (addBackLoop dv w 0).1
            + (-1 + (addBackLoop dv w 0).2) * BASE ^ (addBackLoop dv w 0).1.length
            + (qd - 1) * valD dv
          = valD w + (-1) * BASE ^ w.length + qd * valD dv := by
        rw [hval, hl, ← hlen]
        ring
      have hres := ih (qd - 1) (-1 + (addBackLoop dv w 0).2) (addBackLoop dv w 0).1
        hwf hlen2
        (by rcases hcf with h | h <;> rw [h] <;> [right; left] <;> ring)
        (by rw [hT2]; exact hT)
        (by
          have : valD (addBackLoop dv w 0).1
              + (-1 + (addBackLoop dv w 0).2) * BASE ^ (addBackLoop dv w 0).1.length
              = valD w + (-1) * BASE ^ w.length + valD dv := by
            rw [hval, hl, ← hlen]
            ring
          rw [this]
          have hneg : valD w + (-1) * BASE ^ w.length < 0 := by nlinarith
          linarith)
        (by omega)
      rw [hT2] at hres
      rw [hstep]
      exact hres

theorem valD_pair (a b : Int) : valD [a, b] = a + BASE * b := by
  simp [valD]

theorem dv_getLast (ds : List Int) (h : Int) :
    (ds ++ [h, 0]).getLast? = some 0 := by
  rw [show ds ++ [h, 0] = (ds ++ [h]) ++ [0] by simp]
  exact List.getLast?_concat _

theorem valD_dv (ds : List Int) (h : Int) :
    valD (ds ++ [h, 0]) = valD ds + BASE ^ ds.length * h := by
  rw [valD_append, valD_pair]
  ring

/-- The subtract-then-correct kernel of one division step: provided the
trial digit qd0 is an over- or exact estimate (the Knuth condition
valD w - qd0 * D < D) and below BASE, the step computes the window's exact
quotient digit and remainder. -/
theorem trialStep_core (ds : List Int) (h : Int) (w : List Int) (qd0 : Int)
    (hds : wfD ds) (hh1 : 1 ≤ h) (hhB : h < BASE) (hw : wfD w)
    (hlen : w.length = ds.length + 2)
    (hq0 : 0 ≤ qd0) (hq1 : qd0 < BASE)
    (hknuth : valD w - qd0 * valD (ds ++ [h, 0]) < valD (ds ++ [h, 0])) :
    (correctLoop (ds ++ [h, 0]) BASE.toNat qd0
        (subMulLoop qd0 (ds ++ [h, 0]) w 0 0).1
        (subMulLoop qd0 (ds ++ [h, 0]) w 0 0).2).1
      = valD w / valD (ds ++ [h, 0]) ∧
    valD (correctLoop (ds ++ [h, 0]) BASE.toNat qd0
        (subMulLoop qd0 (ds ++ [h, 0]) w 0 0).1
        (subMulLoop qd0 (ds ++ [h, 0]) w 0 0).2).2
      = valD w % valD (ds ++ [h, 0]) ∧
    wfD (correctLoop (ds ++ [h, 0]) BASE.toNat qd0
        (subMulLoop qd0 (ds ++ [h, 0]) w 0 0).1
        (subMulLoop qd0 (ds ++ [h, 0]) w 0 0).2).2 ∧
    (correctLoop (ds ++ [h, 0]) BASE.toNat qd0
        (subMulLoop qd0 (ds ++ [h, 0]) w 0 0).1
        (subMulLoop qd0 (ds ++ [h, 0]) w 0 0).2).2.length = w.length := by
  have hdvwf : wfD (ds ++ [h, 0]) := by
    refine wfD_append _ _ hds ?_
    intro d hd
    simp only [List.mem_cons, List.mem_singleton] at hd
    rcases hd with rfl | rfl | hf
    · omega
    · norm_num [BASE]
    · simp at hf
  have hdvlen : (ds ++ [h, 0]).length = ds.length + 2 := by simp
  have hBk : (0:Int) < BASE ^ ds.length := pow_pos (by norm_num [BASE]) _
  have hD0 : 0 < valD (ds ++ [h, 0]) := by
    rw [valD_dv]
    have := valD_nonneg ds hds
    nlinarith
  obtain ⟨cf, hcf0, hcf1, hbf, hval, hwf, hl, _, htop⟩ :=
    subMulLoop_spec qd0 hq0 hq1 (ds ++ [h, 0]) w 0 0
      (hdvlen.trans hlen.symm) hdvwf hw le_rfl (by norm_num [BASE]) (Or.inl rfl)
  have hcf : cf = 0 := htop (dv_getLast ds h)
  rw [hcf] at hval
  have hslen : (subMulLoop qd0 (ds ++ [h, 0]) w 0 0).1.length = (ds ++ [h, 0]).length :=
    hl.trans (hlen.trans hdvlen.symm)
  have hTw : valD (subMulLoop qd0 (ds ++ [h, 0]) w 0 0).1
      + (subMulLoop qd0 (ds ++ [h, 0]) w 0 0).2
          * BASE ^ (subMulLoop qd0 (ds ++ [h, 0]) w 0 0).1.length
      + qd0 * valD (ds ++ [h, 0]) = valD w := by
    rw [hval, hslen, hdvlen, ← hlen]
    ring
  have hres := correctLoop_spec (ds ++ [h, 0]) hdvwf hD0 BASE.toNat qd0
    (subMulLoop qd0 (ds ++ [h, 0]) w 0 0).2
    (subMulLoop qd0 (ds ++ [h, 0]) w 0 0).1
    hwf hslen hbf
    (by rw [hTw]; exact valD_nonneg w hw)
    (by
      have : valD (subMulLoop qd0 (ds ++ [h, 0]) w 0 0).1
          + (subMulLoop qd0 (ds ++ [h, 0]) w 0 0).2
              * BASE ^ (subMulLoop qd0 (ds ++ [h, 0]) w 0 0).1.length
          = valD w - qd0 * valD (ds ++ [h, 0]) := by
        rw [hval, hslen, hdvlen, ← hlen]
        ring
      rw [this]
      exact hknuth)
    (by
      have : ((BASE.toNat : Nat) : Int) = BASE := by norm_num [BASE]
      omega)
  rw [hTw] at hres
  obtain ⟨h1, h2, h3, h4⟩ := hres
  exact ⟨h1, h2, h3, h4.trans (hdvlen.trans hlen.symm)⟩

/-- One full iteration of the main division loop (trial digit from the top
two window digits, then subtract and correct) computes the exact quotient
digit valD w / D and leaves the window holding valD w % D, provided the
window value is below D * BASE. -/
theorem trialStep_spec (ds : List Int) (h : Int) (w : List Int)
    (hds : wfD ds) (hh1 : 1 ≤ h) (hhB : h < BASE) (hw : wfD w)
    (hlen : w.length = ds.length + 2)
    (hW : valD w < valD (ds ++ [h, 0]) * BASE) :
    (trialStep (ds ++ [h, 0]) h w).1 = valD w / valD (ds ++ [h, 0]) ∧
    valD (trialStep (ds ++ [h, 0]) h w).2 = valD w % valD (ds ++ [h, 0]) ∧
    wfD (trialStep (ds ++ [h, 0]) h w).2 ∧
    (trialStep (ds ++ [h, 0]) h w).2.length = w.length := by
  have hBk : (0:Int) < BASE ^ ds.length := pow_pos (by norm_num [BASE]) _
  have hds0 : 0 ≤ valD ds := valD_nonneg ds hds
  have hdsk : valD ds < BASE ^ ds.length := by
    have := valD_lt ds hds
    simpa using this
  rcases List.eq_nil_or_concat w with rfl | ⟨w1, wtop, rfl⟩
  · simp at hlen
  rcases List.eq_nil_or_concat w1 with rfl | ⟨w2, wnext, rfl⟩
  · simp at hlen
  simp only [List.concat_eq_append] at hlen hw hW ⊢
  have hw2len : w2.length = ds.length := by simpa using hlen
  have hw2 : wfD w2 := fun d hd => hw d (by simp [hd])
  have hwtopd : 0 ≤ wtop ∧ wtop < BASE := hw wtop (by simp)
  have hwnextd : 0 ≤ wnext ∧ wnext < BASE := hw wnext (by simp)
  have hw2lt : valD w2 < BASE ^ ds.length := by
    have := valD_lt w2 hw2
    rwa [hw2len] at this
  have hw20 : 0 ≤ valD w2 := valD_nonneg w2 hw2
  have hwdec : valD (w2 ++ [wnext] ++ [wtop])
      = valD w2 + wnext * BASE ^ ds.length + wtop * (BASE ^ ds.length * BASE) := by
    rw [valD_append, valD_append]
    simp only [List.length_append, List.length_singleton, hw2len]
    simp [valD, pow_succ]
    ring
  have hwtopv : (w2 ++ [wnext] ++ [wtop]).getLast?.getD 0 = wtop := by
    rw [List.getLast?_concat]
    rfl
  have hwnextv : (w2 ++ [wnext] ++ [wtop]).dropLast.getLast?.getD 0 = wnext := by
    rw [List.dropLast_concat, List.getLast?_concat]
    rfl
  have hDB : valD (ds ++ [h, 0]) * BASE ≤ (h + 1) * (BASE ^ ds.length * BASE) := by
    rw [valD_dv]
    nlinarith
  have hBk1 : (0:Int) < BASE ^ ds.length * BASE := by
    have : (0:Int) < BASE := by norm_num [BASE]
    exact mul_pos hBk this
  have hwtoph : wtop ≤ h := by
    by_contra hcon
    push_neg at hcon
    have h1 : (h + 1) * (BASE ^ ds.length * BASE) ≤ wtop * (BASE ^ ds.length * BASE) :=
      mul_le_mul_of_nonneg_right (by omega) (le_of_lt hBk1)
    have h2 : 0 ≤ wnext * BASE ^ ds.length := mul_nonneg hwnextd.1 (le_of_lt hBk)
    linarith [hW, hwdec, hDB, hw20]
  have hstep : trialStep (ds ++ [h, 0]) h (w2 ++ [wnext] ++ [wtop]) =
      correctLoop (ds ++ [h, 0]) BASE.toNat
        (if wtop ≠ h then (wtop * BASE + wnext) / h else BASE - 1)
        (subMulLoop (if wtop ≠ h then (wtop * BASE + wnext) / h else BASE - 1)
          (ds ++ [h, 0]) (w2 ++ [wnext] ++ [wtop]) 0 0).1
        (subMulLoop (if wtop ≠ h then (wtop * BASE + wnext) / h else BASE - 1)
          (ds ++ [h, 0]) (w2 ++ [wnext] ++ [wtop]) 0 0).2 := by
    simp only [trialStep, hwtopv, hwnextv]
  by_cases hcase : wtop = h
  · have hqif : (if wtop ≠ h then (wtop * BASE + wnext) / h else BASE - 1) = BASE - 1 := by
      rw [if_neg (by simp [hcase])]
    rw [hstep, hqif]
    apply trialStep_core ds h _ (BASE - 1) hds hh1 hhB hw hlen
      (by norm_num [BASE]) (by norm_num [BASE])
    have : valD (w2 ++ [wnext] ++ [wtop]) < valD (ds ++ [h, 0]) * BASE := hW
    nlinarith [this]
  · have hqif : (if wtop ≠ h then (wtop * BASE + wnext) / h else BASE - 1)
        = (wtop * BASE + wnext) / h := by
      rw [if_pos hcase]
    have hwtoplt : wtop < h := lt_of_le_of_ne hwtoph hcase
    have hh0 : (0:Int) < h := by omega
    have ha0 : 0 ≤ wtop * BASE + wnext := by nlinarith
    have hq0 : 0 ≤ (wtop * BASE + wnext) / h := Int.ediv_nonneg ha0 (by omega)
    have hq1 : (wtop * BASE + wnext) / h < BASE := by
      apply Int.ediv_lt_of_lt_mul hh0
      nlinarith
    rw [hstep, hqif]
    apply trialStep_core ds h _ _ hds hh1 hhB hw hlen hq0 hq1
    have hdm := Int.ediv_add_emod (wtop * BASE + wnext) h
    have hr0 : 0 ≤ (wtop * BASE + wnext) % h := Int.emod_nonneg _ (by omega)
    have hr1 : (wtop * BASE + wnext) % h < h := Int.emod_lt_of_pos _ hh0
    have hstep1 : valD (w2 ++ [wnext] ++ [wtop])
        < (wtop * BASE + wnext + 1) * BASE ^ ds.length := by
      rw [hwdec]
      nlinarith
    have h1 : wtop * BASE + wnext + 1 ≤ ((wtop * BASE + wnext) / h + 1) * h := by
      rw [add_one_mul]
      linarith [hdm, hr1]
    have hstep2 : (wtop * BASE + wnext + 1) * BASE ^ ds.length
        ≤ ((wtop * BASE + wnext) / h + 1) * (h * BASE ^ ds.length) := by
      have h2 := mul_le_mul_of_nonneg_right h1 (le_of_lt hBk)
      calc (wtop * BASE + wnext + 1) * BASE ^ ds.length
          ≤ ((wtop * BASE + wnext) / h + 1) * h * BASE ^ ds.length := h2
        _ = ((wtop * BASE + wnext) / h + 1) * (h * BASE ^ ds.length) := by ring
    have hstep3 : ((wtop * BASE + wnext) / h + 1) * (h * BASE ^ ds.length)
        ≤ ((wtop * BASE + wnext) / h + 1) * valD (ds ++ [h, 0]) := by
      have hDge : h * BASE ^ ds.length ≤ valD (ds ++ [h, 0]) := by
        rw [valD_dv]
        linarith [hds0]
      exact mul_le_mul_of_nonneg_left hDge (by linarith [hq0])
    linarith [hstep1, hstep2, hstep3]

theorem valD_take_le (l : List Int) (k : Nat) (h : wfD l) :
    valD (l.take k) ≤ valD l := by
  by_cases hk : k ≤ l.length
  · have h1 := valD_take_drop l k hk
    have h2 : 0 ≤ valD (l.drop k) := valD_nonneg _ (wfD_drop l k h)
    have h3 : (0:Int) ≤ BASE ^ k := le_of_lt (pow_pos (by norm_num [BASE]) _)
    nlinarith
  · rw [List.take_of_length_le (by omega)]

/-- The main division loop: processing shifts t down to 0 over a padded
remainder whose digits above position t + cd are zero and whose top window
is below D * BASE produces exactly the base-BASE digits of the quotient
and the final remainder valD rem % D. -/
theorem divModLoop_spec (ds : List Int) (h : Int)
    (hds : wfD ds) (hh1 : 1 ≤ h) (hhB : h < BASE) :
    ∀ (t : Nat) (rem : List Int), wfD rem →
      t + (ds.length + 2) ≤ rem.length →
      valD (rem.drop (t + (ds.length + 2))) = 0 →
      valD ((rem.drop t).take (ds.length + 2)) < valD (ds ++ [h, 0]) * BASE →
      (divModLoop (ds ++ [h, 0]) h t rem).1.length = t + 1 ∧
      wfD (divModLoop (ds ++ [h, 0]) h t rem).1 ∧
      (divModLoop (ds ++ [h, 0]) h t rem).2.length = rem.length ∧
      wfD (divModLoop (ds ++ [h, 0]) h t rem).2 ∧
      valD rem = valD (ds ++ [h, 0]) * valD (divModLoop (ds ++ [h, 0]) h t rem).1
          + valD (divModLoop (ds ++ [h, 0]) h t rem).2 ∧
      valD (divModLoop (ds ++ [h, 0]) h t rem).2 < valD (ds ++ [h, 0]) := by
  have hdvlen : (ds ++ [h, 0]).length = ds.length + 2 := by simp
  have hBpos : (0:Int) < BASE := by norm_num [BASE]
  have hBk : (0:Int) < BASE ^ ds.length := pow_pos hBpos _
  have hds0 : 0 ≤ valD ds := valD_nonneg ds hds
  have hdsk : valD ds < BASE ^ ds.length := by
    have := valD_lt ds hds
    simpa using this
  have hD0 : 0 < valD (ds ++ [h, 0]) := by
    rw [valD_dv]
    nlinarith
  have hDup : valD (ds ++ [h, 0]) < BASE ^ (ds.length + 1) := by
    rw [valD_dv, pow_succ]
    have : BASE ^ ds.length * h ≤ BASE ^ ds.length * (BASE - 1) :=
      mul_le_mul_of_nonneg_left (by omega) (le_of_lt hBk)
    linarith
  intro t
  induction t with
  | zero =>
    intro rem hrem hlen hhi hwin
    have hstep : divModLoop (ds ++ [h, 0]) h 0 rem =
        ([(trialStep (ds ++ [h, 0]) h (rem.take (ds ++ [h, 0]).length)).1],
          (trialStep (ds ++ [h, 0]) h (rem.take (ds ++ [h, 0]).length)).2
            ++ rem.drop (ds ++ [h, 0]).length) := rfl
    rw [hstep, hdvlen]
    simp only [Nat.zero_add] at hlen hhi
    rw [List.drop_zero] at hwin
    have hwwf : wfD (rem.take (ds.length + 2)) := wfD_take rem _ hrem
    have hwlen : (rem.take (ds.length + 2)).length = ds.length + 2 := by
      rw [List.length_take]
      omega
    obtain ⟨hq, hr, hrwf, hrlen⟩ := trialStep_spec ds h (rem.take (ds.length + 2))
      hds hh1 hhB hwwf hwlen hwin
    have hV0 : 0 ≤ valD (rem.take (ds.length + 2)) := valD_nonneg _ hwwf
    have hq0 : 0 ≤ (trialStep (ds ++ [h, 0]) h (rem.take (ds.length + 2))).1 := by
      rw [hq]
      exact Int.ediv_nonneg hV0 (le_of_lt hD0)
    have hq1 : (trialStep (ds ++ [h, 0]) h (rem.take (ds.length + 2))).1 < BASE := by
      rw [hq]
      apply Int.ediv_lt_of_lt_mul hD0
      calc valD (rem.take (ds.length + 2)) < valD (ds ++ [h, 0]) * BASE := hwin
        _ = BASE * valD (ds ++ [h, 0]) := by ring
    refine ⟨by simp, ?_, ?_, wfD_append _ _ hrwf (wfD_drop rem _ hrem), ?_, ?_⟩
    · intro d hd
      simp only [List.mem_singleton] at hd
      subst hd
      exact ⟨hq0, hq1⟩
    · rw [List.length_append, hrlen, hwlen, List.length_drop]
      omega
    · have e1 : valD ((trialStep (ds ++ [h, 0]) h (rem.take (ds.length + 2))).2
            ++ rem.drop (ds.length + 2))
          = valD (trialStep (ds ++ [h, 0]) h (rem.take (ds.length + 2))).2 := by
        rw [valD_append, hrlen, hwlen, hhi]
        ring
      have e2 : valD [(trialStep (ds ++ [h, 0]) h (rem.take (ds.length + 2))).1]
          = (trialStep (ds ++ [h, 0]) h (rem.take (ds.length + 2))).1 := by
        simp [valD]
      show valD rem = valD (ds ++ [h, 0])
          * valD [(trialStep (ds ++ [h, 0]) h (rem.take (ds.length + 2))).1]
          + valD ((trialStep (ds ++ [h, 0]) h (rem.take (ds.length + 2))).2
              ++ rem.drop (ds.length + 2))
      rw [e1, e2, hr, hq]
      have hdec := valD_take_drop rem (ds.length + 2) hlen
      rw [hhi, mul_zero, add_zero] at hdec
      rw [hdec]
      exact (Int.ediv_add_emod (valD (rem.take (ds.length + 2))) (valD (ds ++ [h, 0]))).symm
    · show valD ((trialStep (ds ++ [h, 0]) h (rem.take (ds.length + 2))).2
          ++ rem.drop (ds.length + 2)) < valD (ds ++ [h, 0])
      have e1 : valD ((trialStep (ds ++ [h, 0]) h (rem.take (ds.length + 2))).2
            ++ rem.drop (ds.length + 2))
          = valD (trialStep (ds ++ [h, 0]) h (rem.take (ds.length + 2))).2 := by
        rw [valD_append, hrlen, hwlen, hhi]
        ring
      rw [e1, hr]
      exact Int.emod_lt_of_pos _ hD0
  | succ s ih =>
    intro rem hrem hlen hhi hwin
    have hstep : divModLoop (ds ++ [h, 0]) h (s + 1) rem =
        ((divModLoop (ds ++ [h, 0]) h s
            (rem.take (s + 1)
              ++ (trialStep (ds ++ [h, 0]) h ((rem.drop (s + 1)).take (ds ++ [h, 0]).length)).2
              ++ rem.drop (s + 1 + (ds ++ [h, 0]).length))).1
          ++ [(trialStep (ds ++ [h, 0]) h ((rem.drop (s + 1)).take (ds ++ [h, 0]).length)).1],
          (divModLoop (ds ++ [h, 0]) h s
            (rem.take (s + 1)
              ++ (trialStep (ds ++ [h, 0]) h ((rem.drop (s + 1)).take (ds ++ [h, 0]).length)).2
              ++ rem.drop (s + 1 + (ds ++ [h, 0]).length))).2) := rfl
    rw [hstep, hdvlen]
    have hwwf : wfD ((rem.drop (s + 1)).take (ds.length + 2)) :=
      wfD_take _ _ (wfD_drop rem _ hrem)
    have hwlen : ((rem.drop (s + 1)).take (ds.length + 2)).length = ds.length + 2 := by
      rw [List.length_take, List.length_drop]
      omega
    obtain ⟨hq, hr, hrwf, hrlen⟩ := trialStep_spec ds h ((rem.drop (s + 1)).take (ds.length + 2))
      hds hh1 hhB hwwf hwlen hwin
    rw [hwlen] at hrlen
    have hV0 : 0 ≤ valD ((rem.drop (s + 1)).take (ds.length + 2)) := valD_nonneg _ hwwf
    have hq0 : 0 ≤ (trialStep (ds ++ [h, 0]) h ((rem.drop (s + 1)).take (ds.length + 2))).1 := by
      rw [hq]
      exact Int.ediv_nonneg hV0 (le_of_lt hD0)
    have hq1 : (trialStep (ds ++ [h, 0]) h ((rem.drop (s + 1)).take (ds.length + 2))).1 < BASE := by
      rw [hq]
      apply Int.ediv_lt_of_lt_mul hD0
      calc valD ((rem.drop (s + 1)).take (ds.length + 2)) < valD (ds ++ [h, 0]) * BASE := hwin
        _ = BASE * valD (ds ++ [h, 0]) := by ring
    have hR0 : 0 ≤ valD (trialStep (ds ++ [h, 0]) h ((rem.drop (s + 1)).take (ds.length + 2))).2 := by
      rw [hr]
      exact Int.emod_nonneg _ (ne_of_gt hD0)
    have hR1 : valD (trialStep (ds ++ [h, 0]) h ((rem.drop (s + 1)).take (ds.length + 2))).2
        < valD (ds ++ [h, 0]) := by
      rw [hr]
      exact Int.emod_lt_of_pos _ hD0
    have htka : (rem.take (s + 1)).length = s + 1 := by
      rw [List.length_take]
      omega
    have hdroplen : (rem.drop (s + 1 + (ds.length + 2))).length
        = rem.length - (s + 1 + (ds.length + 2)) := by
      rw [List.length_drop]
    have hrem2len : (rem.take (s + 1)
        ++ (trialStep (ds ++ [h, 0]) h ((rem.drop (s + 1)).take (ds.length + 2))).2
        ++ rem.drop (s + 1 + (ds.length + 2))).length = rem.length := by
      rw [List.length_append, List.length_append, htka, hrlen, List.length_drop]
      omega
    have hrem2wf : wfD (rem.take (s + 1)
        ++ (trialStep (ds ++ [h, 0]) h ((rem.drop (s + 1)).take (ds.length + 2))).2
        ++ rem.drop (s + 1 + (ds.length + 2))) :=
      wfD_append _ _ (wfD_append _ _ (wfD_take rem _ hrem) hrwf) (wfD_drop rem _ hrem)
    have hCzero : valD (rem.drop (s + 1 + (ds.length + 2))) = 0 := hhi
    have hrem2val : valD (rem.take (s + 1)
        ++ (trialStep (ds ++ [h, 0]) h ((rem.drop (s + 1)).take (ds.length + 2))).2
        ++ rem.drop (s + 1 + (ds.length + 2)))
        = valD (rem.take (s + 1)) + BASE ^ (s + 1)
            * valD (trialStep (ds ++ [h, 0]) h ((rem.drop (s + 1)).take (ds.length + 2))).2 := by
      rw [List.append_assoc, valD_append, valD_append, htka, hrlen, hCzero]
      ring
    have hremval : valD rem = valD (rem.take (s + 1)) + BASE ^ (s + 1)
        * valD ((rem.drop (s + 1)).take (ds.length + 2)) := by
      have h1 := valD_take_drop rem (s + 1) (by omega)
      have h2 := valD_take_drop (rem.drop (s + 1)) (ds.length + 2)
        (by rw [List.length_drop]; omega)
      have h3 : (rem.drop (s + 1)).drop (ds.length + 2) = rem.drop (s + 1 + (ds.length + 2)) := by
        rw [List.drop_drop, Nat.add_comm]
      rw [h3, hCzero] at h2
      rw [h1, h2]
      ring
    have hrem2ub : valD (rem.take (s + 1)
        ++ (trialStep (ds ++ [h, 0]) h ((rem.drop (s + 1)).take (ds.length + 2))).2
        ++ rem.drop (s + 1 + (ds.length + 2))) < BASE ^ (s + (ds.length + 2)) := by
      rw [hrem2val]
      have h1 : valD (rem.take (s + 1)) < BASE ^ (s + 1) := valD_take_lt rem _ hrem
      have h2 : valD (trialStep (ds ++ [h, 0]) h ((rem.drop (s + 1)).take (ds.length + 2))).2
          < BASE ^ (ds.length + 1) := lt_trans hR1 hDup
      have h3 : BASE ^ (s + 1)
            * valD (trialStep (ds ++ [h, 0]) h ((rem.drop (s + 1)).take (ds.length + 2))).2
          ≤ BASE ^ (s + 1) * (BASE ^ (ds.length + 1) - 1) :=
        mul_le_mul_of_nonneg_left (by omega) (le_of_lt (pow_pos hBpos _))
      have h4 : BASE ^ (s + (ds.length + 2)) = BASE ^ (s + 1) * BASE ^ (ds.length + 1) := by
        rw [← pow_add]
        congr 1
        omega
      rw [h4]
      nlinarith [pow_pos hBpos (s + 1)]
    have hrem2hi : valD ((rem.take (s + 1)
        ++ (trialStep (ds ++ [h, 0]) h ((rem.drop (s + 1)).take (ds.length + 2))).2
        ++ rem.drop (s + 1 + (ds.length + 2))).drop (s + (ds.length + 2))) = 0 :=
      valD_drop_eq_zero _ _ hrem2wf hrem2ub
    have htk2 : (rem.take (s + 1)
        ++ (trialStep (ds ++ [h, 0]) h ((rem.drop (s + 1)).take (ds.length + 2))).2
        ++ rem.drop (s + 1 + (ds.length + 2))).take s = rem.take s := by
      rw [List.append_assoc, List.take_append_of_le_length (by omega), List.take_take,
        Nat.min_eq_left (by omega)]
    have hAdec := valD_take_drop (rem.take (s + 1)) s (by omega)
    have hAtake : (rem.take (s + 1)).take s = rem.take s := by
      rw [List.take_take, Nat.min_eq_left (by omega)]
    have hasl : ((rem.take (s + 1)).drop s).length = 1 := by
      rw [List.length_drop, htka]
      omega
    have has_wf : wfD ((rem.take (s + 1)).drop s) := wfD_drop _ _ (wfD_take rem _ hrem)
    have has0 : 0 ≤ valD ((rem.take (s + 1)).drop s) := valD_nonneg _ has_wf
    have has1 : valD ((rem.take (s + 1)).drop s) < BASE := by
      have := valD_lt _ has_wf
      rwa [hasl, pow_one] at this
    have hrem2dec := valD_take_drop (rem.take (s + 1)
        ++ (trialStep (ds ++ [h, 0]) h ((rem.drop (s + 1)).take (ds.length + 2))).2
        ++ rem.drop (s + 1 + (ds.length + 2))) s (by rw [hrem2len]; omega)
    rw [htk2] at hrem2dec
    have hdropval : valD ((rem.take (s + 1)
        ++ (trialStep (ds ++ [h, 0]) h ((rem.drop (s + 1)).take (ds.length + 2))).2
        ++ rem.drop (s + 1 + (ds.length + 2))).drop s)
        = valD ((rem.take (s + 1)).drop s) + BASE
            * valD (trialStep (ds ++ [h, 0]) h ((rem.drop (s + 1)).take (ds.length + 2))).2 := by
      have heq : valD (rem.take s) + BASE ^ s * valD ((rem.take (s + 1)
            ++ (trialStep (ds ++ [h, 0]) h ((rem.drop (s + 1)).take (ds.length + 2))).2
            ++ rem.drop (s + 1 + (ds.length + 2))).drop s)
          = valD (rem.take s) + BASE ^ s * (valD ((rem.take (s + 1)).drop s) + BASE
              * valD (trialStep (ds ++ [h, 0]) h ((rem.drop (s + 1)).take (ds.length + 2))).2) := by
        rw [← hrem2dec, hrem2val, hAdec, hAtake, pow_succ]
        ring
      have heq2 := add_left_cancel heq
      exact mul_left_cancel₀ (ne_of_gt (pow_pos hBpos s)) heq2
    have hwin2 : valD (((rem.take (s + 1)
        ++ (trialStep (ds ++ [h, 0]) h ((rem.drop (s + 1)).take (ds.length + 2))).2
        ++ rem.drop (s + 1 + (ds.length + 2))).drop s).take (ds.length + 2))
        < valD (ds ++ [h, 0]) * BASE := by
      have hle := valD_take_le ((rem.take (s + 1)
          ++ (trialStep (ds ++ [h, 0]) h ((rem.drop (s + 1)).take (ds.length + 2))).2
          ++ rem.drop (s + 1 + (ds.length + 2))).drop s) (ds.length + 2)
        (wfD_drop _ _ hrem2wf)
      rw [hdropval] at hle
      have h5 : BASE * valD (trialStep (ds ++ [h, 0]) h
            ((rem.drop (s + 1)).take (ds.length + 2))).2
          ≤ BASE * (valD (ds ++ [h, 0]) - 1) :=
        mul_le_mul_of_nonneg_left (by omega) (le_of_lt hBpos)
      have h6 : valD (ds ++ [h, 0]) * BASE = BASE * (valD (ds ++ [h, 0]) - 1) + BASE := by ring
      linarith
    obtain ⟨ih1, ih2, ih3, ih4, ih5, ih6⟩ := ih (rem.take (s + 1)
        ++ (trialStep (ds ++ [h, 0]) h ((rem.drop (s + 1)).take (ds.length + 2))).2
        ++ rem.drop (s + 1 + (ds.length + 2)))
      hrem2wf (by rw [hrem2len]; omega) hrem2hi hwin2
    refine ⟨?_, ?_, ?_, ih4, ?_, ih6⟩
    · rw [List.length_append, ih1]
      simp
    · refine wfD_append _ _ ih2 ?_
      intro d hd
      simp only [List.mem_singleton] at hd
      subst hd
      exact ⟨hq0, hq1⟩
    · rw [ih3, hrem2len]
    · have hr2 : valD (trialStep (ds ++ [h, 0]) h ((rem.drop (s + 1)).take (ds.length + 2))).2
          = valD ((rem.drop (s + 1)).take (ds.length + 2))
            - valD (ds ++ [h, 0])
              * (trialStep (ds ++ [h, 0]) h ((rem.drop (s + 1)).take (ds.length + 2))).1 := by
        rw [hr, hq, Int.emod_def]
      have e2 : valD ((divModLoop (ds ++ [h, 0]) h s
            (rem.take (s + 1)
              ++ (trialStep (ds ++ [h, 0]) h ((rem.drop (s + 1)).take (ds.length + 2))).2
              ++ rem.drop (s + 1 + (ds.length + 2)))).1
            ++ [(trialStep (ds ++ [h, 0]) h ((rem.drop (s + 1)).take (ds.length + 2))).1])
          = valD (divModLoop (ds ++ [h, 0]) h s
              (rem.take (s + 1)
                ++ (trialStep (ds ++ [h, 0]) h ((rem.drop (s + 1)).take (ds.length + 2))).2
                ++ rem.drop (s + 1 + (ds.length + 2)))).1
            + BASE ^ (s + 1)
              * (trialStep (ds ++ [h, 0]) h ((rem.drop (s + 1)).take (ds.length + 2))).1 := by
        rw [valD_append, ih1]
        simp [valD]
      rw [e2, hremval]
      rw [hrem2val, hr2] at ih5
      linear_combination ih5

/-- The normalization factor lambda = (BASE + 2 h0 - 1) / (2 h0) is at
least 1 and satisfies lambda * (h0 + 1) <= BASE, so scaling by lambda never
adds a digit.  The second bound uses that BASE - 1 is odd, hence its
residue modulo the even number 2 h0 is at least 1. -/
theorem lam_bound (h0 : Int) (hh1 : 1 ≤ h0) (hhB : h0 < BASE) :
    1 ≤ (BASE + 2 * h0 - 1) / (2 * h0) ∧
    ((BASE + 2 * h0 - 1) / (2 * h0)) * (h0 + 1) ≤ BASE := by
  have hm : (0:Int) < 2 * h0 := by omega
  have heq : BASE + 2 * h0 - 1 = (BASE - 1) + 1 * (2 * h0) := by ring
  have hsplit : (BASE + 2 * h0 - 1) / (2 * h0) = (BASE - 1) / (2 * h0) + 1 := by
    rw [heq, Int.add_mul_ediv_right _ _ (ne_of_gt hm)]
  have hq0 : 0 ≤ (BASE - 1) / (2 * h0) := Int.ediv_nonneg (by norm_num [BASE]) (by omega)
  constructor
  · rw [hsplit]
    omega
  · rw [hsplit]
    have hdm := Int.ediv_add_emod (BASE - 1) (2 * h0)
    have hr0 : 0 ≤ (BASE - 1) % (2 * h0) := Int.emod_nonneg _ (by omega)
    have hr1 : (BASE - 1) % (2 * h0) < 2 * h0 := Int.emod_lt_of_pos _ hm
    have hodd : (BASE - 1) % (2 * h0) % 2 = (BASE - 1) % 2 :=
      Int.emod_emod_of_dvd _ ⟨h0, by ring⟩
    have hB2 : (BASE - 1) % 2 = 1 := by norm_num [BASE]
    have hrpos : 1 ≤ (BASE - 1) % (2 * h0) := by
      rcases eq_or_lt_of_le hr0 with he | hl
      · exfalso
        rw [← he] at hodd
        simp at hodd
        omega
      · omega
    by_cases hq : (BASE - 1) / (2 * h0) = 0
    · rw [hq]
      omega
    · have hq1 : 1 ≤ (BASE - 1) / (2 * h0) := by omega
      have hprod : 0 ≤ ((BASE - 1) / (2 * h0) - 1) * (h0 - 1) :=
        mul_nonneg (by omega) (by omega)
      nlinarith [hdm, hrpos, hprod]

/-- bigint_div_mod computes the exact magnitude quotient and remainder:
for x with at least as many digits as y, and y a canonical bigint of at
least two digits, the result holds |x| / |y| and |x| % |y| as canonical
digit lists, the quotient carrying the xor of the signs and the remainder
the sign of x. -/
theorem bigint_div_mod_spec (x y : Bigint)
    (hx : wfD x.digits) (hy : wfD y.digits)
    (hcy2 : 2 ≤ y.digits.length) (hcxy : y.digits.length ≤ x.digits.length)
    (hytop : y.digits.getLast? ≠ some 0) :
    valD (bigint_div_mod x y).1.digits = valD x.digits / valD y.digits ∧
    Nice (bigint_div_mod x y).1.digits ∧
    (bigint_div_mod x y).1.is_neg = decide (x.is_neg ≠ y.is_neg) ∧
    valD (bigint_div_mod x y).2.digits = valD x.digits % valD y.digits ∧
    Nice (bigint_div_mod x y).2.digits ∧
    (bigint_div_mod x y).2.is_neg = x.is_neg := by
  have hBpos : (0:Int) < BASE := by norm_num [BASE]
  have hyne : y.digits ≠ [] := by
    intro hcon
    rw [hcon] at hcy2
    simp at hcy2
  have hky : y.digits.length = (y.digits.length - 1) + 1 := by omega
  have hygl : y.digits.getLast? = some (valD y.digits / BASE ^ (y.digits.length - 1)) :=
    getLast_eq_shift y.digits _ hky hy
  have hBcy : (0:Int) < BASE ^ (y.digits.length - 1) := pow_pos hBpos _
  have hYlow : BASE ^ (y.digits.length - 1) ≤ valD y.digits :=
    valD_ge_of_top y.digits hy hyne hytop
  have hYhigh : valD y.digits < BASE ^ (y.digits.length - 1) * BASE := by
    have h1 := valD_lt y.digits hy
    have h2 : BASE ^ y.digits.length = BASE ^ (y.digits.length - 1) * BASE := by
      conv_lhs => rw [hky]
      rw [pow_succ]
    rwa [h2] at h1
  set H0 := y.digits.getLast?.getD 0 with hH0
  have hH0v : H0 = valD y.digits / BASE ^ (y.digits.length - 1) := by
    rw [hH0, hygl]
    rfl
  have hH01 : 1 ≤ H0 := by
    rw [hH0v, Int.le_ediv_iff_mul_le hBcy]
    linarith
  have hH0B : H0 < BASE := by
    rw [hH0v]
    apply Int.ediv_lt_of_lt_mul hBcy
    calc valD y.digits < BASE ^ (y.digits.length - 1) * BASE := hYhigh
      _ = BASE * BASE ^ (y.digits.length - 1) := by ring
  have hYtop : valD y.digits < (H0 + 1) * BASE ^ (y.digits.length - 1) := by
    have hdm := Int.ediv_add_emod (valD y.digits) (BASE ^ (y.digits.length - 1))
    have hr1 := Int.emod_lt_of_pos (valD y.digits) hBcy
    rw [hH0v]
    nlinarith
  set L := (BASE + 2 * H0 - 1) / (2 * H0) with hLdef
  obtain ⟨hL1, hLmul⟩ := lam_bound H0 hH01 hH0B
  have hL0 : 0 ≤ L := by omega
  have hLB : L < BASE := by nlinarith
  set R0 := bigint_mul_small x L with hR0
  set RM := (if R0.digits.length ≤ x.digits.length then R0.digits ++ [0] else R0.digits)
    with hRM
  set D0 := bigint_mul_small y L with hD0
  set H := D0.digits.getLast?.getD 0 with hH
  set R := divModLoop (D0.digits ++ [0]) H (x.digits.length - y.digits.length) RM with hR
  have hstep : bigint_div_mod x y =
      (bigint_trim ⟨decide (x.is_neg ≠ y.is_neg), R.1⟩,
        (bigint_div_mod_small ⟨x.is_neg, R.2⟩ L).1) := rfl
  obtain ⟨hD0v, hD0wf, hD0shape, _⟩ := bigint_mul_small_spec y L hL0 hLB hy
  rw [← hD0] at hD0v hD0wf hD0shape
  have hDsmall : valD D0.digits < BASE ^ y.digits.length := by
    rw [hD0v]
    have h1 : valD y.digits * L < ((H0 + 1) * BASE ^ (y.digits.length - 1)) * L := by
      apply mul_lt_mul_of_pos_right hYtop
      omega
    have h3 : (L * (H0 + 1)) * BASE ^ (y.digits.length - 1)
        ≤ BASE * BASE ^ (y.digits.length - 1) :=
      mul_le_mul_of_nonneg_right hLmul (le_of_lt hBcy)
    have h4 : BASE * BASE ^ (y.digits.length - 1) = BASE ^ y.digits.length := by
      conv_rhs => rw [hky]
      rw [pow_succ]
      ring
    nlinarith
  have hD0len : D0.digits.length = y.digits.length := by
    rcases hD0shape with h | ⟨hlen1, hne⟩
    · exact h
    · exfalso
      have hge := valD_ge_of_top D0.digits hD0wf
        (by intro hcon; rw [hcon] at hlen1; simp at hlen1) hne
      rw [hlen1] at hge
      simp only [Nat.add_sub_cancel] at hge
      have := pow_le_pow_right₀ (by norm_num [BASE] : (1:Int) ≤ BASE)
        (le_refl y.digits.length)
      omega
  have hDlow : BASE ^ (y.digits.length - 1) ≤ valD D0.digits := by
    rw [hD0v]
    calc BASE ^ (y.digits.length - 1) ≤ valD y.digits := hYlow
      _ = valD y.digits * 1 := by ring
      _ ≤ valD y.digits * L := by
          apply mul_le_mul_of_nonneg_left hL1
          linarith
  have hD0gl : D0.digits.getLast? = some (valD D0.digits / BASE ^ (y.digits.length - 1)) := by
    apply getLast_eq_shift D0.digits _ _ hD0wf
    omega
  have hHv : H = valD D0.digits / BASE ^ (y.digits.length - 1) := by
    rw [hH, hD0gl]
    rfl
  have hH1 : 1 ≤ H := by
    rw [hHv, Int.le_ediv_iff_mul_le hBcy]
    linarith
  have hHB : H < BASE := by
    rw [hHv]
    apply Int.ediv_lt_of_lt_mul hBcy
    have h2 : BASE ^ y.digits.length = BASE ^ (y.digits.length - 1) * BASE := by
      conv_lhs => rw [hky]
      rw [pow_succ]
    calc valD D0.digits < BASE ^ y.digits.length := hDsmall
      _ = BASE * BASE ^ (y.digits.length - 1) := by rw [h2]; ring
  rcases List.eq_nil_or_concat D0.digits with hnil | ⟨ds, g, hconc⟩
  · exfalso
    rw [hnil] at hD0len
    simp at hD0len
    omega
  simp only [List.concat_eq_append] at hconc
  have hgH : g = H := by
    have hgl : (ds ++ [g]).getLast? = some g := List.getLast?_concat _
    rw [← hconc] at hgl
    rw [hH, hgl]
    rfl
  rw [hgH] at hconc
  have hdswf : wfD ds := by
    intro d hd
    exact hD0wf d (by rw [hconc]; simp [hd])
  have hdslen : ds.length = y.digits.length - 1 := by
    have hl2 : (ds ++ [H]).length = y.digits.length := by rw [← hconc]; exact hD0len
    simp at hl2
    omega
  have hdv2 : D0.digits ++ [0] = ds ++ [H, 0] := by
    rw [hconc, List.append_assoc]
    rfl
  have hDval : valD (ds ++ [H, 0]) = valD y.digits * L := by
    rw [← hdv2, valD_append, hD0v]
    simp [valD]
  obtain ⟨hR0v, hR0wf, hR0shape, _⟩ := bigint_mul_small_spec x L hL0 hLB hx
  rw [← hR0] at hR0v hR0wf hR0shape
  have hRMlen : RM.length = x.digits.length + 1 := by
    rw [hRM]
    rcases hR0shape with hl | ⟨hl, _⟩
    · rw [if_pos (by omega), List.length_append, hl]
      rfl
    · rw [if_neg (by omega), hl]
  have hRMval : valD RM = valD x.digits * L := by
    rw [hRM]
    rcases hR0shape with hl | ⟨hl, _⟩
    · rw [if_pos (by omega), valD_append]
      simp [valD, hR0v]
    · rw [if_neg (by omega)]
      exact hR0v
  have hRMwf : wfD RM := by
    rw [hRM]
    by_cases hc : R0.digits.length ≤ x.digits.length
    · rw [if_pos hc]
      refine wfD_append _ _ hR0wf ?_
      intro d hd
      simp only [List.mem_singleton] at hd
      subst hd
      exact ⟨le_refl 0, hBpos⟩
    · rw [if_neg hc]
      exact hR0wf
  have hidx : (x.digits.length - y.digits.length) + (ds.length + 2) = x.digits.length + 1 := by
    omega
  have hhi : valD (RM.drop ((x.digits.length - y.digits.length) + (ds.length + 2))) = 0 := by
    rw [hidx, ← hRMlen, List.drop_length]
    simp [valD]
  have hX0 : 0 ≤ valD x.digits := valD_nonneg _ hx
  have hXlt : valD x.digits < BASE ^ x.digits.length := valD_lt _ hx
  have hdropRM : valD (RM.drop (x.digits.length - y.digits.length))
      < L * BASE ^ y.digits.length := by
    have hdec := valD_take_drop RM (x.digits.length - y.digits.length) (by omega)
    have htk0 : 0 ≤ valD (RM.take (x.digits.length - y.digits.length)) :=
      valD_nonneg _ (wfD_take _ _ hRMwf)
    have hpow : BASE ^ x.digits.length
        = BASE ^ (x.digits.length - y.digits.length) * BASE ^ y.digits.length := by
      rw [← pow_add]
      congr 1
      omega
    have hlt : BASE ^ (x.digits.length - y.digits.length)
          * valD (RM.drop (x.digits.length - y.digits.length))
        < BASE ^ (x.digits.length - y.digits.length) * (L * BASE ^ y.digits.length) := by
      have h1 : valD x.digits * L < BASE ^ x.digits.length * L := by
        apply mul_lt_mul_of_pos_right hXlt
        omega
      calc BASE ^ (x.digits.length - y.digits.length)
            * valD (RM.drop (x.digits.length - y.digits.length))
          ≤ valD RM := by rw [hdec]; linarith
        _ = valD x.digits * L := hRMval
        _ < BASE ^ x.digits.length * L := h1
        _ = BASE ^ (x.digits.length - y.digits.length) * (L * BASE ^ y.digits.length) := by
            rw [hpow]; ring
    exact lt_of_mul_lt_mul_left hlt (le_of_lt (pow_pos hBpos _))
  have hwin : valD ((RM.drop (x.digits.length - y.digits.length)).take (ds.length + 2))
      < valD (ds ++ [H, 0]) * BASE := by
    have h1 := valD_take_le (RM.drop (x.digits.length - y.digits.length)) (ds.length + 2)
      (wfD_drop _ _ hRMwf)
    have h2 : L * BASE ^ y.digits.length ≤ valD (ds ++ [H, 0]) * BASE := by
      rw [hDval]
      have h3 : BASE ^ y.digits.length = BASE ^ (y.digits.length - 1) * BASE := by
        conv_lhs => rw [hky]
        rw [pow_succ]
      rw [h3]
      have h4 : L * (BASE ^ (y.digits.length - 1) * BASE)
          = (L * BASE ^ (y.digits.length - 1)) * BASE := by ring
      rw [h4]
      apply mul_le_mul_of_nonneg_right _ (le_of_lt hBpos)
      calc L * BASE ^ (y.digits.length - 1) ≤ L * valD y.digits :=
            mul_le_mul_of_nonneg_left hYlow hL0
        _ = valD y.digits * L := by ring
    linarith [hdropRM]
  obtain ⟨hq_len, hq_wf, hr_len, hr_wf, hval_id, hr_lt⟩ :=
    divModLoop_spec ds H hdswf hH1 hHB (x.digits.length - y.digits.length) RM
      hRMwf (by omega) hhi hwin
  rw [← hdv2] at hq_len hq_wf hr_len hr_wf hval_id hr_lt
  rw [← hR] at hq_len hq_wf hr_len hr_wf hval_id hr_lt
  have hY0 : 0 < valD y.digits := lt_of_lt_of_le hBcy hYlow
  have hLpos : 0 < L := by omega
  have hD0pos : 0 < valD (D0.digits ++ [0]) := by
    rw [hdv2, hDval]
    exact mul_pos hY0 hLpos
  have hDeq : valD (D0.digits ++ [0]) = valD y.digits * L := by rw [hdv2, hDval]
  obtain ⟨hQdiv, hRmod⟩ := int_div_mod_unique (valD RM) (valD (D0.digits ++ [0]))
    (valD R.1) (valD R.2) hD0pos (by rw [hval_id]; ring) (valD_nonneg _ hr_wf)
    hr_lt
  have hQ : valD R.1 = valD x.digits / valD y.digits := by
    rw [← hQdiv, hRMval, hDeq]
    rw [show valD x.digits * L = L * valD x.digits by ring,
      show valD y.digits * L = L * valD y.digits by ring]
    exact Int.mul_ediv_mul_of_pos _ _ hLpos
  have hRv : valD R.2 = L * (valD x.digits % valD y.digits) := by
    rw [← hRmod, hRMval, hDeq]
    rw [show valD x.digits * L = L * valD x.digits by ring,
      show valD y.digits * L = L * valD y.digits by ring]
    exact Int.mul_emod_mul_of_pos _ _ hLpos
  obtain ⟨hmd_val, hmd_r0, hmd_r1, hmd_nice, hmd_neg⟩ :=
    bigint_div_mod_small_spec ⟨x.is_neg, R.2⟩ L hLpos hr_wf
  have hmd : valD (bigint_div_mod_small ⟨x.is_neg, R.2⟩ L).1.digits
      = valD x.digits % valD y.digits := by
    have huniq := int_div_mod_unique (valD R.2) L
      (valD (bigint_div_mod_small ⟨x.is_neg, R.2⟩ L).1.digits)
      ((bigint_div_mod_small ⟨x.is_neg, R.2⟩ L).2) hLpos (by linarith [hmd_val]) hmd_r0 hmd_r1
    have hcancel : valD R.2 / L = valD x.digits % valD y.digits := by
      rw [hRv]
      exact Int.mul_ediv_cancel_left _ (ne_of_gt hLpos)
    rw [← huniq.1, hcancel]
  rw [hstep]
  refine ⟨?_, ?_, rfl, hmd, hmd_nice, hmd_neg⟩
  · show valD (bigint_trim ⟨decide (x.is_neg ≠ y.is_neg), R.1⟩).digits
        = valD x.digits / valD y.digits
    unfold bigint_trim
    simp only [valD_trimTop]
    exact hQ
  · show Nice (bigint_trim ⟨decide (x.is_neg ≠ y.is_neg), R.1⟩).digits
    unfold bigint_trim
    exact Nice_trimTop _ hq_wf

/-! ### Theorems: glue for the generic division entry points -/

theorem to_bigint_sign (x : Integer) (hx : WF x) :
    valD (integer_to_bigint x).digits = |intVal x| ∧
    ((integer_to_bigint x).is_neg = true → intVal x < 0) ∧
    ((integer_to_bigint x).is_neg = false → 0 ≤ intVal x) := by
  have hb := bigVal_to_bigint x
  simp only [bigVal] at hb
  have hn := Nice_to_bigint x hx
  have h0 : 0 ≤ valD (integer_to_bigint x).digits := valD_nonneg _ hn.1
  have hneg : (integer_to_bigint x).is_neg = true → intVal x < 0 := by
    intro hs
    cases x with
    | small n =>
      have hd : decide (n < 0) = true := by
        simpa [integer_to_bigint, bigint_from_int] using hs
      simpa [intVal] using of_decide_eq_true hd
    | big b =>
      rcases hx with ⟨hw, hlen, htop⟩
      have hne : b.digits ≠ [] := by
        intro hc
        rw [hc] at hlen
        simp at hlen
      have hge := valD_ge_of_top b.digits hw hne htop
      have hBpow : (0:Int) < BASE ^ (b.digits.length - 1) := pow_pos (by norm_num [BASE]) _
      rw [hs] at hb
      simp only [if_true, integer_to_bigint] at hb
      omega
  have hpos : (integer_to_bigint x).is_neg = false → 0 ≤ intVal x := by
    intro hs
    rw [hs] at hb
    simp only [Bool.false_eq_true, if_false] at hb
    omega
  refine ⟨?_, hneg, hpos⟩
  cases hs : (integer_to_bigint x).is_neg
  · rw [hs] at hb
    simp only [Bool.false_eq_true, if_false] at hb
    rw [abs_of_nonneg (hpos hs)]
    omega
  · rw [hs] at hb
    simp only [if_true] at hb
    rw [abs_of_neg (hneg hs)]
    omega

theorem to_bigint_len2 (y : Integer) (hy : WF y) (hB : BASE ≤ |intVal y|) :
    2 ≤ (integer_to_bigint y).digits.length := by
  obtain ⟨hval, _, _⟩ := to_bigint_sign y hy
  have hn := Nice_to_bigint y hy
  have hlt := valD_lt _ hn.1
  by_contra hcon
  push_neg at hcon
  have hp : BASE ^ (integer_to_bigint y).digits.length ≤ BASE ^ 1 :=
    pow_le_pow_right₀ (by norm_num [BASE]) (by omega)
  rw [pow_one] at hp
  rw [hval] at hlt
  omega

theorem compare_abs_lt_val_strict (x y : Bigint) (hx : Nice x.digits) (hy : Nice y.digits)
    (hY0 : 0 < valD y.digits) (h : bigint_compare_abs x y < 0) :
    valD x.digits < valD y.digits := by
  unfold bigint_compare_abs at h
  by_cases h1 : x.digits.length > y.digits.length
  · simp [h1] at h
  · by_cases h2 : x.digits.length < y.digits.length
    · rcases hy with ⟨hwy, hny⟩
      by_cases hy0 : y.digits.getLast? = some 0
      · exfalso
        rw [hny hy0] at hY0
        simp [valD] at hY0
      · have hyne : y.digits ≠ [] := by
          intro hh
          rw [hh] at h2
          simp at h2
        have hge := valD_ge_of_top _ hwy hyne hy0
        have hlt := valD_lt _ hx.1
        have hpow : BASE ^ x.digits.length ≤ BASE ^ (y.digits.length - 1) :=
          pow_le_pow_right₀ (by norm_num [BASE]) (by omega)
        omega
    · have hlen : x.digits.length = y.digits.length := by omega
      rcases cmpMSF_correct x.digits.reverse y.digits.reverse (by simp [hlen])
          (wfD_reverse _ hx.1) (wfD_reverse _ hy.1) with ⟨h0, heq⟩ | ⟨h0, hv⟩ | ⟨h0, hv⟩
      · simp only [if_neg h1, if_neg h2, h0] at h
        omega
      · simp only [if_neg h1, if_neg h2, h0] at h
        omega
      · simpa using hv

theorem compare_abs_eq_digits (x y : Bigint) (hx : wfD x.digits) (hy : wfD y.digits)
    (h : bigint_compare_abs x y = 0) : x.digits = y.digits := by
  unfold bigint_compare_abs at h
  by_cases h1 : x.digits.length > y.digits.length
  · simp [h1] at h
  · by_cases h2 : x.digits.length < y.digits.length
    · simp [h1, h2] at h
    · have hlen : x.digits.length = y.digits.length := by omega
      rcases cmpMSF_correct x.digits.reverse y.digits.reverse (by simp [hlen])
          (wfD_reverse _ hx) (wfD_reverse _ hy) with ⟨h0, heq⟩ | ⟨h0, hv⟩ | ⟨h0, hv⟩
      · have := congrArg List.reverse heq
        simpa using this
      · simp only [if_neg h1, if_neg h2, h0] at h
        omega
      · simp only [if_neg h1, if_neg h2, h0] at h
        omega

theorem intVal_from_int (i : Int) : intVal (integer_from_int i) = i := by
  unfold integer_from_int
  by_cases h : -SMALLINT_MAX ≤ i ∧ i ≤ SMALLINT_MAX
  · rw [if_pos h]
    rfl
  · rw [if_neg h]
    simp only [intVal, bigVal, bigint_from_int]
    rw [valD_natDigits]
    by_cases hi : i < 0
    · rw [if_pos (by simpa using hi)]
      omega
    · rw [if_neg (by simpa using hi)]
      omega

theorem intVal_neg_generic (x : Integer) : intVal (integer_neg_generic x) = -intVal x := by
  have hb := bigVal_to_bigint x
  unfold integer_neg_generic
  rw [intVal_integer_bigint]
  simp only [bigVal, bigint_neg] at hb ⊢
  rw [if_sign_not]
  linear_combination -hb

/-- The full-bigint fall-through path of integer_div_mod_generic computes
truncated division: the value identity, the remainder magnitude bound, the
remainder carrying the sign of the dividend, and the quotient negative
exactly when the operand signs differ and the quotient is nonzero. -/
theorem divModBig_spec (x y : Integer) (hx : WF x) (hy : WF y)
    (hy0 : intVal y ≠ 0) (h2len : 2 ≤ (integer_to_bigint y).digits.length) :
    ∃ q r, divModBig x y = some (q, r) ∧
      intVal x = intVal q * intVal y + intVal r ∧
      |intVal r| < |intVal y| ∧
      (intVal r = 0 ∨ (0 < intVal r ↔ 0 < intVal x)) ∧
      (intVal q < 0 ↔ (intVal x * intVal y < 0 ∧ |intVal y| ≤ |intVal x|)) := by
  obtain ⟨hxval, hxnegt, hxposf⟩ := to_bigint_sign x hx
  obtain ⟨hyval, hynegt, hyposf⟩ := to_bigint_sign y hy
  have hxn := Nice_to_bigint x hx
  have hyn := Nice_to_bigint y hy
  have hY0 : 0 < |intVal y| := abs_pos.mpr hy0
  have hX0 : 0 ≤ |intVal x| := abs_nonneg _
  set bx := integer_to_bigint x with hbx
  set yb := integer_to_bigint y with hyb
  have hstep : divModBig x y =
      (if bigint_compare_abs bx yb < 0 then some (.small 0, x)
       else if bigint_compare_abs bx yb = 0 then
         some (.small (if bx.is_neg = yb.is_neg then 1 else -1), .small 0)
       else
         some (integer_bigint ⟨decide (bx.is_neg ≠ yb.is_neg),
             (bigint_div_mod bx yb).1.digits⟩,
           integer_bigint ⟨bx.is_neg, (bigint_div_mod bx yb).2.digits⟩)) := rfl
  by_cases hc1 : bigint_compare_abs bx yb < 0
  · have hstrict : valD bx.digits < valD yb.digits :=
      compare_abs_lt_val_strict bx yb hxn hyn (by rw [hyval]; exact hY0) hc1
    rw [hxval, hyval] at hstrict
    refine ⟨.small 0, x, by rw [hstep, if_pos hc1], ?_, hstrict, Or.inr Iff.rfl, ?_⟩
    · simp [intVal]
    · have h00 : intVal (Integer.small 0) = 0 := rfl
      rw [h00]
      constructor
      · intro hcon
        omega
      · rintro ⟨_, hgee⟩
        omega
  · have hge0 : valD yb.digits ≤ valD bx.digits :=
      compare_abs_ge_val bx yb hxn hyn (by omega)
    have habsge : |intVal y| ≤ |intVal x| := by
      rw [← hxval, ← hyval]
      exact hge0
    have hXpos : 0 < |intVal x| := lt_of_lt_of_le hY0 habsge
    have hXne : intVal x ≠ 0 := by
      intro hcon
      rw [hcon] at hXpos
      simp at hXpos
    by_cases hc2 : bigint_compare_abs bx yb = 0
    · have hdig := compare_abs_eq_digits bx yb hxn.1 hyn.1 hc2
      have habseq : |intVal x| = |intVal y| := by
        rw [← hxval, ← hyval, hdig]
      by_cases hss : bx.is_neg = yb.is_neg
      · have hXY : intVal x = intVal y := by
          cases hbb : bx.is_neg with
          | false =>
            have h1 := hxposf hbb
            have h2 := hyposf (by rw [← hss, hbb])
            rw [abs_of_nonneg h1, abs_of_nonneg h2] at habseq
            exact habseq
          | true =>
            have h1 := hxnegt hbb
            have h2 := hynegt (by rw [← hss, hbb])
            rw [abs_of_neg h1, abs_of_neg h2] at habseq
            omega
        refine ⟨.small 1, .small 0, ?_, ?_, ?_, Or.inl rfl, ?_⟩
        · rw [hstep, if_neg hc1, if_pos hc2, if_pos hss]
        · have h01 : intVal (Integer.small 1) = 1 := rfl
          have h00 : intVal (Integer.small 0) = 0 := rfl
          rw [h01, h00]
          omega
        · have h00 : intVal (Integer.small 0) = 0 := rfl
          rw [h00]
          simpa using hY0
        · have h01 : intVal (Integer.small 1) = 1 := rfl
          rw [h01]
          constructor
          · intro hcon
            omega
          · rintro ⟨hlt, _⟩
            rw [hXY] at hlt
            exfalso
            nlinarith [mul_self_nonneg (intVal y)]
      · have hXY : intVal x = -intVal y := by
          cases hbb : bx.is_neg with
          | false =>
            have h1 := hxposf hbb
            have h2 := hynegt (by
              cases hyy : yb.is_neg with
              | false => exact absurd (hbb.trans hyy.symm) hss
              | true => rfl)
            rw [abs_of_nonneg h1, abs_of_neg h2] at habseq
            omega
          | true =>
            have h1 := hxnegt hbb
            have h2 := hyposf (by
              cases hyy : yb.is_neg with
              | false => rfl
              | true => exact absurd (hbb.trans hyy.symm) hss)
            rw [abs_of_neg h1, abs_of_nonneg h2] at habseq
            omega
        refine ⟨.small (-1), .small 0, ?_, ?_, ?_, Or.inl rfl, ?_⟩
        · rw [hstep, if_neg hc1, if_pos hc2, if_neg hss]
        · have h0m : intVal (Integer.small (-1)) = -1 := rfl
          have h00 : intVal (Integer.small 0) = 0 := rfl
          rw [h0m, h00]
          omega
        · have h00 : intVal (Integer.small 0) = 0 := rfl
          rw [h00]
          simpa using hY0
        · have h0m : intVal (Integer.small (-1)) = -1 := rfl
          rw [h0m]
          constructor
          · intro _
            refine ⟨?_, habsge⟩
            rw [hXY]
            have hyy2 : 0 < intVal y * intVal y := mul_self_pos.mpr hy0
            nlinarith
          · intro _
            norm_num
    · have hcpos : 0 < bigint_compare_abs bx yb := by omega
      have hytop : yb.digits.getLast? ≠ some 0 := by
        intro hcon
        have := hyn.2 hcon
        rw [this] at h2len
        simp at h2len
      have hlenle : yb.digits.length ≤ bx.digits.length := compare_abs_len bx yb (by omega)
      obtain ⟨hQv, hQn, hQf, hRv, hRn, hRf⟩ :=
        bigint_div_mod_spec bx yb hxn.1 hyn.1 h2len hlenle hytop
      rw [hxval, hyval] at hQv hRv
      have hdm := Int.ediv_add_emod (|intVal x|) (|intVal y|)
      have hr0 : 0 ≤ |intVal x| % |intVal y| := Int.emod_nonneg _ (ne_of_gt hY0)
      have hr1 : |intVal x| % |intVal y| < |intVal y| := Int.emod_lt_of_pos _ hY0
      have hq0 : 0 ≤ |intVal x| / |intVal y| := Int.ediv_nonneg hX0 (le_of_lt hY0)
      have hq1 : 1 ≤ |intVal x| / |intVal y| := by
        rw [Int.le_ediv_iff_mul_le hY0]
        linarith
      refine ⟨integer_bigint ⟨decide (bx.is_neg ≠ yb.is_neg),
          (bigint_div_mod bx yb).1.digits⟩,
        integer_bigint ⟨bx.is_neg, (bigint_div_mod bx yb).2.digits⟩,
        by rw [hstep, if_neg hc1, if_neg hc2], ?_, ?_, ?_, ?_⟩
      · rw [intVal_integer_bigint, intVal_integer_bigint]
        simp only [bigVal]
        rw [hQv, hRv]
        have hXeq : (if bx.is_neg then (-1:Int) else 1) * |intVal x| = intVal x := by
          cases hbb : bx.is_neg with
          | false => rw [abs_of_nonneg (hxposf hbb)]; simp
          | true => rw [abs_of_neg (hxnegt hbb)]; simp
        have hYeq : (if yb.is_neg then (-1:Int) else 1) * |intVal y| = intVal y := by
          cases hyy : yb.is_neg with
          | false => rw [abs_of_nonneg (hyposf hyy)]; simp
          | true => rw [abs_of_neg (hynegt hyy)]; simp
        have hsq : (if (decide (bx.is_neg ≠ yb.is_neg) : Bool) then (-1:Int) else 1)
            = (if bx.is_neg then (-1:Int) else 1) * (if yb.is_neg then (-1:Int) else 1) := by
          cases hbb : bx.is_neg <;> cases hyy : yb.is_neg <;> simp
        have hsy2 : (if yb.is_neg then (-1:Int) else 1) * (if yb.is_neg then (-1:Int) else 1)
            = 1 := by
          cases hyy : yb.is_neg <;> simp
        set Rr := |intVal x| % |intVal y| with hRrd
        set Q := |intVal x| / |intVal y| with hQd
        set XA := |intVal x| with hXAd
        set YA := |intVal y| with hYAd
        rw [hsq, ← hXeq, ← hYeq]
        linear_combination (-(if bx.is_neg then (-1:Int) else 1)) * hdm
          - ((if bx.is_neg then (-1:Int) else 1) * Q * YA) * hsy2
      · rw [intVal_integer_bigint]
        simp only [bigVal]
        rw [hRv, abs_mul]
        have hs1 : |(if bx.is_neg then (-1:Int) else 1)| = 1 := by
          cases hbb : bx.is_neg <;> simp
        rw [hs1, one_mul, abs_of_nonneg hr0]
        exact hr1
      · rw [intVal_integer_bigint]
        simp only [bigVal]
        rw [hRv]
        by_cases hz : |intVal x| % |intVal y| = 0
        · left
          rw [hz]
          ring
        · right
          have hrpos : 0 < |intVal x| % |intVal y| := lt_of_le_of_ne hr0 (Ne.symm hz)
          cases hbb : bx.is_neg with
          | false =>
            have hxpos := hxposf hbb
            have hxpos2 : 0 < intVal x := by
              rcases lt_or_eq_of_le hxpos with h | h
              · exact h
              · exact absurd h.symm hXne
            rw [if_neg (by simp)]
            constructor
            · intro _
              exact hxpos2
            · intro _
              linarith
          | true =>
            have hxneg := hxnegt hbb
            rw [if_pos rfl]
            constructor
            · intro hcon
              linarith
            · intro hcon
              linarith
      · rw [intVal_integer_bigint]
        simp only [bigVal]
        rw [hQv]
        cases hbb : bx.is_neg with
        | false =>
          have hxpos := hxposf hbb
          have hxpos2 : 0 < intVal x := by
            rcases lt_or_eq_of_le hxpos with h | h
            · exact h
            · exact absurd h.symm hXne
          cases hyy : yb.is_neg with
          | false =>
            have hypos := hyposf hyy
            rw [if_neg (by simp [hbb, hyy])]
            constructor
            · intro hcon
              exfalso
              linarith
            · rintro ⟨hlt, _⟩
              exact absurd hlt (not_lt.mpr (mul_nonneg hxpos hypos))
          | true =>
            have hyneg := hynegt hyy
            rw [if_pos (by simp [hbb, hyy])]
            constructor
            · intro _
              exact ⟨mul_neg_of_pos_of_neg hxpos2 hyneg, habsge⟩
            · intro _
              linarith
        | true =>
          have hxneg := hxnegt hbb
          cases hyy : yb.is_neg with
          | false =>
            have hypos := hyposf hyy
            have hY0' : 0 < intVal y := by
              rcases lt_or_eq_of_le hypos with h | h
              · exact h
              · exact absurd h.symm hy0
            rw [if_pos (by simp [hbb, hyy])]
            constructor
            · intro _
              exact ⟨mul_neg_of_neg_of_pos hxneg hY0', habsge⟩
            · intro _
              linarith
          | true =>
            have hyneg := hynegt hyy
            rw [if_neg (by simp [hbb, hyy])]
            constructor
            · intro hcon
              exfalso
              linarith
            · rintro ⟨hlt, _⟩
              exact absurd hlt (not_lt.mpr (le_of_lt (mul_pos_of_neg_of_neg hxneg hyneg)))

/-- integer_div_mod_generic implements truncated division on values: the
quotient-remainder identity, remainder magnitude strictly below the
divisor, remainder sign in {0, sign x}, and quotient negative exactly when
the operand signs differ and the magnitude of x reaches that of y. -/
theorem integer_div_mod_spec (x y : Integer) (hx : WF x) (hy : WF y)
    (hy0 : intVal y ≠ 0) :
    ∃ q r, integer_div_mod_generic x y = some (q, r) ∧
      intVal x = intVal q * intVal y + intVal r ∧
      |intVal r| < |intVal y| ∧
      (intVal r = 0 ∨ (0 < intVal r ↔ 0 < intVal x)) ∧
      (intVal q < 0 ↔ (intVal x * intVal y < 0 ∧ |intVal y| ≤ |intVal x|)) := by
  cases y with
  | big b =>
    obtain ⟨q, r, hqr, hrest⟩ := divModBig_spec x (Integer.big b) hx hy hy0 hy.2.1
    exact ⟨q, r, hqr, hrest⟩
  | small yv =>
    have hyv0 : yv ≠ 0 := by simpa [intVal] using hy0
    have hvy : intVal (Integer.small yv) = yv := rfl
    by_cases h1 : yv = 1
    · subst h1
      have hstep : integer_div_mod_generic x (.small 1) = some (x, .small 0) := rfl
      refine ⟨x, .small 0, hstep, ?_, ?_, Or.inl rfl, ?_⟩
      · rw [show intVal (Integer.small 1) = 1 from rfl,
          show intVal (Integer.small 0) = 0 from rfl]
        ring
      · rw [show intVal (Integer.small 1) = 1 from rfl,
          show intVal (Integer.small 0) = 0 from rfl]
        norm_num
      · rw [show intVal (Integer.small 1) = 1 from rfl, mul_one]
        constructor
        · intro hc
          refine ⟨hc, ?_⟩
          rw [abs_of_neg hc]
          norm_num
          omega
        · rintro ⟨hlt, _⟩
          exact hlt
    · by_cases hm1 : yv = -1
      · subst hm1
        have hstep : integer_div_mod_generic x (.small (-1))
            = some (integer_neg_generic x, .small 0) := rfl
        have hnegv := intVal_neg_generic x
        refine ⟨integer_neg_generic x, .small 0, hstep, ?_, ?_, Or.inl rfl, ?_⟩
        · rw [show intVal (Integer.small (-1)) = -1 from rfl,
            show intVal (Integer.small 0) = 0 from rfl, hnegv]
          ring
        · rw [show intVal (Integer.small (-1)) = -1 from rfl,
            show intVal (Integer.small 0) = 0 from rfl]
          norm_num
        · rw [show intVal (Integer.small (-1)) = -1 from rfl, hnegv]
          constructor
          · intro hc
            refine ⟨by linarith, ?_⟩
            rw [abs_of_pos (by linarith : 0 < intVal x)]
            have h1abs : |(-1:Int)| = 1 := by norm_num
            rw [h1abs]
            omega
          · rintro ⟨hlt, _⟩
            linarith
      · by_cases hsm : (if yv < 0 then -yv else yv) < BASE
        · obtain ⟨hxval, hxnegt, hxposf⟩ := to_bigint_sign x hx
          have hxn := Nice_to_bigint x hx
          set bx := integer_to_bigint x with hbxd
          set ay := (if yv < 0 then -yv else yv : Int) with hayd
          set dm := bigint_div_mod_small bx ay with hdmd
          have hstep : integer_div_mod_generic x (.small yv)
              = some (integer_bigint ⟨decide (bx.is_neg ≠ decide (yv < 0)), dm.1.digits⟩,
                  integer_from_int (if bx.is_neg then -dm.2 else dm.2)) := by
            have hunfold : integer_div_mod_generic x (.small yv)
                = (if yv = 0 then none
                   else if yv = 1 then some (x, .small 0)
                   else if yv = -1 then some (integer_neg_generic x, .small 0)
                   else if ay < BASE then
                     some (integer_bigint ⟨decide (bx.is_neg ≠ decide (yv < 0)), dm.1.digits⟩,
                       integer_from_int (if bx.is_neg then -dm.2 else dm.2))
                   else divModBig x (.small yv)) := rfl
            rw [hunfold, if_neg hyv0, if_neg h1, if_neg hm1, if_pos hsm]
          have hayv : ay = |yv| := by
            rw [hayd]
            rcases lt_or_le yv 0 with h | h
            · rw [if_pos h, abs_of_neg h]
            · rw [if_neg (not_lt.mpr h), abs_of_nonneg h]
          have hay2 : 2 ≤ ay := by
            rw [hayv]
            rcases lt_trichotomy yv 0 with h | h | h
            · rw [abs_of_neg h]
              omega
            · exact absurd h hyv0
            · rw [abs_of_pos h]
              omega
          obtain ⟨hsval, hs0, hs1, hsn, hsf⟩ :=
            bigint_div_mod_small_spec bx ay (by omega) hxn.1
          rw [← hdmd] at hsval hs0 hs1 hsn hsf
          obtain ⟨hQ, hR⟩ := int_div_mod_unique (valD bx.digits) ay
            (valD dm.1.digits) dm.2 (by omega) hsval.symm hs0 hs1
          rw [hxval] at hQ hR
          have hdm2 := Int.ediv_add_emod (|intVal x|) ay
          have hq0 : 0 ≤ |intVal x| / ay := Int.ediv_nonneg (abs_nonneg _) (by omega)
          have hq1iff : 1 ≤ |intVal x| / ay ↔ ay ≤ |intVal x| := by
            rw [Int.le_ediv_iff_mul_le (by omega : (0:Int) < ay), one_mul]
          have himod : (if bx.is_neg then -dm.2 else dm.2)
              = (if bx.is_neg then (-1:Int) else 1) * dm.2 := by
            cases hbb : bx.is_neg <;> simp
          have hXeq : (if bx.is_neg then (-1:Int) else 1) * |intVal x| = intVal x := by
            cases hbb : bx.is_neg with
            | false => rw [abs_of_nonneg (hxposf hbb)]; simp
            | true => rw [abs_of_neg (hxnegt hbb)]; simp
          have hYeq : (if (decide (yv < 0) : Bool) then (-1:Int) else 1) * ay = yv := by
            rw [hayv]
            rcases lt_or_le yv 0 with h | h
            · rw [if_pos (by simpa using h), abs_of_neg h]
              ring
            · rw [if_neg (by simpa using h), abs_of_nonneg h]
              ring
          have hsq : (if (decide (bx.is_neg ≠ decide (yv < 0)) : Bool) then (-1:Int) else 1)
              = (if bx.is_neg then (-1:Int) else 1)
                * (if (decide (yv < 0) : Bool) then (-1:Int) else 1) := by
            cases hbb : bx.is_neg <;> by_cases h : yv < 0 <;> simp [h]
          have hsy2 : (if (decide (yv < 0) : Bool) then (-1:Int) else 1)
              * (if (decide (yv < 0) : Bool) then (-1:Int) else 1) = 1 := by
            by_cases h : yv < 0 <;> simp [h]
          refine ⟨_, _, hstep, ?_, ?_, ?_, ?_⟩
          · rw [intVal_integer_bigint]
            simp only [bigVal]
            rw [intVal_from_int, himod, ← hQ, ← hR, hvy, hsq]
            set Rr := |intVal x| % ay with hRrd
            set Q := |intVal x| / ay with hQd
            set XA := |intVal x| with hXAd
            set sx := (if bx.is_neg then (-1:Int) else 1) with hsxd
            set sy := (if (decide (yv < 0) : Bool) then (-1:Int) else 1) with hsyd
            rw [← hXeq, ← hYeq]
            linear_combination (-sx) * hdm2 - (sx * Q * ay) * hsy2
          · rw [intVal_from_int, himod, hvy, abs_mul]
            have hs2 : |(if bx.is_neg then (-1:Int) else 1)| = 1 := by
              cases hbb : bx.is_neg <;> simp
            rw [hs2, one_mul, abs_of_nonneg hs0, ← hayv]
            exact hs1
          · rw [intVal_from_int, himod]
            by_cases hz : dm.2 = 0
            · left
              rw [hz]
              ring
            · right
              have hrpos : 0 < dm.2 := lt_of_le_of_ne hs0 (Ne.symm hz)
              have hXpos : 0 < |intVal x| := by
                rw [← hR] at hrpos
                have := Int.emod_nonneg (|intVal x|) (by omega : ay ≠ 0)
                by_contra hcon
                push_neg at hcon
                have hx0 : |intVal x| = 0 := le_antisymm hcon (abs_nonneg _)
                rw [hx0] at hrpos
                simp at hrpos
              cases hbb : bx.is_neg with
              | false =>
                have hxpos := hxposf hbb
                have hxpos2 : 0 < intVal x := by
                  rcases lt_or_eq_of_le hxpos with h | h
                  · exact h
                  · exfalso
                    rw [← h] at hXpos
                    simp at hXpos
                rw [if_neg (by simp)]
                constructor
                · intro _
                  exact hxpos2
                · intro _
                  linarith
              | true =>
                have hxneg := hxnegt hbb
                rw [if_pos rfl]
                constructor
                · intro hcon
                  linarith
                · intro hcon
                  linarith
          · rw [intVal_integer_bigint]
            simp only [bigVal]
            rw [← hQ, hvy]
            have hyabs : |intVal (Integer.small yv)| = ay := by rw [hvy, hayv]
            rw [hvy] at hyabs
            cases hbb : bx.is_neg with
            | false =>
              have hxpos := hxposf hbb
              have hax : |intVal x| = intVal x := abs_of_nonneg hxpos
              by_cases hyneg : yv < 0
              · rw [if_pos (by simp [hbb, hyneg])]
                constructor
                · intro hcon
                  have hq1 : 1 ≤ |intVal x| / ay := by
                    by_contra hc2
                    push_neg at hc2
                    have : |intVal x| / ay = 0 := by omega
                    rw [this] at hcon
                    simp at hcon
                  have hge := hq1iff.mp hq1
                  have hxpos2 : 0 < intVal x := by
                    rw [← hax]
                    omega
                  refine ⟨mul_neg_of_pos_of_neg hxpos2 hyneg, ?_⟩
                  rw [← hyabs] at hge
                  omega
                · rintro ⟨_, hge⟩
                  rw [hyabs] at hge
                  have hq1 := hq1iff.mpr hge
                  linarith
              · have hypos : 0 < yv := by omega
                rw [if_neg (by simp [hbb, hyneg])]
                constructor
                · intro hcon
                  exfalso
                  linarith
                · rintro ⟨hlt, _⟩
                  exfalso
                  have : 0 ≤ intVal x * yv := mul_nonneg hxpos (by omega)
                  linarith
            | true =>
              have hxneg := hxnegt hbb
              by_cases hyneg : yv < 0
              · rw [if_neg (by simp [hbb, hyneg])]
                constructor
                · intro hcon
                  exfalso
                  linarith
                · rintro ⟨hlt, _⟩
                  exfalso
                  have : 0 < intVal x * yv := mul_pos_of_neg_of_neg hxneg hyneg
                  linarith
              · have hypos : 0 < yv := by omega
                rw [if_pos (by simp [hbb, hyneg])]
                constructor
                · intro hcon
                  have hq1 : 1 ≤ |intVal x| / ay := by
                    by_contra hc2
                    push_neg at hc2
                    have : |intVal x| / ay = 0 := by omega
                    rw [this] at hcon
                    simp at hcon
                  have hge := hq1iff.mp hq1
                  refine ⟨mul_neg_of_neg_of_pos hxneg hypos, ?_⟩
                  rw [← hyabs] at hge
                  omega
                · rintro ⟨_, hge⟩
                  rw [hyabs] at hge
                  have hq1 := hq1iff.mpr hge
                  linarith
        · have habsB : BASE ≤ |intVal (Integer.small yv)| := by
            rw [hvy]
            push_neg at hsm
            rcases lt_or_le yv 0 with h | h
            · rw [if_pos h] at hsm
              rw [abs_of_neg h]
              exact hsm
            · rw [if_neg (not_lt.mpr h)] at hsm
              rw [abs_of_nonneg h]
              exact hsm
          have h2len := to_bigint_len2 (Integer.small yv) hy habsB
          have hstep : integer_div_mod_generic x (.small yv) = divModBig x (.small yv) := by
            have hunfold : integer_div_mod_generic x (.small yv)
                = (if yv = 0 then none
                   else if yv = 1 then some (x, .small 0)
                   else if yv = -1 then some (integer_neg_generic x, .small 0)
                   else if (if yv < 0 then -yv else yv) < BASE then
                     some (integer_bigint
                         ⟨decide ((integer_to_bigint x).is_neg ≠ decide (yv < 0)),
                           (bigint_div_mod_small (integer_to_bigint x)
                             (if yv < 0 then -yv else yv)).1.digits⟩,
                       integer_from_int (if (integer_to_bigint x).is_neg then
                         -(bigint_div_mod_small (integer_to_bigint x)
                             (if yv < 0 then -yv else yv)).2
                         else (bigint_div_mod_small (integer_to_bigint x)
                             (if yv < 0 then -yv else yv)).2))
                   else divModBig x (.small yv)) := rfl
            rw [hunfold, if_neg hyv0, if_neg h1, if_neg hm1, if_neg hsm]
          obtain ⟨q, r, hqr, hrest⟩ := divModBig_spec x (Integer.small yv) hx hy hy0 h2len
          rw [← hstep] at hqr
          exact ⟨q, r, hqr, hrest⟩

/-! ### Theorems: claim C1 (division laws) -/

/-- C1 (corrected): for well-formed integers x, y with y ≠ 0, div_mod
returns a pair, div and mod return its projections, the identity
x = q * y + r holds with |r| < |y| and sign(r) in {0, sign(x)}, and the
quotient is negative iff the signs of x and y differ AND |y| ≤ |x|.  The
claim's unconditional "quotient negative iff the signs differ" is refuted
by c1_quotient_sign_counterexample: for |x| < |y| with differing signs the
quotient is zero, not negative. -/
theorem c1_division (x y : Integer) (hx : WF x) (hy : WF y) (hy0 : intVal y ≠ 0) :
    ∃ q r, integer_div_mod_generic x y = some (q, r) ∧
      integer_div_generic x y = some q ∧
      integer_mod_generic x y = some r ∧
      intVal x = intVal q * intVal y + intVal r ∧
      |intVal r| < |intVal y| ∧
      (intVal r = 0 ∨ (0 < intVal r ↔ 0 < intVal x)) ∧
      (intVal q < 0 ↔ (intVal x * intVal y < 0 ∧ |intVal y| ≤ |intVal x|)) := by
  obtain ⟨q, r, hqr, h1, h2, h3, h4⟩ := integer_div_mod_spec x y hx hy hy0
  refine ⟨q, r, hqr, ?_, ?_, h1, h2, h3, h4⟩
  · unfold integer_div_generic
    rw [hqr]
    rfl
  · unfold integer_mod_generic
    rw [hqr]
    rfl

/-- Witness for C1 at the concrete input x = -7, y = 2. -/
theorem c1_division_witness :
    ∃ q r, integer_div_mod_generic (Integer.small (-7)) (Integer.small 2) = some (q, r) ∧
      integer_div_generic (Integer.small (-7)) (Integer.small 2) = some q ∧
      integer_mod_generic (Integer.small (-7)) (Integer.small 2) = some r ∧
      intVal (Integer.small (-7)) = intVal q * intVal (Integer.small 2) + intVal r ∧
      |intVal r| < |intVal (Integer.small 2)| ∧
      (intVal r = 0 ∨ (0 < intVal r ↔ 0 < intVal (Integer.small (-7)))) ∧
      (intVal q < 0 ↔ (intVal (Integer.small (-7)) * intVal (Integer.small 2) < 0 ∧
        |intVal (Integer.small 2)| ≤ |intVal (Integer.small (-7))|)) :=
  c1_division (Integer.small (-7)) (Integer.small 2) (by decide) (by decide) (by decide)

/-- C1 counterexample to the claim's sign rule as stated: at x = 1,
y = -2 the signs of x and y differ, yet the quotient returned by div_mod is
the (big, zero-magnitude) value 0, which is not negative. -/
theorem c1_quotient_sign_counterexample :
    integer_div_mod_generic (Integer.small 1) (Integer.small (-2))
      = some (Integer.big ⟨true, []⟩, Integer.small 1) ∧
    intVal (Integer.big ⟨true, []⟩) = 0 ∧
    ¬intVal (Integer.big ⟨true, []⟩) < 0 ∧
    intVal (Integer.small 1) * intVal (Integer.small (-2)) < 0 := by decide

/-- C8: div, mod and div_mod called with divisor value 0 report the
division-by-zero condition as a failure — the C code returns the unboxed
sentinel 0 with the comment raise div-by-zero, modelled as none — and do
not produce an integer value. -/
theorem c8_div_by_zero (x y : Integer) (hy : WF y) (h0 : intVal y = 0) :
    integer_div_mod_generic x y = none ∧
    integer_div_generic x y = none ∧ integer_mod_generic x y = none := by
  have hy0 : y = .small 0 := by
    cases y with
    | small n =>
      simp only [intVal] at h0
      rw [h0]
    | big b =>
      exfalso
      rcases hy with ⟨hw, hlen, htop⟩
      have hne : b.digits ≠ [] := by
        intro hh
        rw [hh] at hlen
        simp at hlen
      have hge := valD_ge_of_top b.digits hw hne htop
      simp only [intVal, bigVal] at h0
      have hz : valD b.digits = 0 := by
        cases b.is_neg <;> simp at h0 <;> omega
      have hpow : (0:Int) < BASE ^ (b.digits.length - 1) :=
        pow_pos (by norm_num [BASE]) _
      omega
  subst hy0
  refine ⟨?_, ?_, ?_⟩ <;>
    simp [integer_div_mod_generic, integer_div_generic, integer_mod_generic]

/-- Witness for C8 at the concrete input x = 7, y = 0. -/
theorem c8_div_by_zero_witness :
    WF (Integer.small 0) ∧ intVal (Integer.small 0) = 0 ∧
    integer_div_mod_generic (Integer.small 7) (Integer.small 0) = none :=
  ⟨by decide, by decide,
    (c8_div_by_zero (Integer.small 7) (Integer.small 0) (by decide) (by decide)).1⟩

/-! ### Theorems: claim C9 (signum) -/

/-- C9: the spec claims signum(x) is -1 / 0 / 1 according to the sign of x,
in particular signum(0) = 0, determined from the sign bit and a zero check.
The code tests bx->count == 0 where the canonical zero bigint has count 1
(bigint_from_int(0) yields the single digit 0), so the zero check never
fires and the code returns 1 on the input 0, contradicting the spec and the
evident intent of the zero check.  This theorem evaluates the translated
code at the failing input. -/
theorem c9_signum_zero_returns_one :
    integer_signum_generic (Integer.small 0) = 1 := by
  decide

/-! ### Theorems: claim C7 (scaling with a Big exponent) -/

/-- C7: the claim (and spec section 7) say mul_pow10/div_pow10 with a Big
exponent fail with BadScaleExponent rather than returning an integer.  In
the code the error is a TODO comment and both functions silently return
the integer 0: at x = 1 and the canonical big exponent p = BASE (digits
[0, 1]) both calls produce the value 0, an ordinary integer result. -/
theorem c7_pow10_big_exponent_returns_zero :
    integer_mul_pow10 (Integer.small 1) (Integer.big ⟨false, [0, 1]⟩) = Integer.small 0 ∧
    integer_div_pow10 (Integer.small 1) (Integer.big ⟨false, [0, 1]⟩) = Integer.small 0 ∧
    WF (Integer.big ⟨false, [0, 1]⟩) ∧ isSmall (Integer.big ⟨false, [0, 1]⟩) = false := by
  decide

/-! ### Theorems: claim C5 (parsing scaled decimals) -/

/-- C5 (corrected): parse("1.5e3") is 1500 and parse("1.5e2") is 150 as
claimed, but parse("1.5e1") is NOT a ParseError: the exponent 1 equals the
number of fraction digits, the grammar condition exp ≥ frac_digits is
satisfied, and the integer 15 is returned. -/
theorem c5_parse_scaled :
    integer_parse "1.5e3".toList = some (Integer.small 1500) ∧
    integer_parse "1.5e2".toList = some (Integer.small 150) ∧
    integer_parse "1.5e1".toList = some (Integer.small 15) := by
  decide

/-- C5 counterexample: the claim says parse("1.5e1") yields ParseError;
the code returns the integer 15. -/
theorem c5_parse_e1_counterexample :
    integer_parse "1.5e1".toList = some (Integer.small 15) := by
  decide

/-! ### Theorems: claim C6 (the parse grammar) -/

theorem scanSig_specSig : ∀ (l : List Char) (n : Nat) (acc : List Char),
    (scanSig l n acc).map (fun t => (t.1, t.2.2)) = specSig l n := by
  intro l
  induction l with
  | nil =>
    intro n acc
    simp [scanSig, specSig]
  | cons c rest ih =>
    intro n acc
    simp only [scanSig, specSig]
    split_ifs with h1 h2 h3
    · exact ih (n + 1) (c :: acc)
    · exact ih n acc
    · simp
    · simp

theorem scanFrac_specFrac : ∀ (l : List Char) (n : Nat) (acc : List Char),
    (scanFrac l n acc).map (fun t => (t.1, t.2.2)) =
      match specFrac l n with
      | some (fr, c :: d :: rest) => if d = '0' then none else some (fr, c :: d :: rest)
      | o => o := by
  intro l
  induction l with
  | nil =>
    intro n acc
    simp [scanFrac, specFrac]
  | cons c rest ih =>
    intro n acc
    simp only [scanFrac, specFrac]
    by_cases h1 : (isdigitC c : Prop)
    · rw [if_pos h1, if_pos h1]
      exact ih (n + 1) (c :: acc)
    · rw [if_neg h1, if_neg h1]
      by_cases h2 : c = '_' ∧ (nextDigit rest : Prop)
      · rw [if_pos h2, if_pos h2]
        exact ih n acc
      · rw [if_neg h2, if_neg h2]
        by_cases h3 : (c = 'e' ∨ c = 'E')
        · cases rest with
          | nil =>
            have hspec : ¬((c = 'e' ∨ c = 'E') ∧ nextDigit ([] : List Char) = true) :=
              fun hcon => absurd hcon.2 (by decide)
            have hcode : ¬((c = 'e' ∨ c = 'E') ∧ nextDigitNonzero ([] : List Char) = true) :=
              fun hcon => absurd hcon.2 (by decide)
            rw [if_neg hcode, if_neg hspec]
            simp
          | cons d rs =>
            by_cases hd : (isdigitC d : Prop)
            · have hspec : (c = 'e' ∨ c = 'E') ∧ nextDigit (d :: rs) = true :=
                ⟨h3, by simpa [nextDigit] using hd⟩
              by_cases h0 : d = '0'
              · have hcode : ¬((c = 'e' ∨ c = 'E') ∧ nextDigitNonzero (d :: rs) = true) := by
                  intro hcon
                  rw [h0] at hcon
                  simp [nextDigitNonzero] at hcon
                rw [if_neg hcode, if_pos hspec]
                simp [h0]
              · have hcode : (c = 'e' ∨ c = 'E') ∧ nextDigitNonzero (d :: rs) = true := by
                  refine ⟨h3, ?_⟩
                  simp [nextDigitNonzero, hd, h0]
                rw [if_pos hcode, if_pos hspec]
                simp [h0]
            · have hspec : ¬((c = 'e' ∨ c = 'E') ∧ nextDigit (d :: rs) = true) := by
                intro hcon
                rw [show nextDigit (d :: rs) = isdigitC d from rfl] at hcon
                exact hd hcon.2
              have hcode : ¬((c = 'e' ∨ c = 'E') ∧ nextDigitNonzero (d :: rs) = true) := by
                intro hcon
                rw [show nextDigitNonzero (d :: rs)
                    = (isdigitC d && decide (d ≠ '0')) from rfl] at hcon
                simp at hcon
                exact hd hcon.2.1
              rw [if_neg hcode, if_neg hspec]
              simp
        · have hcode : ¬((c = 'e' ∨ c = 'E') ∧ nextDigitNonzero rest = true) :=
            fun hcon => h3 hcon.1
          have hspec : ¬((c = 'e' ∨ c = 'E') ∧ nextDigit rest = true) :=
            fun hcon => h3 hcon.1
          rw [if_neg hcode, if_neg hspec]
          simp

theorem isSome_ite_some (P : Prop) [Decidable P] (x y : Integer) :
    (if P then some x else some y).isSome = true := by
  by_cases h : P <;> simp [h]

theorem isSome_final_step (fr exp : Nat) (o : Option Integer) (ho : o.isSome = true) :
    (if exp < fr then none else o).isSome = decide (fr ≤ exp) := by
  by_cases h : exp < fr
  · rw [if_pos h]
    simp [show ¬ fr ≤ exp by omega]
  · rw [if_neg h, ho]
    simp [show fr ≤ exp by omega]

/-- C6 (corrected): integer_parse accepts exactly the strings of the
amended grammar — the spec grammar (grammarOriginal), further restricted
by the code's extra condition that when a fraction is present the exponent
must not start with the digit '0' (fracExpLeadingZero).  On the spec
grammar as claimed, the code is strictly stricter; see
c6_grammar_counterexample. -/
theorem c6_parse_grammar (s : List Char) :
    (integer_parse s).isSome = grammarAmended s := by
  have hA := scanSig_specSig (stripSign s).2 0 []
  simp only [integer_parse, grammarAmended, grammarOriginal, fracExpLeadingZero]
  cases hnd : nextDigit (stripSign s).2 with
  | false => simp [hnd]
  | true =>
    have hcond : ¬((true : Bool) = false) := by simp
    rw [if_neg hcond, if_neg hcond]
    cases hsig : specSig (stripSign s).2 0 with
    | none =>
      have hsc : scanSig (stripSign s).2 0 [] = none := by
        cases hsc2 : scanSig (stripSign s).2 0 [] with
        | none => rfl
        | some u =>
          rw [hsc2, hsig] at hA
          simp at hA
      rw [hsc]
      simp
    | some t =>
      obtain ⟨sig, rest1⟩ := t
      obtain ⟨acc1, hsc⟩ : ∃ a, scanSig (stripSign s).2 0 [] = some (sig, a, rest1) := by
        cases hsc2 : scanSig (stripSign s).2 0 [] with
        | none =>
          rw [hsc2, hsig] at hA
          simp at hA
        | some u =>
          obtain ⟨u1, u2, u3⟩ := u
          rw [hsc2, hsig] at hA
          simp at hA
          exact ⟨u2, by rw [hA.1, hA.2]⟩
      rw [hsc]
      simp only []
      cases rest1 with
      | nil =>
        simp only []
        rw [isSome_final_step 0 0 _ (isSome_ite_some _ _ _)]
        simp
      | cons c1 rest2 =>
        simp only []
        by_cases hdot : c1 = '.'
        · subst hdot
          rw [if_pos rfl, if_pos rfl, if_pos rfl]
          have hB := scanFrac_specFrac rest2 0 acc1
          cases hfr : specFrac rest2 0 with
          | none =>
            have hfc : scanFrac rest2 0 acc1 = none := by
              rw [hfr] at hB
              cases hfc2 : scanFrac rest2 0 acc1 with
              | none => rfl
              | some v =>
                rw [hfc2] at hB
                simp at hB
            rw [hfc]
            simp
          | some t2 =>
            obtain ⟨fr, rest3⟩ := t2
            rw [hfr] at hB
            cases rest3 with
            | nil =>
              have hB2 : (scanFrac rest2 0 acc1).map (fun t => (t.1, t.2.2))
                  = some (fr, ([] : List Char)) := hB
              obtain ⟨acc2, hfc⟩ : ∃ a, scanFrac rest2 0 acc1 = some (fr, a, []) := by
                cases hfc2 : scanFrac rest2 0 acc1 with
                | none =>
                  rw [hfc2] at hB2
                  simp at hB2
                | some v =>
                  obtain ⟨v1, v2, v3⟩ := v
                  rw [hfc2] at hB2
                  simp at hB2
                  exact ⟨v2, by rw [hB2.1, hB2.2]⟩
              rw [hfc]
              simp only []
              rw [isSome_final_step fr 0 _ (isSome_ite_some _ _ _)]
              simp
            | cons c2 rest4 =>
              cases rest4 with
              | nil =>
                have hB2 : (scanFrac rest2 0 acc1).map (fun t => (t.1, t.2.2))
                    = some (fr, [c2]) := hB
                obtain ⟨acc2, hfc⟩ : ∃ a, scanFrac rest2 0 acc1 = some (fr, a, [c2]) := by
                  cases hfc2 : scanFrac rest2 0 acc1 with
                  | none =>
                    rw [hfc2] at hB2
                    simp at hB2
                  | some v =>
                    obtain ⟨v1, v2, v3⟩ := v
                    rw [hfc2] at hB2
                    simp at hB2
                    exact ⟨v2, by rw [hB2.1, hB2.2]⟩
                rw [hfc]
                simp only []
                by_cases he : c2 = 'e' ∨ c2 = 'E'
                · rw [if_pos he]
                  rw [show scanExp [] 0 = some 0 from rfl]
                  simp only []
                  rw [isSome_final_step fr 0 _ (isSome_ite_some _ _ _)]
                  simp
                · rw [if_neg he]
                  simp only []
                  rw [isSome_final_step fr 0 _ (isSome_ite_some _ _ _)]
                  simp
              | cons d2 rest5 =>
                by_cases h02 : d2 = '0'
                · subst h02
                  have hfc : scanFrac rest2 0 acc1 = none := by
                    cases hfc2 : scanFrac rest2 0 acc1 with
                    | none => rfl
                    | some v =>
                      rw [hfc2] at hB
                      simp at hB
                  rw [hfc]
                  simp
                · have hB2 : (scanFrac rest2 0 acc1).map (fun t => (t.1, t.2.2))
                      = some (fr, c2 :: d2 :: rest5) := by
                    rw [hB]
                    exact if_neg h02
                  obtain ⟨acc2, hfc⟩ : ∃ a, scanFrac rest2 0 acc1
                      = some (fr, a, c2 :: d2 :: rest5) := by
                    cases hfc2 : scanFrac rest2 0 acc1 with
                    | none =>
                      rw [hfc2] at hB2
                      simp at hB2
                    | some v =>
                      obtain ⟨v1, v2, v3⟩ := v
                      rw [hfc2] at hB2
                      simp at hB2
                      exact ⟨v2, by rw [hB2.1, hB2.2]⟩
                  rw [hfc]
                  simp only []
                  by_cases he : c2 = 'e' ∨ c2 = 'E'
                  · rw [if_pos he]
                    cases hex : scanExp (d2 :: rest5) 0 with
                    | none => simp
                    | some exp =>
                      simp only []
                      rw [isSome_final_step fr exp _ (isSome_ite_some _ _ _)]
                      simp [h02]
                  · rw [if_neg he]
                    simp only []
                    rw [isSome_final_step fr 0 _ (isSome_ite_some _ _ _)]
                    simp [h02]
        · rw [if_neg hdot, if_neg hdot, if_neg hdot]
          simp only []
          by_cases he : c1 = 'e' ∨ c1 = 'E'
          · rw [if_pos he]
            cases hex : scanExp rest2 0 with
            | none => simp
            | some exp =>
              simp only []
              rw [isSome_final_step 0 exp _ (isSome_ite_some _ _ _)]
              simp
          · rw [if_neg he]
            simp only []
            rw [isSome_final_step 0 0 _ (isSome_ite_some _ _ _)]
            simp

/-- C6 counterexample: the string "1.5e05" matches the grammar exactly as
the claim states it (sign, digits, fraction, exponent of digits with value
at most BASE, exponent at least the fraction length), yet integer_parse
rejects it, because the code additionally requires the first exponent
digit after a fraction to be nonzero; the amended grammar rejects it. -/
theorem c6_grammar_counterexample :
    grammarOriginal "1.5e05".toList = true ∧
    integer_parse "1.5e05".toList = none ∧
    grammarAmended "1.5e05".toList = false := by
  decide

/-! ### Theorems: decimal digit strings (for the round-trip claim) -/

theorem char_eq_of_toNat (c d : Char) (h : c.toNat = d.toNat) : c = d :=
  Char.ext (UInt32.ext h)

theorem digitChar_spec (k : Nat) (hk : k < 10) :
    isdigitC (Char.ofNat (48 + k)) = true ∧ (Char.ofNat (48 + k)).toNat = 48 + k := by
  interval_cases k <;> exact ⟨by decide, by decide⟩

theorem decVal_foldl (l : List Char) (a : Int) :
    l.foldl (fun a c => 10 * a + ((c.toNat : Int) - 48)) a
      = a * 10 ^ l.length + decVal l := by
  induction l generalizing a with
  | nil => simp [decVal]
  | cons c t ih =>
    show List.foldl _ (10 * a + ((c.toNat : Int) - 48)) t = _
    rw [ih]
    have h2 : decVal (c :: t)
        = List.foldl (fun a c => 10 * a + ((c.toNat : Int) - 48))
            (10 * 0 + ((c.toNat : Int) - 48)) t := rfl
    rw [h2, ih]
    simp [List.length_cons]
    ring

theorem decVal_append (a b : List Char) :
    decVal (a ++ b) = decVal a * 10 ^ b.length + decVal b := by
  show List.foldl _ 0 (a ++ b) = _
  rw [List.foldl_append]
  exact decVal_foldl b _

theorem decVal_cons (c : Char) (t : List Char) :
    decVal (c :: t) = ((c.toNat : Int) - 48) * 10 ^ t.length + decVal t := by
  have h : decVal (c :: t) = decVal ([c] ++ t) := rfl
  rw [h, decVal_append]
  have h1 : decVal [c] = (c.toNat : Int) - 48 := by
    show (10 * 0 + ((c.toNat : Int) - 48)) = _
    ring
  rw [h1]

theorem decVal_nonneg (l : List Char) (h : ∀ c ∈ l, isdigitC c = true) :
    0 ≤ decVal l := by
  induction l with
  | nil => simp [decVal]
  | cons c t ih =>
    rw [decVal_cons]
    have hc := h c (by simp)
    simp only [isdigitC, decide_eq_true_eq] at hc
    have h1 : (0 : Int) ≤ ((c.toNat : Int) - 48) := by omega
    have h2 : (0 : Int) < 10 ^ t.length := pow_pos (by norm_num) _
    have h3 := ih (fun d hd => h d (by simp [hd]))
    nlinarith

theorem decVal_lt (l : List Char) (h : ∀ c ∈ l, isdigitC c = true) :
    decVal l < 10 ^ l.length := by
  induction l with
  | nil => simp [decVal]
  | cons c t ih =>
    rw [decVal_cons]
    have hc := h c (by simp)
    simp only [isdigitC, decide_eq_true_eq] at hc
    have h1 : ((c.toNat : Int) - 48) ≤ 9 := by omega
    have h2 : (0 : Int) < 10 ^ t.length := pow_pos (by norm_num) _
    have h3 := ih (fun d hd => h d (by simp [hd]))
    have h4 : ((c.toNat : Int) - 48) * 10 ^ t.length ≤ 9 * 10 ^ t.length :=
      mul_le_mul_of_nonneg_right h1 (le_of_lt h2)
    have h5 : (10 : Int) ^ (c :: t).length = 10 * 10 ^ t.length := by
      rw [List.length_cons, pow_succ]
      ring
    rw [h5]
    linarith

theorem decVal_pos (c : Char) (t : List Char)
    (hc : isdigitC c = true) (hne : ¬ c = '0')
    (ht : ∀ d ∈ t, isdigitC d = true) : 1 ≤ decVal (c :: t) := by
  rw [decVal_cons]
  simp only [isdigitC, decide_eq_true_eq] at hc
  have h48 : c.toNat ≠ 48 := by
    intro habs
    exact hne (char_eq_of_toNat c '0' habs)
  have h1 : (1 : Int) ≤ ((c.toNat : Int) - 48) := by omega
  have h2' : (0 : Int) < 10 ^ t.length := pow_pos (by norm_num) _
  have h2 : (1 : Int) ≤ 10 ^ t.length := by omega
  have h3 := decVal_nonneg t ht
  nlinarith

theorem decVal_cons_zero (t : List Char) : decVal ('0' :: t) = decVal t := by
  show List.foldl _ (10 * 0 + (((('0' : Char).toNat : Nat) : Int) - 48)) t = _
  norm_num
  rfl

theorem decVal_all_zero (l : List Char) (h : ∀ c ∈ l, c = '0') : decVal l = 0 := by
  induction l with
  | nil => rfl
  | cons c t ih =>
    have hc := h c (by simp)
    subst hc
    rw [decVal_cons_zero]
    exact ih (fun d hd => h d (by simp [hd]))

theorem digitToStrFullAux_length (i n : Nat) : (digitToStrFullAux i n).length = i := by
  induction i generalizing n with
  | zero => rfl
  | succ i ih =>
    show (digitToStrFullAux i (n / 10) ++ [Char.ofNat (48 + n % 10)]).length = i + 1
    rw [List.length_append, ih]
    rfl

theorem digitToStrFullAux_digits (i n : Nat) :
    ∀ c ∈ digitToStrFullAux i n, isdigitC c = true := by
  induction i generalizing n with
  | zero => intro c hc; simp [digitToStrFullAux] at hc
  | succ i ih =>
    intro c hc
    rw [show digitToStrFullAux (i + 1) n
        = digitToStrFullAux i (n / 10) ++ [Char.ofNat (48 + n % 10)] from rfl,
      List.mem_append] at hc
    rcases hc with hc | hc
    · exact ih (n / 10) c hc
    · simp at hc
      subst hc
      exact (digitChar_spec (n % 10) (Nat.mod_lt _ (by norm_num))).1

theorem decVal_digitToStrFullAux (i n : Nat) :
    decVal (digitToStrFullAux i n) = ((n % 10 ^ i : Nat) : Int) := by
  induction i generalizing n with
  | zero => simp [digitToStrFullAux, decVal]
  | succ i ih =>
    show decVal (digitToStrFullAux i (n / 10) ++ [Char.ofNat (48 + n % 10)]) = _
    rw [decVal_append, ih]
    have hch : (Char.ofNat (48 + n % 10)).toNat = 48 + n % 10 :=
      (digitChar_spec (n % 10) (Nat.mod_lt _ (by norm_num))).2
    have h1 : decVal [Char.ofNat (48 + n % 10)] = ((n % 10 : Nat) : Int) := by
      rw [show decVal [Char.ofNat (48 + n % 10)]
          = 10 * 0 + (((Char.ofNat (48 + n % 10)).toNat : Int) - 48) from rfl, hch]
      push_cast
      ring
    rw [h1]
    have hlen : ([Char.ofNat (48 + n % 10)] : List Char).length = 1 := rfl
    rw [hlen]
    have h2 : n % 10 ^ (i + 1) = 10 * (n / 10 % 10 ^ i) + n % 10 := by
      have h4 : (10 : Nat) ^ (i + 1) = 10 * 10 ^ i := by ring
      rw [h4, Nat.mod_mul]
      omega
    rw [h2]
    push_cast
    ring

theorem decVal_digit_to_str_full (d : Int) (h0 : 0 ≤ d) (hB : d < BASE) :
    decVal (digit_to_str_full d) = d := by
  show decVal (digitToStrFullAux LOG_BASE d.toNat) = d
  rw [decVal_digitToStrFullAux]
  have h1 : d.toNat % 10 ^ LOG_BASE = d.toNat := by
    apply Nat.mod_eq_of_lt
    have hB' : d < 1000000000 := hB
    show d.toNat < 10 ^ 9
    omega
  rw [h1]
  omega

theorem digit_to_str_full_length (d : Int) : (digit_to_str_full d).length = LOG_BASE :=
  digitToStrFullAux_length LOG_BASE d.toNat

theorem digit_to_str_full_digits (d : Int) :
    ∀ c ∈ digit_to_str_full d, isdigitC c = true :=
  digitToStrFullAux_digits LOG_BASE d.toNat

theorem decVal_dropWhile_zero (l : List Char) :
    decVal (l.dropWhile (fun c => c = '0')) = decVal l := by
  induction l with
  | nil => rfl
  | cons c t ih =>
    by_cases hc : c = '0'
    · subst hc
      rw [List.dropWhile_cons_of_pos (by simp), ih, decVal_cons_zero]
    · rw [List.dropWhile_cons_of_neg (by simp [hc])]

theorem head?_dropWhile_zero (l : List Char) (c : Char)
    (h : (l.dropWhile (fun c => c = '0')).head? = some c) : ¬ c = '0' := by
  induction l with
  | nil => simp [List.dropWhile] at h
  | cons a t ih =>
    by_cases ha : a = '0'
    · subst ha
      rw [List.dropWhile_cons_of_pos (by simp)] at h
      exact ih h
    · rw [List.dropWhile_cons_of_neg (by simp [ha])] at h
      simp at h
      subst h
      exact ha

theorem digit_to_str_part_spec (d : Int) (h1 : 1 ≤ d) (hB : d < BASE) :
    decVal (digit_to_str_part d) = d ∧
    digit_to_str_part d ≠ [] ∧
    1 ≤ (digit_to_str_part d).length ∧
    (digit_to_str_part d).length ≤ LOG_BASE ∧
    (∀ c ∈ digit_to_str_part d, isdigitC c = true) ∧
    (∀ c, (digit_to_str_part d).head? = some c → ¬ c = '0') := by
  have hd0 : ¬ d = 0 := by omega
  have hdef : digit_to_str_part d
      = (digit_to_str_full d).dropWhile (fun c => c = '0') := by
    unfold digit_to_str_part
    rw [if_neg hd0]
  have hval : decVal (digit_to_str_part d) = d := by
    rw [hdef, decVal_dropWhile_zero]
    exact decVal_digit_to_str_full d (by omega) hB
  have hne : digit_to_str_part d ≠ [] := by
    intro habs
    rw [hdef] at habs
    rw [List.dropWhile_eq_nil_iff] at habs
    have hz : decVal (digit_to_str_full d) = 0 :=
      decVal_all_zero _ (fun c hc => by simpa using habs c hc)
    rw [decVal_digit_to_str_full d (by omega) hB] at hz
    omega
  refine ⟨hval, hne, ?_, ?_, ?_, ?_⟩
  · cases hx : digit_to_str_part d with
    | nil => exact absurd hx hne
    | cons a t => simp
  · rw [hdef]
    calc ((digit_to_str_full d).dropWhile (fun c => c = '0')).length
        ≤ (digit_to_str_full d).length := (List.dropWhile_sublist _).length_le
      _ = LOG_BASE := digit_to_str_full_length d
  · intro c hc
    rw [hdef] at hc
    exact digit_to_str_full_digits d c ((List.dropWhile_sublist _).subset hc)
  · intro c hc
    rw [hdef] at hc
    exact head?_dropWhile_zero _ c hc

theorem fullsOf_cons (d : Int) (r : List Int) :
    fullsOf (d :: r) = digit_to_str_full d ++ fullsOf r := rfl

theorem fullsOf_length (l : List Int) : (fullsOf l).length = LOG_BASE * l.length := by
  induction l with
  | nil => rfl
  | cons d r ih =>
    rw [fullsOf_cons, List.length_append, ih, digit_to_str_full_length,
      List.length_cons]
    ring

theorem fullsOf_digits (l : List Int) : ∀ c ∈ fullsOf l, isdigitC c = true := by
  induction l with
  | nil => intro c hc; simp [fullsOf] at hc
  | cons d r ih =>
    intro c hc
    rw [fullsOf_cons, List.mem_append] at hc
    rcases hc with hc | hc
    · exact digit_to_str_full_digits d c hc
    · exact ih c hc

theorem base_pow (k : Nat) : BASE ^ k = 10 ^ (LOG_BASE * k) := by
  have h : BASE = 10 ^ LOG_BASE := by norm_num [BASE, LOG_BASE]
  rw [h, ← pow_mul]

theorem decVal_fullsOf (l : List Int) (h : ∀ d ∈ l, 0 ≤ d ∧ d < BASE) :
    decVal (fullsOf l) = valD l.reverse := by
  induction l with
  | nil => rfl
  | cons d r ih =>
    rw [fullsOf_cons, decVal_append, fullsOf_length]
    have hd := h d (by simp)
    rw [decVal_digit_to_str_full d hd.1 hd.2]
    rw [ih (fun e he => h e (by simp [he]))]
    rw [List.reverse_cons, valD_append, List.length_reverse]
    have hvd : valD [d] = d := by
      show d + BASE * 0 = d
      ring
    rw [hvd, base_pow]
    ring

theorem natToRevDigitsAux_zero (f : Nat) : natToRevDigitsAux f 0 = [] := by
  cases f with
  | zero => rfl
  | succ f => show (if 0 = 0 then _ else _) = _; rw [if_pos rfl]

theorem natToRevDigitsAux_digits (f n : Nat) :
    ∀ c ∈ natToRevDigitsAux f n, isdigitC c = true := by
  induction f generalizing n with
  | zero => intro c hc; simp [natToRevDigitsAux] at hc
  | succ f ih =>
    intro c hc
    by_cases hn : n = 0
    · subst hn; rw [natToRevDigitsAux_zero] at hc; simp at hc
    · rw [show natToRevDigitsAux (f + 1) n
          = if n = 0 then [] else
            Char.ofNat (48 + n % 10) :: natToRevDigitsAux f (n / 10) from rfl,
        if_neg hn] at hc
      rcases List.mem_cons.mp hc with hc | hc
      · subst hc
        exact (digitChar_spec (n % 10) (Nat.mod_lt _ (by norm_num))).1
      · exact ih (n / 10) c hc

theorem decVal_natToRevDigitsAux (f n : Nat) (h : n < 10 ^ f) :
    decVal (natToRevDigitsAux f n).reverse = (n : Int) := by
  induction f generalizing n with
  | zero =>
    have hn : n = 0 := by simpa using h
    subst hn
    rfl
  | succ f ih =>
    by_cases hn : n = 0
    · subst hn; rw [natToRevDigitsAux_zero]; rfl
    · rw [show natToRevDigitsAux (f + 1) n
          = if n = 0 then [] else
            Char.ofNat (48 + n % 10) :: natToRevDigitsAux f (n / 10) from rfl,
        if_neg hn, List.reverse_cons, decVal_append]
      have hdiv : n / 10 < 10 ^ f := by
        have h4 : (10 : Nat) ^ (f + 1) = 10 ^ f * 10 := by ring
        rw [h4] at h
        omega
      rw [ih (n / 10) hdiv]
      have hch : (Char.ofNat (48 + n % 10)).toNat = 48 + n % 10 :=
        (digitChar_spec (n % 10) (Nat.mod_lt _ (by norm_num))).2
      have h1 : decVal [Char.ofNat (48 + n % 10)] = ((n % 10 : Nat) : Int) := by
        rw [show decVal [Char.ofNat (48 + n % 10)]
            = 10 * 0 + (((Char.ofNat (48 + n % 10)).toNat : Int) - 48) from rfl, hch]
        push_cast
        ring
      rw [h1]
      have hlen : ([Char.ofNat (48 + n % 10)] : List Char).length = 1 := rfl
      rw [hlen]
      have h5 : n = 10 * (n / 10) + n % 10 := by omega
      push_cast
      omega

theorem natToRevDigitsAux_ne_nil (f n : Nat) (hn : n ≠ 0) :
    natToRevDigitsAux (f + 1) n ≠ [] := by
  rw [show natToRevDigitsAux (f + 1) n
      = if n = 0 then [] else
        Char.ofNat (48 + n % 10) :: natToRevDigitsAux f (n / 10) from rfl,
    if_neg hn]
  simp

theorem natToRevDigitsAux_getLast (f n : Nat) (h : n < 10 ^ f) (hn : n ≠ 0) :
    ∀ c, (natToRevDigitsAux f n).getLast? = some c → ¬ c = '0' := by
  induction f generalizing n with
  | zero => omega
  | succ f ih =>
    intro c hc
    rw [show natToRevDigitsAux (f + 1) n
        = if n = 0 then [] else
          Char.ofNat (48 + n % 10) :: natToRevDigitsAux f (n / 10) from rfl,
      if_neg hn] at hc
    by_cases hd : n / 10 = 0
    · rw [hd, natToRevDigitsAux_zero] at hc
      simp at hc
      subst hc
      intro habs
      have h10 : n < 10 := by omega
      have hmod : n % 10 = n := Nat.mod_eq_of_lt h10
      have hch : (Char.ofNat (48 + n % 10)).toNat = 48 + n % 10 :=
        (digitChar_spec (n % 10) (Nat.mod_lt _ (by norm_num))).2
      rw [habs] at hch
      have : ('0' : Char).toNat = 48 := by decide
      omega
    · have hne := natToRevDigitsAux_ne_nil (f - 1) (n / 10)
      have hdiv : n / 10 < 10 ^ f := by
        have h4 : (10 : Nat) ^ (f + 1) = 10 ^ f * 10 := by ring
        rw [h4] at h
        omega
      cases hx : natToRevDigitsAux f (n / 10) with
      | nil =>
        cases f with
        | zero => omega
        | succ f2 => exact absurd hx (natToRevDigitsAux_ne_nil f2 (n / 10) hd)
      | cons a t =>
        rw [hx] at hc
        rw [List.getLast?_cons_cons] at hc
        apply ih (n / 10) hdiv hd
        rw [hx]
        exact hc

theorem scanSig_digits (ds : List Char) (h : ∀ c ∈ ds, isdigitC c = true) :
    ∀ (n : Nat) (acc : List Char),
      scanSig ds n acc = some (n + ds.length, ds.reverse ++ acc, []) := by
  induction ds with
  | nil => intro n acc; simp [scanSig]
  | cons c t ih =>
    intro n acc
    rw [show scanSig (c :: t) n acc
        = if isdigitC c then scanSig t (n + 1) (c :: acc)
          else if c = '_' ∧ nextDigit t then scanSig t n acc
          else if (c = '.' ∨ c = 'e' ∨ c = 'E') ∧ nextDigit t then
            some (n, acc, c :: t)
          else none from rfl]
    have hc : isdigitC c = true := h c (by simp)
    rw [if_pos (by rw [hc])]
    rw [ih (fun d hd => h d (by simp [hd])) (n + 1) (c :: acc)]
    rw [List.reverse_cons, List.length_cons]
    rw [List.append_assoc]
    have h2 : n + 1 + t.length = n + (t.length + 1) := by omega
    rw [h2]
    rfl

theorem stripSign_neg (t : List Char) : stripSign ('-' :: t) = (true, t) := rfl

theorem stripSign_digit (c : Char) (t : List Char) (h : isdigitC c = true) :
    stripSign (c :: t) = (false, c :: t) := by
  simp only [isdigitC, decide_eq_true_eq] at h
  rw [show stripSign (c :: t)
      = if c = '+' then (false, t)
        else if c = '-' then (true, t) else (false, c :: t) from rfl]
  rw [if_neg, if_neg]
  · intro habs
    subst habs
    have : ('-' : Char).toNat = 45 := by decide
    omega
  · intro habs
    subst habs
    have : ('+' : Char).toNat = 43 := by decide
    omega

theorem readChunkAux_spec (k : Nat) : ∀ (p : List Char) (d : Int), k ≤ p.length →
    readChunkAux k p d = (d * 10 ^ k + decVal (p.take k), p.drop k) := by
  induction k with
  | zero =>
    intro p d _
    show (d, p) = _
    simp [decVal]
  | succ k ih =>
    intro p d hk
    cases p with
    | nil => simp at hk
    | cons c t =>
      show readChunkAux k t (10 * d + ((c.toNat : Int) - 48)) = _
      rw [ih t _ (by simpa using hk)]
      rw [show (c :: t).take (k + 1) = c :: t.take k from rfl]
      rw [show (c :: t).drop (k + 1) = t.drop k from rfl]
      rw [decVal_cons]
      have hlen : (t.take k).length = k := by
        rw [List.length_take]
        simp at hk
        omega
      rw [hlen]
      have harith : (10 * d + ((c.toNat : Int) - 48)) * 10 ^ k
          = d * 10 ^ (k + 1) + ((c.toNat : Int) - 48) * 10 ^ k := by ring
      rw [harith]
      rw [add_assoc]

theorem bigChunksAux_nil (f c : Nat) : bigChunksAux f c [] = [] := by
  cases f <;> rfl

theorem bigChunksAux_spec : ∀ (m fuel L : Nat) (p : List Char),
    1 ≤ L → L ≤ LOG_BASE → p.length = L + LOG_BASE * m → m + 1 ≤ fuel →
    (∀ c ∈ p, isdigitC c = true) →
    (bigChunksAux fuel L p).length = m + 1 ∧
    valD (bigChunksAux fuel L p).reverse = decVal p ∧
    wfD (bigChunksAux fuel L p) ∧
    (bigChunksAux fuel L p).head? = some (decVal (p.take L)) := by
  intro m
  induction m with
  | zero =>
    intro fuel L p hL1 hL9 hlen hfuel hdig
    have hL9' : L ≤ 9 := by simpa [LOG_BASE] using hL9
    have hlen' : p.length = L := by simpa [LOG_BASE] using hlen
    cases fuel with
    | zero => omega
    | succ f =>
      cases p with
      | nil => simp at hlen'; omega
      | cons c t =>
        rw [show bigChunksAux (f + 1) L (c :: t)
            = (readChunkAux L (c :: t) 0).1
              :: bigChunksAux f LOG_BASE (readChunkAux L (c :: t) 0).2 from rfl]
        rw [readChunkAux_spec L (c :: t) 0 (by omega)]
        simp only []
        have hdrop : (c :: t).drop L = [] := List.drop_eq_nil_of_le (by omega)
        have htake : (c :: t).take L = c :: t := List.take_of_length_le (by omega)
        rw [hdrop, htake, bigChunksAux_nil]
        have hval : (0 : Int) * 10 ^ L + decVal (c :: t) = decVal (c :: t) := by ring
        rw [hval]
        refine ⟨rfl, ?_, ?_, rfl⟩
        · show decVal (c :: t) + BASE * 0 = decVal (c :: t)
          ring
        · intro d hd
          simp only [List.mem_singleton] at hd
          subst hd
          constructor
          · exact decVal_nonneg _ hdig
          · have h1 := decVal_lt (c :: t) hdig
            have h2 : (10 : Int) ^ (c :: t).length ≤ 10 ^ 9 := by
              apply pow_le_pow_right (by norm_num)
              omega
            have h3 : ((10 : Int) ^ 9 : Int) = BASE := by norm_num [BASE]
            omega
  | succ m ih =>
    intro fuel L p hL1 hL9 hlen hfuel hdig
    have hL9' : L ≤ 9 := by simpa [LOG_BASE] using hL9
    have hlen' : p.length = L + 9 * (m + 1) := by simpa [LOG_BASE] using hlen
    cases fuel with
    | zero => omega
    | succ f =>
      cases p with
      | nil => simp at hlen'; omega
      | cons c t =>
        rw [show bigChunksAux (f + 1) L (c :: t)
            = (readChunkAux L (c :: t) 0).1
              :: bigChunksAux f LOG_BASE (readChunkAux L (c :: t) 0).2 from rfl]
        rw [readChunkAux_spec L (c :: t) 0 (by omega)]
        simp only []
        have hval : (0 : Int) * 10 ^ L + decVal ((c :: t).take L)
            = decVal ((c :: t).take L) := by ring
        rw [hval]
        have hdlen : ((c :: t).drop L).length = LOG_BASE + LOG_BASE * m := by
          have hlen2 : t.length + 1 = L + 9 * (m + 1) := by simpa using hlen'
          rw [List.length_drop]
          simp [LOG_BASE]
          omega
        have hddig : ∀ d ∈ (c :: t).drop L, isdigitC d = true :=
          fun d hd => hdig d (List.drop_subset L (c :: t) hd)
        obtain ⟨ihlen, ihval, ihwf, ihhead⟩ :=
          ih f LOG_BASE ((c :: t).drop L) (by simp [LOG_BASE]) (le_refl _)
            hdlen (by omega) hddig
        refine ⟨?_, ?_, ?_, rfl⟩
        · rw [List.length_cons, ihlen]
        · rw [List.reverse_cons, valD_append, ihval, List.length_reverse, ihlen]
          have hsplit : decVal (c :: t)
              = decVal ((c :: t).take L) * 10 ^ ((c :: t).drop L).length
                + decVal ((c :: t).drop L) := by
            rw [← decVal_append, List.take_append_drop]
          rw [hsplit, hdlen]
          have hv1 : valD [decVal ((c :: t).take L)] = decVal ((c :: t).take L) := by
            show _ + BASE * 0 = _
            ring
          rw [hv1]
          have hbp : BASE ^ (m + 1) = 10 ^ (LOG_BASE + LOG_BASE * m) := by
            rw [base_pow]
            have h6 : LOG_BASE * (m + 1) = LOG_BASE + LOG_BASE * m := by ring
            rw [h6]
          rw [hbp]
          ring
        · intro d hd
          rcases List.mem_cons.mp hd with hd | hd
          · subst hd
            constructor
            · exact decVal_nonneg _ (fun e he => hdig e (List.take_subset L (c :: t) he))
            · have h1 := decVal_lt ((c :: t).take L)
                (fun e he => hdig e (List.take_subset L (c :: t) he))
              have hlt : ((c :: t).take L).length = L := by
                rw [List.length_take]
                omega
              rw [hlt] at h1
              have h2 : (10 : Int) ^ L ≤ 10 ^ 9 := by
                apply pow_le_pow_right (by norm_num)
                omega
              have h3 : ((10 : Int) ^ 9 : Int) = BASE := by norm_num [BASE]
              omega
          · exact ihwf d hd

theorem integer_parse_digits (neg : Bool) (c : Char) (t : List Char)
    (hd : ∀ e ∈ c :: t, isdigitC e = true)
    (h0 : c = '0' → t = []) :
    ∃ y, integer_parse ((if neg then ['-'] else []) ++ (c :: t)) = some y ∧
      intVal y = (if neg then (-1 : Int) else 1) * decVal (c :: t) ∧ WF y := by
  have hsgn : stripSign ((if neg then ['-'] else []) ++ (c :: t)) = (neg, c :: t) := by
    cases neg with
    | false =>
      show stripSign (c :: t) = (false, c :: t)
      exact stripSign_digit c t (hd c (by simp))
    | true =>
      show stripSign ('-' :: c :: t) = (true, c :: t)
      exact stripSign_neg _
  simp only [integer_parse]
  rw [hsgn]
  simp only []
  have hnd : nextDigit (c :: t) = true := hd c (by simp)
  rw [hnd]
  rw [if_neg (by simp)]
  rw [scanSig_digits (c :: t) hd 0 []]
  simp only []
  rw [if_neg (show ¬ (0 < 0) by omega)]
  simp only [List.append_nil, List.reverse_reverse, Nat.sub_self, Nat.add_zero,
    Nat.zero_add, pow_zero, mul_one]
  have hfold : List.foldl (fun a c => 10 * a + ((c.toNat : Int) - 48)) 0 (c :: t)
      = decVal (c :: t) := rfl
  rw [hfold]
  have hdv0 : 0 ≤ decVal (c :: t) := decVal_nonneg _ hd
  by_cases hsmall : (c :: t).length < LOG_BASE
  · rw [if_pos hsmall]
    have hdvlt : decVal (c :: t) < 10 ^ (c :: t).length := decVal_lt _ hd
    have hlen8 : (c :: t).length ≤ 8 := by
      have : (c :: t).length < 9 := by simpa [LOG_BASE] using hsmall
      omega
    have hpow : (10 : Int) ^ (c :: t).length ≤ 10 ^ 8 :=
      pow_le_pow_right (by norm_num) hlen8
    have h8 : ((10 : Int) ^ 8) = 100000000 := by norm_num
    have hS : SMALLINT_MAX = 1073741824 := rfl
    have hv : -SMALLINT_MAX ≤ (if neg = true then -(decVal (c :: t)) else decVal (c :: t))
        ∧ (if neg = true then -(decVal (c :: t)) else decVal (c :: t)) ≤ SMALLINT_MAX := by
      cases neg <;> simp <;> omega
    refine ⟨_, rfl, ?_, ?_⟩
    · rw [intVal_from_int]
      cases neg <;> simp
    · unfold integer_from_int
      rw [if_pos hv]
      exact hv
  · rw [if_neg hsmall]
    have hlen9 : 9 ≤ (c :: t).length := by
      have : ¬ (c :: t).length < 9 := by simpa [LOG_BASE] using hsmall
      omega
    obtain ⟨m, hL1, hL9, hnm, hcount⟩ :
        ∃ m, 1 ≤ (if (c :: t).length % LOG_BASE = 0 then LOG_BASE
            else (c :: t).length % LOG_BASE)
          ∧ (if (c :: t).length % LOG_BASE = 0 then LOG_BASE
            else (c :: t).length % LOG_BASE) ≤ LOG_BASE
          ∧ (c :: t).length
            = (if (c :: t).length % LOG_BASE = 0 then LOG_BASE
              else (c :: t).length % LOG_BASE) + LOG_BASE * m
          ∧ m + 1 = ((c :: t).length + (LOG_BASE - 1)) / LOG_BASE := by
      by_cases hz : (c :: t).length % LOG_BASE = 0
      · rw [if_pos hz]
        refine ⟨(c :: t).length / 9 - 1, ?_, ?_, ?_, ?_⟩ <;>
          simp only [LOG_BASE] at hz ⊢ <;> omega
      · rw [if_neg hz]
        refine ⟨(c :: t).length / 9, ?_, ?_, ?_, ?_⟩ <;>
          simp only [LOG_BASE] at hz ⊢ <;> omega
    obtain ⟨hclen, hcval, hcwf, hchead⟩ :=
      bigChunksAux_spec m ((c :: t).length)
        (if (c :: t).length % LOG_BASE = 0 then LOG_BASE
          else (c :: t).length % LOG_BASE) (c :: t) hL1 hL9 hnm
        (by simp only [LOG_BASE] at hnm ⊢; omega) hd
    have hpad : ((c :: t).length + (LOG_BASE - 1)) / LOG_BASE -
        (bigChunksAux ((c :: t).length)
          (if (c :: t).length % LOG_BASE = 0 then LOG_BASE
            else (c :: t).length % LOG_BASE) (c :: t)).length = 0 := by
      rw [hclen]
      simp only [LOG_BASE] at hcount ⊢
      omega
    rw [hpad]
    rw [List.replicate_zero, List.nil_append]
    refine ⟨_, rfl, ?_, ?_⟩
    · rw [intVal_integer_bigint]
      show (if neg = true then (-1 : Int) else 1) * valD _ = _
      rw [hcval]
    · have hS : SMALLINT_MAX = 1073741824 := rfl
      set cs := bigChunksAux ((c :: t).length)
        (if (c :: t).length % LOG_BASE = 0 then LOG_BASE
          else (c :: t).length % LOG_BASE) (c :: t) with hcs
      unfold integer_bigint
      by_cases hone : (Bigint.mk neg cs.reverse).digits.length = 1 ∧
          (Bigint.mk neg cs.reverse).digits.headD 0 ≤ SMALLINT_MAX
      · rw [if_pos hone]
        obtain ⟨hone1, hone2⟩ := hone
        have hcs1 : cs.reverse.length = 1 := hone1
        have hwfh : 0 ≤ cs.reverse.headD 0 ∧ cs.reverse.headD 0 < BASE := by
          cases hx : cs.reverse with
          | nil => rw [hx] at hcs1; simp at hcs1
          | cons v rest =>
            simp only [List.headD_cons]
            have hv : v ∈ cs := by
              have hv2 : v ∈ cs.reverse := by rw [hx]; simp
              exact List.mem_reverse.mp hv2
            exact hcwf v hv
        have hBlt : BASE = 1000000000 := rfl
        show WF (Integer.small
          (if neg = true then -(cs.reverse.headD 0) else cs.reverse.headD 0))
        show -SMALLINT_MAX ≤ _ ∧ _ ≤ SMALLINT_MAX
        cases neg with
        | false =>
          show -SMALLINT_MAX ≤ cs.reverse.headD 0 ∧ cs.reverse.headD 0 ≤ SMALLINT_MAX
          omega
        | true =>
          show -SMALLINT_MAX ≤ -(cs.reverse.headD 0)
            ∧ -(cs.reverse.headD 0) ≤ SMALLINT_MAX
          omega
      · rw [if_neg hone]
        show wfD cs.reverse ∧ 2 ≤ cs.reverse.length ∧ cs.reverse.getLast? ≠ some 0
        have hwfr : wfD cs.reverse := fun d hd2 => hcwf d (List.mem_reverse.mp hd2)
        have hlenr : cs.reverse.length = m + 1 := by
          rw [List.length_reverse, hclen]
        have hm1 : 1 ≤ m := by
          by_contra hm0
          have hm0' : m = 0 := by omega
          apply hone
          constructor
          · show cs.reverse.length = 1
            rw [hlenr, hm0']
          · show cs.reverse.headD 0 ≤ SMALLINT_MAX
            have h1 : cs.reverse.length = 1 := by rw [hlenr, hm0']
            cases hx : cs.reverse with
            | nil => rw [hx] at h1; simp at h1
            | cons v rest =>
              simp only [List.headD_cons]
              have hv : v ∈ cs := by
                have hv2 : v ∈ cs.reverse := by rw [hx]; simp
                exact List.mem_reverse.mp hv2
              have hb := hcwf v hv
              have hBlt : BASE = 1000000000 := rfl
              omega
        refine ⟨hwfr, by omega, ?_⟩
        rw [List.getLast?_reverse, hchead]
        intro habs
        have hv0 : decVal ((c :: t).take
            (if (c :: t).length % LOG_BASE = 0 then LOG_BASE
              else (c :: t).length % LOG_BASE)) = 0 := by
          injection habs
        obtain ⟨k, hk⟩ : ∃ k, (if (c :: t).length % LOG_BASE = 0 then LOG_BASE
            else (c :: t).length % LOG_BASE) = k + 1 :=
          ⟨(if (c :: t).length % LOG_BASE = 0 then LOG_BASE
            else (c :: t).length % LOG_BASE) - 1, by omega⟩
        rw [hk] at hv0
        rw [List.take_succ_cons] at hv0
        have hc0 : ¬ c = '0' := by
          intro habs2
          have ht0 := h0 habs2
          subst ht0
          simp at hlen9
        have hpos := decVal_pos c (t.take k) (hd c (by simp)) hc0
          (fun e he => hd e (by simp [List.take_subset k t he]))
        omega


theorem integer_to_string_spec (x : Integer) (h : WF x) :
    ∃ c t, integer_to_string x
        = (if intVal x < 0 then ['-'] else []) ++ c :: t ∧
      (∀ e ∈ c :: t, isdigitC e = true) ∧
      (c = '0' → t = []) ∧
      (if intVal x < 0 then (-1 : Int) else 1) * decVal (c :: t) = intVal x := by
  cases x with
  | small n =>
    by_cases hn : n = 0
    · subst hn
      refine ⟨'0', [], ?_, ?_, ?_, ?_⟩
      · show int_to_string 0 = (if (0 : Int) < 0 then ['-'] else []) ++ ['0']
        rw [if_neg (by omega)]
        rfl
      · intro e he
        simp at he
        subst he
        decide
      · intro _; rfl
      · show (if (0 : Int) < 0 then (-1 : Int) else 1) * decVal ['0'] = 0
        rw [if_neg (by omega)]
        decide
    · have hm : n.natAbs ≠ 0 := by omega
      have hb : -SMALLINT_MAX ≤ n ∧ n ≤ SMALLINT_MAX := h
      have hS : SMALLINT_MAX = 1073741824 := rfl
      have h63 : (1073741825 : Nat) ≤ 10 ^ 63 := by norm_num
      have hmlt : n.natAbs < 10 ^ 63 := by omega
      have hstr : int_to_string n
          = (if n < 0 then ['-'] else []) ++ (natToRevDigitsAux 63 n.natAbs).reverse := by
        unfold int_to_string
        rw [if_neg hm, List.reverse_append]
        by_cases hlt : n < 0 <;> simp [hlt]
      cases hds : (natToRevDigitsAux 63 n.natAbs).reverse with
      | nil =>
        exfalso
        have hnil : natToRevDigitsAux 63 n.natAbs = [] :=
          List.reverse_eq_nil_iff.mp hds
        exact natToRevDigitsAux_ne_nil 62 n.natAbs hm hnil
      | cons c t =>
        refine ⟨c, t, ?_, ?_, ?_, ?_⟩
        · show int_to_string n = (if n < 0 then ['-'] else []) ++ c :: t
          rw [hstr, hds]
        · intro e he
          rw [← hds] at he
          exact natToRevDigitsAux_digits 63 n.natAbs e (List.mem_reverse.mp he)
        · intro habs
          have hlast : (natToRevDigitsAux 63 n.natAbs).getLast? = some c := by
            rw [← List.head?_reverse, hds]
            rfl
          exact absurd habs (natToRevDigitsAux_getLast 63 n.natAbs hmlt hm c hlast)
        · show (if n < 0 then (-1 : Int) else 1) * decVal (c :: t) = n
          rw [← hds, decVal_natToRevDigitsAux 63 n.natAbs hmlt]
          by_cases hlt : n < 0
          · rw [if_pos hlt]
            omega
          · rw [if_neg hlt]
            omega
  | big b =>
    obtain ⟨hw, hlen2, htop⟩ := h
    cases hrev : b.digits.reverse with
    | nil =>
      exfalso
      have hd0 : b.digits = [] := by
        have h2 := congrArg List.reverse hrev
        simpa using h2
      rw [hd0] at hlen2
      simp at hlen2
    | cons d rest =>
      have hdmem : d ∈ b.digits := by
        have h2 : d ∈ b.digits.reverse := by rw [hrev]; simp
        exact List.mem_reverse.mp h2
      have hdwf := hw d hdmem
      have hdne : d ≠ 0 := by
        intro habs
        apply htop
        have h3 : b.digits.getLast? = some d := by
          rw [← List.head?_reverse, hrev]
          rfl
        rw [h3, habs]
      have hd1 : (1 : Int) ≤ d := by omega
      obtain ⟨hpv, hpne, hp1, hp9, hpdig, hphead⟩ :=
        digit_to_str_part_spec d hd1 hdwf.2
      have hdrop : dropHighZeros b.digits.reverse = d :: rest := by
        rw [hrev]
        rw [show dropHighZeros (d :: rest)
            = if d = 0 ∧ rest ≠ [] then dropHighZeros rest else d :: rest from rfl]
        rw [if_neg (by simp [hdne])]
      have hrmem : ∀ e ∈ rest, e ∈ b.digits := by
        intro e he
        apply List.mem_reverse.mp
        rw [hrev]
        exact List.mem_cons_of_mem d he
      have hsplit : b.digits = rest.reverse ++ [d] := by
        have h2 := congrArg List.reverse hrev
        simpa using h2
      have hvd : valD [d] = d := by
        show d + BASE * 0 = d
        ring
      have hvpos : 1 ≤ valD b.digits := by
        rw [hsplit, valD_append, hvd]
        have hr0 : 0 ≤ valD rest.reverse :=
          valD_nonneg _ (fun e he => hw e (hrmem e (List.mem_reverse.mp he)))
        have hbp : (0 : Int) < BASE ^ rest.reverse.length :=
          pow_pos (by norm_num [BASE]) _
        nlinarith
      have hiv : intVal (Integer.big b) = (if b.is_neg then -1 else 1) * valD b.digits := rfl
      have hsl : (if intVal (Integer.big b) < 0 then (['-'] : List Char) else [])
          = (if b.is_neg then ['-'] else []) := by
        by_cases hbn : b.is_neg = true
        · rw [if_pos hbn, if_pos (by rw [hiv, if_pos hbn]; linarith)]
        · have hbn' : ¬ (b.is_neg : Prop) := by simpa using hbn
          rw [if_neg hbn', if_neg (by rw [hiv, if_neg hbn']; simp; linarith)]
      have hml : (if intVal (Integer.big b) < 0 then (-1 : Int) else 1)
          = (if b.is_neg then -1 else 1) := by
        by_cases hbn : b.is_neg = true
        · rw [if_pos hbn, if_pos (by rw [hiv, if_pos hbn]; linarith)]
        · have hbn' : ¬ (b.is_neg : Prop) := by simpa using hbn
          rw [if_neg hbn', if_neg (by rw [hiv, if_neg hbn']; simp; linarith)]
      have hstr : integer_to_string (Integer.big b)
          = (if b.is_neg then ['-'] else [])
            ++ (digit_to_str_part d ++ fullsOf rest) := by
        show bigint_to_buf_ b = _
        unfold bigint_to_buf_
        rw [hdrop]
      cases hpd : digit_to_str_part d with
      | nil => exact absurd hpd hpne
      | cons c pt =>
        refine ⟨c, pt ++ fullsOf rest, ?_, ?_, ?_, ?_⟩
        · rw [hstr, hsl, hpd]
          simp [List.cons_append]
        · intro e he
          have he2 : e ∈ (c :: pt) ++ fullsOf rest := he
          rcases List.mem_append.mp he2 with he3 | he3
          · rw [← hpd] at he3
            exact hpdig e he3
          · exact fullsOf_digits rest e he3
        · intro habs
          have hh : (digit_to_str_part d).head? = some c := by
            rw [hpd]
            rfl
          exact absurd habs (hphead c hh)
        · rw [hml]
          have hdv : decVal (c :: (pt ++ fullsOf rest))
              = decVal (digit_to_str_part d ++ fullsOf rest) := by
            rw [hpd]
            rfl
          rw [hdv, decVal_append, hpv]
          rw [decVal_fullsOf rest (fun e he => hw e (hrmem e he))]
          rw [fullsOf_length]
          rw [hiv]
          have hvalsplit : valD b.digits
              = valD rest.reverse + BASE ^ rest.reverse.length * d := by
            rw [hsplit, valD_append, hvd]
          rw [hvalsplit]
          rw [List.length_reverse, base_pow]
          ring

/-- C3 (corrected): for every well-formed integer x, parsing to_string(x)
succeeds and yields a well-formed integer with the same value, and the
string is an optional single leading '-' (present exactly when x is
negative) followed by a nonempty run of decimal digits with no '+' and no
leading zero (except the string "0" itself).  The round trip is an
identity on integer values but not on representations: see
c3_not_representation_identity. -/
theorem c3_roundtrip (x : Integer) (h : WF x) :
    (∃ y, integer_parse (integer_to_string x) = some y ∧
      intVal y = intVal x ∧ WF y) ∧
    (∃ ds, integer_to_string x = (if intVal x < 0 then ['-'] else []) ++ ds ∧
      ds ≠ [] ∧ (∀ e ∈ ds, isdigitC e = true) ∧ '-' ∉ ds ∧ '+' ∉ ds ∧
      (ds.head? = some '0' → ds = ['0'])) := by
  obtain ⟨c, t, hstr, hdig, h0, hval⟩ := integer_to_string_spec x h
  constructor
  · by_cases hlt : intVal x < 0
    · rw [if_pos hlt] at hstr hval
      obtain ⟨y, hp, hv, hwf⟩ := integer_parse_digits true c t hdig h0
      refine ⟨y, ?_, ?_, hwf⟩
      · rw [hstr]
        exact hp
      · have hv' : intVal y = -1 * decVal (c :: t) := hv
        rw [hv']
        exact hval
    · rw [if_neg hlt] at hstr hval
      obtain ⟨y, hp, hv, hwf⟩ := integer_parse_digits false c t hdig h0
      refine ⟨y, ?_, ?_, hwf⟩
      · rw [hstr]
        exact hp
      · have hv' : intVal y = 1 * decVal (c :: t) := hv
        rw [hv']
        exact hval
  · refine ⟨c :: t, hstr, by simp, hdig, ?_, ?_, ?_⟩
    · intro habs
      exact absurd (hdig '-' habs) (by decide)
    · intro habs
      exact absurd (hdig '+' habs) (by decide)
    · intro hh
      have hc : c = '0' := by simpa using hh
      rw [hc, h0 hc]

theorem c3_roundtrip_witness :
    WF (Integer.small (-12)) ∧
    ((∃ y, integer_parse (integer_to_string (Integer.small (-12))) = some y ∧
      intVal y = intVal (Integer.small (-12)) ∧ WF y) ∧
    (∃ ds, integer_to_string (Integer.small (-12))
        = (if intVal (Integer.small (-12)) < 0 then ['-'] else []) ++ ds ∧
      ds ≠ [] ∧ (∀ e ∈ ds, isdigitC e = true) ∧ '-' ∉ ds ∧ '+' ∉ ds ∧
      (ds.head? = some '0' → ds = ['0']))) :=
  ⟨by decide, c3_roundtrip (Integer.small (-12)) (by decide)⟩

/-- C3 counterexample to the claim read as representation identity: the
well-formed small integer 2^30 prints as "1073741824", which parses back
to a two-digit Big of the same value, not to the original Small. -/
theorem c3_not_representation_identity :
    WF (Integer.small 1073741824) ∧
    integer_to_string (Integer.small 1073741824) = "1073741824".toList ∧
    integer_parse "1073741824".toList
      = some (Integer.big ⟨false, [73741824, 1]⟩) ∧
    Integer.big ⟨false, [73741824, 1]⟩ ≠ Integer.small 1073741824 ∧
    intVal (Integer.big ⟨false, [73741824, 1]⟩) = intVal (Integer.small 1073741824) := by
  decide


/-! ### Theorems: claim C10 (bigint_sub_abs tail-copy bounds) -/

theorem tailCopyLoop_oob : ∀ (k i cx : Nat) (xbuf z : List Int),
    xbuf.length = cx → i ≤ cx → cx + 1 - i ≤ k →
    tailCopyLoop k i cx xbuf z = none := by
  intro k
  induction k with
  | zero => intro i cx xbuf z hx hi hk; omega
  | succ k ih =>
    intro i cx xbuf z hx hi hk
    rw [show tailCopyLoop (k + 1) i cx xbuf z
        = if i ≤ cx then do
            let xd ← readIdx xbuf i
            let z2 ← writeIdx z i xd
            tailCopyLoop k (i + 1) cx xbuf z2
          else some (z, i) from rfl]
    rw [if_pos hi]
    by_cases hlt : i < cx
    · cases hrd : readIdx xbuf i with
      | none => rfl
      | some xd =>
        show (writeIdx z i xd).bind _ = none
        cases hwr : writeIdx z i xd with
        | none => rfl
        | some z2 =>
          show tailCopyLoop k (i + 1) cx xbuf z2 = none
          exact ih (i + 1) cx xbuf z2 hx (by omega) (by omega)
    · have hrd : readIdx xbuf i = none := by
        rw [readIdx, List.getElem?_eq_none]
        omega
      rw [show (do
            let xd ← readIdx xbuf i
            let z2 ← writeIdx z i xd
            tailCopyLoop k (i + 1) cx xbuf z2)
          = (readIdx xbuf i).bind (fun xd => (writeIdx z i xd).bind
              (fun z2 => tailCopyLoop k (i + 1) cx xbuf z2)) from rfl]
      rw [hrd]
      rfl

/-- C10 (code_bug): at x = bigint with count 4 and digits [0,0,0,1]
(value 10^27) in a no-slack allocation (extra = 0, so 4 digit slots) that
is shared (so bigint_alloc_reuse_ returns a fresh z with
roundup_count 4 = 4 slots), and y with count 2 and digits [1,1]
(value 10^9 + 1 ≤ |x|), the checked model of bigint_sub_abs aborts on an
out-of-bounds access: the tail-copy loop runs through i = cx and touches
x->digits[4] and z->digits[4], one past the last allocated slot of each.
With the loop bound corrected to i < cx the same run succeeds, stays in
bounds, and computes the digits of |x| - |y|; the reuse path (z = x, no
tail copy) is also fine. -/
theorem c10_sub_abs_tail_oob :
    bigint_sub_abs_checked 4 [0, 0, 0, 1] 2 [1, 1, 0, 0] true = none ∧
    bigint_sub_abs_checked_intended 4 [0, 0, 0, 1] 2 [1, 1, 0, 0] true
      = some [999999999, 999999998, 999999999, 0] ∧
    valD [999999999, 999999998, 999999999, 0] = valD [0, 0, 0, 1] - valD [1, 1, 0, 0] ∧
    bigint_sub_abs_checked 4 [0, 0, 0, 1] 2 [1, 1, 0, 0] false
      = some [999999999, 999999998, 999999999, 0] := by
  decide


/-! ### Theorems: schoolbook multiplication -/

theorem emod_digit_range (p : Int) : 0 ≤ p - p / BASE * BASE ∧ p - p / BASE * BASE < BASE := by
  have h1 : p - p / BASE * BASE = p % BASE := by
    rw [Int.emod_def]
    ring
  rw [h1]
  exact ⟨Int.emod_nonneg p (by norm_num [BASE]), Int.emod_lt_of_pos p (by norm_num [BASE])⟩

theorem mulInner_nil (dx : Int) (zs : List Int) : mulInner dx [] zs = zs := by
  cases zs with
  | nil => rfl
  | cons z0 zs =>
    cases zs with
    | nil => rfl
    | cons z1 zs => rfl

theorem mulInner_short (dx : Int) (ys : List Int) (zs : List Int)
    (h : zs.length ≤ 1) : mulInner dx ys zs = zs := by
  cases ys with
  | nil => exact mulInner_nil dx zs
  | cons dy ys =>
    cases zs with
    | nil => rfl
    | cons z0 zs =>
      cases zs with
      | nil => rfl
      | cons z1 zs => simp at h

theorem mulInner_cons (dx dy : Int) (ys : List Int) (z0 z1 : Int) (zs : List Int) :
    mulInner dx (dy :: ys) (z0 :: z1 :: zs)
      = (dx * dy + z0 - (dx * dy + z0) / BASE * BASE)
        :: mulInner dx ys ((z1 + (dx * dy + z0) / BASE) :: zs) := rfl

theorem mulInner_length (dx : Int) : ∀ (ys zs : List Int),
    (mulInner dx ys zs).length = zs.length := by
  intro ys
  induction ys with
  | nil => intro zs; rw [mulInner_nil]
  | cons dy ys ih =>
    intro zs
    cases zs with
    | nil => rfl
    | cons z0 zs =>
      cases zs with
      | nil => rfl
      | cons z1 zs =>
        rw [mulInner_cons, List.length_cons, ih]
        simp

theorem mulInner_val (dx : Int) : ∀ (ys zs : List Int),
    ys.length + 1 ≤ zs.length →
    valD (mulInner dx ys zs) = valD zs + dx * valD ys := by
  intro ys
  induction ys with
  | nil =>
    intro zs _
    rw [mulInner_nil]
    show _ = _ + dx * 0
    ring
  | cons dy ys ih =>
    intro zs hlen
    cases zs with
    | nil => simp at hlen
    | cons z0 zs =>
      cases zs with
      | nil => simp at hlen
      | cons z1 zs =>
        rw [mulInner_cons]
        show _ + BASE * valD (mulInner dx ys ((z1 + (dx * dy + z0) / BASE) :: zs)) = _
        rw [ih ((z1 + (dx * dy + z0) / BASE) :: zs) (by simp at hlen ⊢; omega)]
        show _ = (z0 + BASE * (z1 + BASE * valD zs)) + dx * (dy + BASE * valD ys)
        have hv : valD ((z1 + (dx * dy + z0) / BASE) :: zs)
            = (z1 + (dx * dy + z0) / BASE) + BASE * valD zs := rfl
        rw [hv]
        ring

theorem mulInner_struct (dx : Int) : ∀ (ys zs : List Int),
    ys.length + 1 ≤ zs.length →
    ∃ em b, mulInner dx ys zs = em ++ b :: zs.drop (ys.length + 1) ∧
      em.length = ys.length ∧ (∀ d ∈ em, 0 ≤ d ∧ d < BASE) := by
  intro ys
  induction ys with
  | nil =>
    intro zs hlen
    cases zs with
    | nil => simp at hlen
    | cons z0 zs =>
      refine ⟨[], z0, ?_, rfl, by simp⟩
      rw [mulInner_nil]
      simp
  | cons dy ys ih =>
    intro zs hlen
    cases zs with
    | nil => simp at hlen
    | cons z0 zs =>
      cases zs with
      | nil => simp at hlen
      | cons z1 zs =>
        obtain ⟨em, b, heq, hlen2, hrange⟩ :=
          ih ((z1 + (dx * dy + z0) / BASE) :: zs) (by simp at hlen ⊢; omega)
        refine ⟨(dx * dy + z0 - (dx * dy + z0) / BASE * BASE) :: em, b, ?_, ?_, ?_⟩
        · rw [mulInner_cons, heq]
          simp
        · simp [hlen2]
        · intro d hd
          rcases List.mem_cons.mp hd with hd | hd
          · subst hd
            exact emod_digit_range _
          · exact hrange d hd

theorem mulLoop_nil_ys : ∀ (xs zs : List Int), mulLoop [] xs zs = zs := by
  intro xs
  induction xs with
  | nil => intro zs; rfl
  | cons dx xs ih =>
    intro zs
    show (match mulInner dx [] zs with
      | z0 :: rest => z0 :: mulLoop [] xs rest
      | [] => []) = zs
    rw [mulInner_nil]
    cases zs with
    | nil => rfl
    | cons z0 rest =>
      show z0 :: mulLoop [] xs rest = z0 :: rest
      rw [ih]

theorem mulLoop_cons (ys : List Int) (dx : Int) (xs zs : List Int) :
    mulLoop ys (dx :: xs) zs
      = match mulInner dx ys zs with
        | z0 :: rest => z0 :: mulLoop ys xs rest
        | [] => [] := rfl

theorem mulLoop_length (ys : List Int) : ∀ (xs zs : List Int),
    (mulLoop ys xs zs).length = zs.length := by
  intro xs
  induction xs with
  | nil => intro zs; rfl
  | cons dx xs ih =>
    intro zs
    rw [mulLoop_cons]
    cases hmi : mulInner dx ys zs with
    | nil =>
      have h2 := mulInner_length dx ys zs
      rw [hmi] at h2
      simp at h2
      simp [← h2]
    | cons z0 rest =>
      have h2 := mulInner_length dx ys zs
      rw [hmi] at h2
      show (z0 :: mulLoop ys xs rest).length = zs.length
      rw [List.length_cons, ih]
      rw [← h2]
      rfl

theorem mulLoop_val (ys : List Int) : ∀ (xs zs : List Int),
    xs.length + ys.length ≤ zs.length →
    valD (mulLoop ys xs zs) = valD zs + valD xs * valD ys := by
  intro xs
  induction xs with
  | nil =>
    intro zs _
    show valD zs = valD zs + 0 * valD ys
    ring
  | cons dx xs ih =>
    intro zs hlen
    rw [mulLoop_cons]
    have hmv := mulInner_val dx ys zs (by simp at hlen; omega)
    have hml := mulInner_length dx ys zs
    cases hmi : mulInner dx ys zs with
    | nil =>
      rw [hmi] at hml
      simp at hml
      simp at hlen
      omega
    | cons z0 rest =>
      rw [hmi] at hmv hml
      show valD (z0 :: mulLoop ys xs rest) = _
      have hv1 : valD (z0 :: mulLoop ys xs rest)
          = z0 + BASE * valD (mulLoop ys xs rest) := rfl
      rw [hv1, ih rest (by simp at hlen hml ⊢; omega)]
      have hv2 : valD (z0 :: rest) = z0 + BASE * valD rest := rfl
      rw [hv2] at hmv
      have hv3 : valD (dx :: xs) = dx + BASE * valD xs := rfl
      rw [hv3]
      nlinarith [hmv]

theorem mulLoop_wfButLast (ys : List Int) (hys : 1 ≤ ys.length) :
    ∀ (xs front back : List Int), 1 ≤ xs.length →
    front.length = ys.length → back.length = xs.length →
    (∀ d ∈ back, 0 ≤ d ∧ d < BASE) →
    ∀ d ∈ (mulLoop ys xs (front ++ back)).dropLast, 0 ≤ d ∧ d < BASE := by
  intro xs
  induction xs with
  | nil => intro front back h1; simp at h1
  | cons dx xs ih =>
    intro front back _ hf hb hbr
    obtain ⟨em, b, heq, hemlen, hemr⟩ :=
      mulInner_struct dx ys (front ++ back)
        (by rw [List.length_append, hf]; cases xs <;> simp at hb <;> omega)
    cases xs with
    | nil =>
      cases back with
      | nil => simp at hb
      | cons b0 back2 =>
        have hb2 : back2 = [] := by simp at hb; simpa using hb
        subst hb2
        have hdrop : (front ++ [b0]).drop (ys.length + 1) = [] := by
          apply List.drop_eq_nil_of_le
          rw [List.length_append, hf]
          simp
        rw [hdrop] at heq
        rw [mulLoop_cons, heq]
        cases em with
        | nil => rw [← hemlen] at hys; simp at hys
        | cons e0 em1 =>
          show ∀ d ∈ (e0 :: mulLoop ys [] (em1 ++ [b])).dropLast, _
          rw [show mulLoop ys [] (em1 ++ [b]) = em1 ++ [b] from rfl]
          intro d hd
          rw [show (e0 :: (em1 ++ [b])) = (e0 :: em1) ++ [b] from rfl,
            List.dropLast_concat] at hd
          exact hemr d hd
    | cons dx2 xs2 =>
      cases back with
      | nil => simp at hb
      | cons b0 back2 =>
        have hdrop : (front ++ b0 :: back2).drop (ys.length + 1) = back2 := by
          rw [show front ++ b0 :: back2 = (front ++ [b0]) ++ back2 by simp,
            show ys.length + 1 = (front ++ [b0]).length by simp [hf]]
          exact List.drop_left _ _
        rw [hdrop] at heq
        rw [mulLoop_cons, heq]
        cases em with
        | nil => rw [← hemlen] at hys; simp at hys
        | cons e0 em1 =>
          show ∀ d ∈ (e0 :: mulLoop ys (dx2 :: xs2) (em1 ++ b :: back2)).dropLast, _
          intro d hd
          have hlen2 : (mulLoop ys (dx2 :: xs2) (em1 ++ b :: back2)).length
              = em1.length + (b :: back2).length := by
            rw [mulLoop_length, List.length_append]
          have hne2 : mulLoop ys (dx2 :: xs2) (em1 ++ b :: back2) ≠ [] := by
            intro habs
            rw [habs] at hlen2
            simp at hlen2
            omega
          rw [List.dropLast_cons_of_ne_nil hne2] at hd
          rcases List.mem_cons.mp hd with hd | hd
          · subst hd
            exact hemr d (by simp)
          · have hassoc : em1 ++ b :: back2 = (em1 ++ [b]) ++ back2 := by simp
            rw [hassoc] at hd
            refine ih (em1 ++ [b]) back2 (by simp) ?_ ?_ ?_ d hd
            · simp at hemlen ⊢
              omega
            · simp at hb ⊢
              omega
            · intro e he
              exact hbr e (by simp [he])

theorem wfD_of_init (l : List Int) (hne : l ≠ [])
    (hinit : ∀ d ∈ l.dropLast, 0 ≤ d ∧ d < BASE)
    (h0 : 0 ≤ valD l) (hlt : valD l < BASE ^ l.length) : wfD l := by
  obtain ⟨init, a, rfl⟩ : ∃ init a, l = init ++ [a] :=
    ⟨l.dropLast, l.getLast hne, by rw [List.dropLast_append_getLast hne]⟩
  rw [List.dropLast_concat] at hinit
  have hwinit : wfD init := hinit
  have hvi0 : 0 ≤ valD init := valD_nonneg _ hwinit
  have hvil : valD init < BASE ^ init.length := valD_lt _ hwinit
  have hva : valD (init ++ [a]) = valD init + BASE ^ init.length * a := by
    rw [valD_append]
    have h2 : valD [a] = a := by
      show a + BASE * 0 = a
      ring
    rw [h2]
  rw [hva] at h0 hlt
  have hlen : (init ++ [a]).length = init.length + 1 := by simp
  rw [hlen, pow_succ] at hlt
  have hP : (0 : Int) < BASE ^ init.length := pow_pos (by norm_num [BASE]) _
  have hBpos : (0 : Int) < BASE := by norm_num [BASE]
  have ha0 : 0 ≤ a := by nlinarith
  have haB : a < BASE := by nlinarith
  intro d hd
  rcases List.mem_append.mp hd with hd | hd
  · exact hwinit d hd
  · simp at hd
    subst hd
    exact ⟨ha0, haB⟩

theorem Nice_of_topOk (l : List Int) (hw : wfD l) (ht : TopOk l) : Nice l := by
  refine ⟨hw, fun h0 => ?_⟩
  rcases ht with h | h
  · rw [h] at h0
    simp at h0
  · exact absurd h0 h

theorem bigint_mul_spec (x y : Bigint) (hx : wfD x.digits) (hy : wfD y.digits) :
    bigVal (bigint_mul x y) = bigVal x * bigVal y ∧
    wfD (bigint_mul x y).digits ∧ TopOk (bigint_mul x y).digits ∧
    (bigint_mul x y).is_neg = decide (x.is_neg ≠ y.is_neg) := by
  have hLval : valD (mulLoop y.digits x.digits
      (List.replicate (x.digits.length + y.digits.length) 0))
      = valD x.digits * valD y.digits := by
    rw [mulLoop_val y.digits x.digits _ (by simp)]
    rw [valD_replicate_zero]
    ring
  have hLlen : (mulLoop y.digits x.digits
      (List.replicate (x.digits.length + y.digits.length) 0)).length
      = x.digits.length + y.digits.length := by
    rw [mulLoop_length]
    simp
  have hLwf : wfD (mulLoop y.digits x.digits
      (List.replicate (x.digits.length + y.digits.length) 0)) := by
    by_cases hxe : x.digits = []
    · rw [hxe]
      show wfD (List.replicate _ (0 : Int))
      exact wfD_replicate_zero _
    · by_cases hye : y.digits = []
      · rw [hye, mulLoop_nil_ys]
        exact wfD_replicate_zero _
      · have hcx : 1 ≤ x.digits.length := List.length_pos.mpr hxe
        have hcy : 1 ≤ y.digits.length := List.length_pos.mpr hye
        apply wfD_of_init
        · intro habs
          rw [habs] at hLlen
          simp at hLlen
          omega
        · have hsplit : List.replicate (x.digits.length + y.digits.length) (0 : Int)
              = List.replicate y.digits.length 0 ++ List.replicate x.digits.length 0 := by
            rw [← List.replicate_add, Nat.add_comm]
          rw [hsplit]
          apply mulLoop_wfButLast y.digits hcy x.digits
            (List.replicate y.digits.length 0) (List.replicate x.digits.length 0)
            hcx (by simp) (by simp)
          intro d hd
          have h2 := List.eq_of_mem_replicate hd
          subst h2
          norm_num [BASE]
        · rw [hLval]
          have h1 := valD_nonneg _ hx
          have h2 := valD_nonneg _ hy
          nlinarith
        · rw [hLval, hLlen]
          have h1 := valD_nonneg _ hx
          have h2 := valD_nonneg _ hy
          have h3 := valD_lt _ hx
          have h4 := valD_lt _ hy
          have h5 : valD x.digits * valD y.digits
              < BASE ^ x.digits.length * BASE ^ y.digits.length := by
            rcases eq_or_lt_of_le h1 with h1e | h1s
            · rw [← h1e]
              have h6 := pow_pos (show (0:Int) < BASE by norm_num [BASE]) x.digits.length
              have h7 := pow_pos (show (0:Int) < BASE by norm_num [BASE]) y.digits.length
              nlinarith
            · nlinarith
          rw [pow_add]
          exact h5
  refine ⟨?_, ?_, ?_, rfl⟩
  · show (if (decide (x.is_neg ≠ y.is_neg)) = true then (-1:Int) else 1) * valD (trimTop _) = _
    rw [valD_trimTop, hLval]
    show _ = ((if x.is_neg = true then (-1:Int) else 1) * valD x.digits)
      * ((if y.is_neg = true then (-1:Int) else 1) * valD y.digits)
    cases hxn : x.is_neg <;> cases hyn : y.is_neg <;> simp <;> ring
  · show wfD (trimTop _)
    exact wfD_trimTop _ hLwf
  · show TopOk (trimTop _)
    exact trimTop_topOk _



theorem bigint_slice_sign (x : Bigint) (lo hi : Nat) :
    (bigint_slice x lo hi).is_neg = x.is_neg := by
  unfold bigint_slice
  by_cases h : ((x.digits.drop lo).take (hi - lo)).isEmpty <;> simp [h]

theorem bigint_slice_val (x : Bigint) (lo hi : Nat) :
    valD (bigint_slice x lo hi).digits = valD ((x.digits.drop lo).take (hi - lo)) := by
  unfold bigint_slice
  by_cases h : ((x.digits.drop lo).take (hi - lo)).isEmpty
  · simp only [h, if_true]
    rw [List.isEmpty_iff.mp h]
    show (0 : Int) + BASE * 0 = 0
    ring
  · rw [if_neg h]

theorem bigint_slice_wf (x : Bigint) (lo hi : Nat) (hx : wfD x.digits) :
    wfD (bigint_slice x lo hi).digits := by
  unfold bigint_slice
  by_cases h : ((x.digits.drop lo).take (hi - lo)).isEmpty
  · simp only [h, if_true]
    intro d hd
    simp at hd
    subst hd
    norm_num [BASE]
  · simp only [h, if_false]
    intro d hd
    exact hx d (List.mem_of_mem_drop (List.mem_of_mem_take hd))

theorem bigint_shift_left_sign (x : Bigint) (n : Nat) :
    (bigint_shift_left x n).is_neg = x.is_neg := by
  unfold bigint_shift_left
  by_cases h : n = 0 <;> simp [h]

theorem bigint_shift_left_val (x : Bigint) (n : Nat) :
    valD (bigint_shift_left x n).digits = BASE ^ n * valD x.digits := by
  unfold bigint_shift_left
  by_cases h : n = 0
  · simp only [h, if_true]
    norm_num
  · simp only [h, if_false]
    show valD (List.replicate n 0 ++ x.digits) = _
    rw [valD_append, valD_replicate_zero]
    simp

theorem bigint_shift_left_wf (x : Bigint) (n : Nat) (hx : wfD x.digits) :
    wfD (bigint_shift_left x n).digits := by
  unfold bigint_shift_left
  by_cases h : n = 0
  · simp only [h, if_true]
    exact hx
  · simp only [h, if_false]
    exact wfD_append _ _ (wfD_replicate_zero n) hx

theorem addSame_val (x y : Bigint) (yneg : Bool) (hx : wfD x.digits) (hy : wfD y.digits) :
    (addSame x y yneg).is_neg = yneg ∧
    valD (addSame x y yneg).digits = valD x.digits + valD y.digits ∧
    wfD (addSame x y yneg).digits := by
  unfold addSame bigint_add_abs
  by_cases h : x.digits.length < y.digits.length
  · simp only [h, if_true]
    refine ⟨by trivial, ?_, ?_⟩
    · rw [valD_addAbsDigits _ _ _ (by omega)]
      ring
    · exact wfD_addAbsDigits _ _ _ (Or.inl rfl) hy hx
  · simp only [h, if_false]
    refine ⟨by trivial, ?_, ?_⟩
    · rw [valD_addAbsDigits _ _ _ (by omega)]
      ring
    · exact wfD_addAbsDigits _ _ _ (Or.inl rfl) hx hy

theorem bigint_sub_dominant (x y : Bigint) (yneg : Bool) (hs : x.is_neg = yneg)
    (hx : Nice x.digits) (hy : Nice y.digits) (hty : TopOk y.digits)
    (hv : valD y.digits ≤ valD x.digits) :
    (bigint_sub x y yneg).is_neg = x.is_neg ∧
    valD (bigint_sub x y yneg).digits = valD x.digits - valD y.digits ∧
    wfD (bigint_sub x y yneg).digits ∧ TopOk (bigint_sub x y yneg).digits := by
  have hge : 0 ≤ bigint_compare_abs x y := by
    by_cases hy0 : valD y.digits = 0
    · have hyne : y.digits = [] := by
        rcases hty with h | h
        · exact h
        · by_contra hne
          have hgt := valD_ge_of_top _ hy.1 hne h
          have hp := pow_pos (show (0:Int) < BASE by norm_num [BASE]) (y.digits.length - 1)
          omega
      unfold bigint_compare_abs
      rw [hyne]
      by_cases hcx : x.digits.length > ([] : List Int).length
      · rw [if_pos hcx]
        omega
      · rw [if_neg hcx, if_neg (by simp at hcx ⊢)]
        have hx0 : x.digits = [] := by
          simp at hcx
          exact hcx
        rw [hx0]
        show (0 : Int) ≤ cmpMSF [] []
        norm_num [cmpMSF]
    · by_contra hlt
      push_neg at hlt
      have h1 := compare_abs_lt_val_strict x y hx hy
        (by have := valD_nonneg _ hy.1; omega) hlt
      omega
  have hlen := compare_abs_len x y hge
  unfold bigint_sub
  rw [if_neg (by rw [hs]; simp)]
  unfold subSame
  rw [if_pos (by omega)]
  unfold bigint_sub_abs bigint_trim
  obtain ⟨hval, hwf⟩ := valD_subAbsDigits_of_le x.digits y.digits hx.1 hy.1 hlen hv
  refine ⟨rfl, ?_, ?_, ?_⟩
  · show valD (trimTop _) = _
    rw [valD_trimTop, hval]
  · exact wfD_trimTop _ hwf
  · exact trimTop_topOk _

theorem sign_mul_cases (sx sy : Bool) (vx vy : Int) :
    ((if sx = true then (-1:Int) else 1) * vx) * ((if sy = true then (-1:Int) else 1) * vy)
      = (if (decide (sx ≠ sy)) = true then (-1:Int) else 1) * (vx * vy) := by
  cases sx <;> cases sy <;> simp <;> ring

theorem valD_of_prod (z u v : Bigint) (hz : bigVal z = bigVal u * bigVal v)
    (hs : z.is_neg = decide (u.is_neg ≠ v.is_neg)) :
    valD z.digits = valD u.digits * valD v.digits := by
  unfold bigVal at hz
  rw [sign_mul_cases] at hz
  rw [hs] at hz
  cases hd : decide (u.is_neg ≠ v.is_neg) <;> rw [hd] at hz <;> simp at hz <;> linarith

theorem bigVal_eq_sign_valD (z : Bigint) :
    bigVal z = (if z.is_neg = true then (-1:Int) else 1) * valD z.digits := rfl

theorem bigVal_trim (z : Bigint) : bigVal (bigint_trim z) = bigVal z := by
  unfold bigint_trim bigVal
  show _ * valD (trimTop z.digits) = _
  rw [valD_trimTop]

theorem bigint_add_same_eq (u v : Bigint) (vneg : Bool) (hs : u.is_neg = vneg) :
    bigint_add u v vneg = addSame u v vneg := by
  unfold bigint_add
  rw [if_neg (by rw [hs]; simp)]

theorem karatsuba_step (K : Bigint → Bigint → Bigint)
    (x y a b c d ac bd abcd s1 s2 p1 p2 : Bigint) (n : Nat)
    (hx : wfD x.digits) (hy : wfD y.digits)
    (ha : a = bigint_slice x 0 n) (hb : b = bigint_slice x n x.digits.length)
    (hc : c = bigint_slice y 0 n) (hd : d = bigint_slice y n y.digits.length)
    (hac : ac = K a c) (hbd : bd = K b d)
    (habcd : abcd = K (bigint_add a b b.is_neg) (bigint_add c d d.is_neg))
    (hK : ∀ u v, wfD u.digits → wfD v.digits →
      bigVal (K u v) = bigVal u * bigVal v ∧ wfD (K u v).digits ∧
      TopOk (K u v).digits ∧ (K u v).is_neg = decide (u.is_neg ≠ v.is_neg))
    (hs1 : s1 = bigint_sub abcd ac ac.is_neg)
    (hs2 : s2 = bigint_sub s1 bd bd.is_neg)
    (hp1 : p1 = bigint_shift_left s2 n)
    (hp2 : p2 = bigint_shift_left bd (2 * n)) :
    bigVal (bigint_trim (bigint_add (bigint_add ac p1 p1.is_neg) p2 p2.is_neg))
      = bigVal x * bigVal y ∧
    wfD (bigint_trim (bigint_add (bigint_add ac p1 p1.is_neg) p2 p2.is_neg)).digits ∧
    TopOk (bigint_trim (bigint_add (bigint_add ac p1 p1.is_neg) p2 p2.is_neg)).digits ∧
    (bigint_trim (bigint_add (bigint_add ac p1 p1.is_neg) p2 p2.is_neg)).is_neg
      = decide (x.is_neg ≠ y.is_neg) := by
  -- slices
  have hsa : a.is_neg = x.is_neg := by rw [ha]; exact bigint_slice_sign x 0 n
  have hsb : b.is_neg = x.is_neg := by rw [hb]; exact bigint_slice_sign x n x.digits.length
  have hsc : c.is_neg = y.is_neg := by rw [hc]; exact bigint_slice_sign y 0 n
  have hsd : d.is_neg = y.is_neg := by rw [hd]; exact bigint_slice_sign y n y.digits.length
  have hwa : wfD a.digits := by rw [ha]; exact bigint_slice_wf x 0 n hx
  have hwb : wfD b.digits := by rw [hb]; exact bigint_slice_wf x n x.digits.length hx
  have hwc : wfD c.digits := by rw [hc]; exact bigint_slice_wf y 0 n hy
  have hwd : wfD d.digits := by rw [hd]; exact bigint_slice_wf y n y.digits.length hy
  have hva : valD a.digits = valD (x.digits.take n) := by
    rw [ha, bigint_slice_val]
    simp
  have hvb : valD b.digits = valD (x.digits.drop n) := by
    rw [hb, bigint_slice_val, List.take_of_length_le (by simp)]
  have hvc : valD c.digits = valD (y.digits.take n) := by
    rw [hc, bigint_slice_val]
    simp
  have hvd : valD d.digits = valD (y.digits.drop n) := by
    rw [hd, bigint_slice_val, List.take_of_length_le (by simp)]
  have h0a : 0 ≤ valD a.digits := valD_nonneg _ hwa
  have h0b : 0 ≤ valD b.digits := valD_nonneg _ hwb
  have h0c : 0 ≤ valD c.digits := valD_nonneg _ hwc
  have h0d : 0 ≤ valD d.digits := valD_nonneg _ hwd
  -- the two half sums
  have habe : bigint_add a b b.is_neg = addSame a b b.is_neg :=
    bigint_add_same_eq a b b.is_neg (by rw [hsa, hsb])
  obtain ⟨hsab, hvab, hwab⟩ := addSame_val a b b.is_neg hwa hwb
  rw [← habe] at hsab hvab hwab
  have hcde : bigint_add c d d.is_neg = addSame c d d.is_neg :=
    bigint_add_same_eq c d d.is_neg (by rw [hsc, hsd])
  obtain ⟨hscd, hvcd, hwcd⟩ := addSame_val c d d.is_neg hwc hwd
  rw [← hcde] at hscd hvcd hwcd
  -- recursive products
  obtain ⟨hacv, hacw, hact, hacs⟩ := hK a c hwa hwc
  rw [← hac] at hacv hacw hact hacs
  obtain ⟨hbdv, hbdw, hbdt, hbds⟩ := hK b d hwb hwd
  rw [← hbd] at hbdv hbdw hbdt hbds
  obtain ⟨habcdv, habcdw, habcdt, habcds⟩ :=
    hK (bigint_add a b b.is_neg) (bigint_add c d d.is_neg) hwab hwcd
  rw [← habcd] at habcdv habcdw habcdt habcds
  have hvacd : valD ac.digits = valD a.digits * valD c.digits :=
    valD_of_prod ac a c hacv hacs
  have hvbdd : valD bd.digits = valD b.digits * valD d.digits :=
    valD_of_prod bd b d hbdv hbds
  have hvabcdd : valD abcd.digits
      = (valD a.digits + valD b.digits) * (valD c.digits + valD d.digits) := by
    have h2 := valD_of_prod abcd _ _ habcdv habcds
    rw [hvab, hvcd] at h2
    exact h2
  -- signs all equal the product sign
  have hacs' : ac.is_neg = decide (x.is_neg ≠ y.is_neg) := by rw [hacs, hsa, hsc]
  have hbds' : bd.is_neg = decide (x.is_neg ≠ y.is_neg) := by rw [hbds, hsb, hsd]
  have habcds' : abcd.is_neg = decide (x.is_neg ≠ y.is_neg) := by
    rw [habcds, hsab, hscd, hsb, hsd]
  -- first dominant subtraction
  have hdom1 : valD ac.digits ≤ valD abcd.digits := by
    rw [hvacd, hvabcdd]
    nlinarith [mul_nonneg h0a h0d, mul_nonneg h0b h0c, mul_nonneg h0b h0d]
  obtain ⟨hss1, hvs1, hws1, hts1⟩ :=
    bigint_sub_dominant abcd ac ac.is_neg (by rw [habcds', hacs'])
      (Nice_of_topOk _ habcdw habcdt) (Nice_of_topOk _ hacw hact) hact hdom1
  rw [← hs1] at hss1 hvs1 hws1 hts1
  have hss1' : s1.is_neg = decide (x.is_neg ≠ y.is_neg) := by rw [hss1, habcds']
  -- second dominant subtraction
  have hdom2 : valD bd.digits ≤ valD s1.digits := by
    rw [hvbdd, hvs1, hvacd, hvabcdd]
    nlinarith [mul_nonneg h0a h0d, mul_nonneg h0b h0c, mul_nonneg h0a h0c]
  obtain ⟨hss2, hvs2, hws2, hts2⟩ :=
    bigint_sub_dominant s1 bd bd.is_neg (by rw [hss1', hbds'])
      (Nice_of_topOk _ hws1 hts1) (Nice_of_topOk _ hbdw hbdt) hbdt hdom2
  rw [← hs2] at hss2 hvs2 hws2 hts2
  have hss2' : s2.is_neg = decide (x.is_neg ≠ y.is_neg) := by rw [hss2, hss1']
  -- shifts
  have hsp1 : p1.is_neg = decide (x.is_neg ≠ y.is_neg) := by
    rw [hp1, bigint_shift_left_sign, hss2']
  have hvp1 : valD p1.digits = BASE ^ n * valD s2.digits := by
    rw [hp1, bigint_shift_left_val]
  have hwp1 : wfD p1.digits := by rw [hp1]; exact bigint_shift_left_wf s2 n hws2
  have hsp2 : p2.is_neg = decide (x.is_neg ≠ y.is_neg) := by
    rw [hp2, bigint_shift_left_sign, hbds']
  have hvp2 : valD p2.digits = BASE ^ (2 * n) * valD bd.digits := by
    rw [hp2, bigint_shift_left_val]
  have hwp2 : wfD p2.digits := by rw [hp2]; exact bigint_shift_left_wf bd (2 * n) hbdw
  -- the final two same-sign additions
  have hadd1e : bigint_add ac p1 p1.is_neg = addSame ac p1 p1.is_neg :=
    bigint_add_same_eq ac p1 p1.is_neg (by rw [hacs', hsp1])
  obtain ⟨hsadd1, hvadd1, hwadd1⟩ := addSame_val ac p1 p1.is_neg hacw hwp1
  rw [← hadd1e] at hsadd1 hvadd1 hwadd1
  have hadd2e : bigint_add (bigint_add ac p1 p1.is_neg) p2 p2.is_neg
      = addSame (bigint_add ac p1 p1.is_neg) p2 p2.is_neg :=
    bigint_add_same_eq _ p2 p2.is_neg (by rw [hsadd1, hsp1, hsp2])
  obtain ⟨hsadd2, hvadd2, hwadd2⟩ := addSame_val (bigint_add ac p1 p1.is_neg) p2 p2.is_neg hwadd1 hwp2
  rw [← hadd2e] at hsadd2 hvadd2 hwadd2
  -- decompositions of x and y
  have hsplitx : valD x.digits = valD a.digits + BASE ^ n * valD b.digits := by
    rw [hva, hvb]
    by_cases hn : n ≤ x.digits.length
    · exact valD_take_drop _ n hn
    · rw [List.drop_eq_nil_of_le (by omega), List.take_of_length_le (by omega)]
      show _ = _ + _ * 0
      ring
  have hsplity : valD y.digits = valD c.digits + BASE ^ n * valD d.digits := by
    rw [hvc, hvd]
    by_cases hn : n ≤ y.digits.length
    · exact valD_take_drop _ n hn
    · rw [List.drop_eq_nil_of_le (by omega), List.take_of_length_le (by omega)]
      show _ = _ + _ * 0
      ring
  refine ⟨?_, ?_, ?_, ?_⟩
  · rw [bigVal_trim, bigVal_eq_sign_valD (bigint_add (bigint_add ac p1 p1.is_neg) p2 p2.is_neg)]
    rw [hvadd2, hvadd1, hvp1, hvp2, hvs2, hvs1, hvacd, hvbdd, hvabcdd]
    rw [hsadd2, hsp2]
    rw [bigVal_eq_sign_valD x, bigVal_eq_sign_valD y, sign_mul_cases]
    rw [hsplitx, hsplity]
    have hB2 : (BASE : Int) ^ (2 * n) = BASE ^ n * BASE ^ n := by
      rw [two_mul, pow_add]
    rw [hB2]
    cases decide (x.is_neg ≠ y.is_neg) <;> simp <;> ring
  · show wfD (trimTop _)
    exact wfD_trimTop _ hwadd2
  · show TopOk (trimTop _)
    exact trimTop_topOk _
  · show (bigint_add (bigint_add ac p1 p1.is_neg) p2 p2.is_neg).is_neg = _
    rw [hsadd2, hsp2]

theorem karatsubaAux_spec : ∀ (f : Nat) (x y : Bigint),
    wfD x.digits → wfD y.digits →
    bigVal (bigint_mul_karatsubaAux f x y) = bigVal x * bigVal y ∧
    wfD (bigint_mul_karatsubaAux f x y).digits ∧
    TopOk (bigint_mul_karatsubaAux f x y).digits ∧
    (bigint_mul_karatsubaAux f x y).is_neg = decide (x.is_neg ≠ y.is_neg) := by
  intro f
  induction f with
  | zero =>
    intro x y hx hy
    exact bigint_mul_spec x y hx hy
  | succ f ih =>
    intro x y hx hy
    unfold bigint_mul_karatsubaAux
    by_cases h25 : max x.digits.length y.digits.length ≤ 25
    · rw [if_pos h25]
      exact bigint_mul_spec x y hx hy
    · rw [if_neg h25]
      exact karatsuba_step (bigint_mul_karatsubaAux f) x y _ _ _ _ _ _ _ _ _ _ _
        ((max x.digits.length y.digits.length + 1) / 2) hx hy
        rfl rfl rfl rfl rfl rfl rfl (fun u v hu hv => ih u v hu hv)
        rfl rfl rfl rfl


/-- C4 (confirmed): for every pair of well-formed big integers,
bigint_mul_karatsuba computes the same integer value as the schoolbook
bigint_mul, and whenever the larger digit count is at most 25 it defers to
the schoolbook routine definitionally, so integer multiplication gives
identical results on either side of the cutover threshold. -/
theorem c4_karatsuba_equiv (x y : Bigint) (hx : wfD x.digits) (hy : wfD y.digits) :
    bigVal (bigint_mul_karatsuba x y) = bigVal (bigint_mul x y) ∧
    (max x.digits.length y.digits.length ≤ 25 →
      bigint_mul_karatsuba x y = bigint_mul x y) := by
  constructor
  · show bigVal (bigint_mul_karatsubaAux (max x.digits.length y.digits.length) x y) = _
    rw [(karatsubaAux_spec (max x.digits.length y.digits.length) x y hx hy).1,
      (bigint_mul_spec x y hx hy).1]
  · intro h
    unfold bigint_mul_karatsuba
    cases hm : max x.digits.length y.digits.length with
    | zero => rfl
    | succ k =>
      show (if max x.digits.length y.digits.length ≤ 25 then bigint_mul x y
        else _) = bigint_mul x y
      rw [if_pos h]

theorem c4_karatsuba_equiv_witness :
    wfD (Bigint.mk false [2, 3]).digits ∧ wfD (Bigint.mk true [5]).digits ∧
    (bigVal (bigint_mul_karatsuba ⟨false, [2, 3]⟩ ⟨true, [5]⟩)
        = bigVal (bigint_mul ⟨false, [2, 3]⟩ ⟨true, [5]⟩) ∧
      (max (Bigint.mk false [2, 3]).digits.length (Bigint.mk true [5]).digits.length ≤ 25 →
        bigint_mul_karatsuba ⟨false, [2, 3]⟩ ⟨true, [5]⟩
          = bigint_mul ⟨false, [2, 3]⟩ ⟨true, [5]⟩)) :=
  ⟨by decide, by decide,
    c4_karatsuba_equiv ⟨false, [2, 3]⟩ ⟨true, [5]⟩ (by decide) (by decide)⟩

end KokaInt
